import Mathlib

/-!
Verification of the rectangular linear sum assignment solver in
`src/lsap.rs` (a Rust translation of SciPy's `linear_sum_assignment`).

The embedding idealizes IEEE `f64` values as an inductive type `F64`
carrying an exact rational in the finite case, together with the three
non-finite classes the code tests for (`NaN`, `+inf`, `-inf`).  After the
finiteness check the algorithm works on exact rationals; values that can
be `+inf` inside the search (`shortest_path_costs`, `lowest`) are
represented by `Option α` with `none` standing for `+inf`.

Arrays indexed by rows/columns are represented as total functions
`Nat → _` updated pointwise, mirroring the in-place mutation of the Rust
vectors; the `remaining` working set, which is consumed by swap-removal,
is kept as the list of its live elements.

The augmentation walk in `solve` is a Rust `loop` with no intrinsic
termination measure, and its array indexing can go out of bounds for
ill-formed predecessor data; both abnormal outcomes (divergence, panic)
are modelled by `none`, so the top-level `solve` returns
`Option (Except LSAPError _)` with `some` exactly covering the cases
where the Rust function returns normally.
-/

/-- The two error kinds of `LSAPError` in `src/lsap.rs`. -/
inductive LSAPError where
  | Invalid
  | Infeasible
deriving DecidableEq, Repr

/-- Idealized `f64`: an exact value in a linearly ordered additive
commutative group (only `+`, `-`, `0` and comparisons are used by the
algorithm; `α = ℚ` gives the exact-rational idealization) for finite
values, plus the non-finite classes distinguished by the code
(`is_nan`, `is_infinite`). -/
inductive F64 (α : Type) where
  | fin : α → F64 α
  | nan : F64 α
  | inf : F64 α
  | ninf : F64 α
deriving DecidableEq, Repr

variable {α : Type} [LinearOrderedAddCommGroup α]

instance : Inhabited (F64 α) := ⟨F64.fin 0⟩

/-- Negation of an `f64` value (`-x` in Rust): negates finite values,
swaps the two infinities, keeps NaN. -/
def F64.neg : F64 α → F64 α
  | .fin q => .fin (-q)
  | .nan => .nan
  | .inf => .ninf
  | .ninf => .inf

/-- Finiteness test `!(x.is_nan() || x.is_infinite())`: the check the
solver applies to every entry of the working cost matrix. -/
def F64.isFinite : F64 α → Bool
  | .fin _ => true
  | _ => false

/-- The rational carried by a finite value (arbitrary on non-finite
values, which the algorithm has already rejected when this is used). -/
def F64.toRat : F64 α → α
  | .fin q => q
  | _ => 0

/-- Addition of `f64` values, used by `get_assigned_cost` to accumulate the score:
NaN propagates, opposite infinities give NaN, an infinity absorbs finite
values. -/
def F64.add : F64 α → F64 α → F64 α
  | .nan, _ => .nan
  | _, .nan => .nan
  | .inf, .ninf => .nan
  | .ninf, .inf => .nan
  | .inf, _ => .inf
  | _, .inf => .inf
  | .ninf, _ => .ninf
  | _, .ninf => .ninf
  | .fin a, .fin b => .fin (a + b)

/-- Extended rationals (rationals together with `+inf`) as `Option α`,
with `none` standing for `+inf`: the type of `shortest_path_costs`
entries and of `lowest`/`min_val`. -/
abbrev QI (α : Type) := Option α

/-- Strict `f64` comparison `x < y` restricted to finite values and
`+inf`: a finite value is below `+inf`, and `+inf < +inf` is false. -/
def QI.lt : QI α → QI α → Bool
  | some a, some b => a < b
  | some _, none => true
  | none, _ => false

/-- Equality `x == y` of `f64` values restricted to finite values and
`+inf` (IEEE `+inf == +inf` holds). -/
def QI.eq : QI α → QI α → Bool
  | some a, some b => a = b
  | none, none => true
  | _, _ => false

/-- The finite value under a `QI α` known to be finite (`0` on `+inf`;
only applied where the algorithm has established finiteness). -/
def QI.toQ : QI α → α := fun x => x.getD 0

/-- The transposed copy built by `solve` when `nc < nr`:
`temp[j*nr+i] = cost[i*nc+j]`, i.e. position `k` of the transposed
matrix holds `cost[(k % nr)*nc + k/nr]`. -/
def transposeFlat (nr nc : Nat) (cost : List (F64 α)) : List (F64 α) :=
  (List.range (nc * nr)).map fun k => cost.getD ((k % nr) * nc + k / nr) default

/-- Embedding of `argsort_iter` in `src/lsap.rs`: a stable sort
(`index.sort_by_key(|&i| &v[i])`) of the positions of `v` by their
values. -/
def argsort_iter (v : List Nat) : List Nat :=
  (List.range v.length).insertionSort (fun a b => v.getD a 0 ≤ v.getD b 0)

/-- Result of one `augmenting_path` call: the sink column (`MINUS_1` when
the search failed), the accumulated minimum `min_val`, and the final
per-search state. -/
structure SearchResult (α : Type) where
  sink : Nat
  minVal : QI α
  path : Nat → Nat
  spc : Nat → QI α
  SR : Nat → Bool
  SC : Nat → Bool

/-- The inner `for it in 0..num_remaining` scan of `augmenting_path`:
relaxes `shortest_path_costs`/`path` for every column in `remaining` from
frontier row `i`, while tracking the running minimum `lowest` and the
position `index` of the selected column (ties are re-resolved in favour
of a currently unmatched column). -/
def updateScan (nc : Nat) (cost : Nat → α) (u v : Nat → α) (row4col : Nat → Nat)
    (M i : Nat) (minVal : α) :
    List Nat → Nat → (Nat → Nat) → (Nat → QI α) → QI α → Nat →
    ((Nat → Nat) × (Nat → QI α) × QI α × Nat)
  | [], _, path, spc, lowest, index => (path, spc, lowest, index)
  | j :: rest, it, path, spc, lowest, index =>
    let r : QI α := some (minVal + cost (i * nc + j) - u i - v j)
    let path' := if QI.lt r (spc j) then (fun k => if k = j then i else path k) else path
    let spc' := if QI.lt r (spc j) then (fun k => if k = j then r else spc k) else spc
    if QI.lt (spc' j) lowest || (QI.eq (spc' j) lowest && row4col j == M) then
      updateScan nc cost u v row4col M i minVal rest (it + 1) path' spc' (spc' j) it
    else
      updateScan nc cost u v row4col M i minVal rest (it + 1) path' spc' lowest index

/-- The `while sink == MINUS_1` loop of `augmenting_path`.  Each pass
marks the frontier row visited, scans the remaining columns, and either
fails (`lowest` infinite), designates the selected unmatched column as
the sink, or removes the selected matched column (by swapping in the last
live element of `remaining`) and advances the frontier to its row.  The
loop removes one column per pass, so it performs at most `|remaining|`
passes; `fuel` makes that bound explicit (callers pass `fuel = nc ≥
|remaining|`, and the result is proved independent of any fuel at least
`|remaining|`).  The fuel-exhausted arm mirrors the empty-`remaining`
pass, which it can only coincide with. -/
def searchLoop (nc : Nat) (cost : Nat → α) (u v : Nat → α) (row4col : Nat → Nat)
    (M : Nat) :
    Nat → Nat → α → (Nat → Nat) → (Nat → QI α) → (Nat → Bool) → (Nat → Bool) →
    List Nat → SearchResult α
  | 0, i, _, path, spc, SR, SC, _ =>
    ⟨M, none, path, spc, (fun k => if k = i then true else SR k), SC⟩
  | fuel + 1, i, minVal, path, spc, SR, SC, remaining =>
    let SR' := fun k => if k = i then true else SR k
    match remaining with
    | [] => ⟨M, none, path, spc, SR', SC⟩
    | jh :: jt =>
      match hscan : updateScan nc cost u v row4col M i minVal (jh :: jt) 0 path spc none M with
      | (path', spc', none, _) => ⟨M, none, path', spc', SR', SC⟩
      | (path', spc', some lq, index) =>
        let j := (jh :: jt).getD index M
        let remaining' := ((jh :: jt).set index ((jh :: jt).getLast (by simp))).dropLast
        let SC' := fun k => if k = j then true else SC k
        if row4col j = M then ⟨j, some lq, path', spc', SR', SC'⟩
        else searchLoop nc cost u v row4col M fuel (row4col j) lq path' spc' SR' SC' remaining'

/-- Embedding of `augmenting_path`: reset the per-search state (`shortest_path_costs`
to `+inf`, visited sets to empty, `remaining` to all columns in
descending order) and run the search loop from row `i` with `min_val = 0`
(the fuel `nc` covers the `nc` columns of `remaining`). -/
def augmenting_path (nc : Nat) (cost : Nat → α) (u v : Nat → α) (path : Nat → Nat)
    (row4col : Nat → Nat) (i : Nat) (M : Nat) : SearchResult α :=
  searchLoop nc cost u v row4col M nc i 0 path (fun _ => none) (fun _ => false)
    (fun _ => false) ((List.range nc).reverse)

/-- The augmentation walk at the end of each driver iteration:
`j = sink; loop \x7b i = path[j]; row4col[j] = i; swap(col4row[i], j);
if i == cur_row break \x7d`.  Index accesses out of bounds (a Rust panic)
and exhaustion of the fuel (the walk failing to reach `cur_row`, i.e.
divergence of the Rust `loop`) are both modelled by `none`. -/
def augment (nr nc : Nat) (path : Nat → Nat) (curRow : Nat) :
    Nat → Nat → (Nat → Nat) → (Nat → Nat) → Option ((Nat → Nat) × (Nat → Nat))
  | 0, _, _, _ => none
  | fuel + 1, j, col4row, row4col =>
    if j < nc then
      let i := path j
      let row4col' := fun k => if k = j then i else row4col k
      if i < nr then
        let oldc := col4row i
        let col4row' := fun k => if k = i then j else col4row k
        if i = curRow then some (col4row', row4col')
        else augment nr nc path curRow fuel oldc col4row' row4col'
      else none
    else none

/-- The mutable solver state threaded through the driver loop of `solve`:
dual variables `u`, `v`, the predecessor array `path` (not reset between
rows), and the partial assignment `col4row`/`row4col`. -/
structure LsapState (α : Type) where
  u : Nat → α
  v : Nat → α
  path : Nat → Nat
  col4row : Nat → Nat
  row4col : Nat → Nat

/-- The initial solver state: duals at `0`, `path`/`col4row`/`row4col`
filled with the sentinel `MINUS_1`. -/
def initState (M : Nat) : LsapState α :=
  ⟨fun _ => 0, fun _ => 0, fun _ => M, fun _ => M, fun _ => M⟩

/-- One iteration of the `for cur_row in 0..nr` driver loop: run
`augmenting_path`, fail with `Infeasible` if no sink was found, update
the dual variables, and augment the assignment along the predecessor
chain (fuel `nc + 1` bounds the walk; exhaustion models divergence). -/
def driverStep (nr nc : Nat) (cost : Nat → α) (M : Nat) (curRow : Nat)
    (st : LsapState α) : Option (Except LSAPError (LsapState α)) :=
  let res := augmenting_path nc cost st.u st.v st.path st.row4col curRow M
  if res.sink = M then some (.error .Infeasible)
  else
    let mv := QI.toQ res.minVal
    let u1 := fun k => if k = curRow then st.u curRow + mv else st.u k
    let u2 := fun k =>
      if k < nr ∧ res.SR k = true ∧ k ≠ curRow then
        u1 k + (mv - QI.toQ (res.spc (st.col4row k)))
      else u1 k
    let v2 := fun k =>
      if k < nc ∧ res.SC k = true then st.v k - (mv - QI.toQ (res.spc k))
      else st.v k
    match augment nr nc res.path curRow (nc + 1) res.sink st.col4row st.row4col with
    | none => none
    | some (c4r, r4c) => some (.ok ⟨u2, v2, res.path, c4r, r4c⟩)

/-- The driver loop over the list of rows still to process. -/
def driverLoop (nr nc : Nat) (cost : Nat → α) (M : Nat) :
    List Nat → LsapState α → Option (Except LSAPError (LsapState α))
  | [], st => some (.ok st)
  | curRow :: rest, st =>
    match driverStep nr nc cost M curRow st with
    | none => none
    | some (.error e) => some (.error e)
    | some (.ok st') => driverLoop nr nc cost M rest st'

/-- Body of `solve` after normalization: `nr' ≤ nc'` are the working
dimensions, `sc` the working (possibly transposed/negated) cost matrix,
`transpose` records whether the input was transposed.  Rejects
non-finite entries, runs the driver loop over all rows, and assembles
the answer (through `argsort_iter` when the matrix was transposed). -/
def solveMain (nr' nc' : Nat) (sc : List (F64 α)) (transpose : Bool) :
    Option (Except LSAPError (List Nat × List Nat)) :=
  if (List.range (nr' * nc')).all (fun k => (sc.getD k default).isFinite) then
    let costQ : Nat → α := fun k => (sc.getD k default).toRat
    let M := nr' * nc'
    match driverLoop nr' nc' costQ M (List.range nr') (initState M) with
    | none => none
    | some (.error e) => some (.error e)
    | some (.ok st) =>
      if transpose then
        let c4rList := (List.range nr').map st.col4row
        let idx := argsort_iter c4rList
        some (.ok (idx.map (fun t => c4rList.getD t 0), idx))
      else
        some (.ok (List.range nr', (List.range nr').map st.col4row))
  else some (.error .Invalid)

/-- Embedding of `solve` from `src/lsap.rs`: handle trivial dimensions, transpose a
tall matrix, negate for maximization, then run `solveMain` on the
normalized data.  `none` models abnormal termination of the Rust code
(divergence or panic), `some` its normal return value. -/
def solve (nr nc : Nat) (cost : List (F64 α)) (maximize : Bool) :
    Option (Except LSAPError (List Nat × List Nat)) :=
  if nr = 0 ∨ nc = 0 then some (.ok ([], []))
  else
    let transpose : Bool := decide (nc < nr)
    let nr' := if transpose then nc else nr
    let nc' := if transpose then nr else nc
    let sc0 := if transpose then transposeFlat nr nc cost else cost
    let sc := if maximize then sc0.map F64.neg else sc0
    solveMain nr' nc' sc transpose

/-- Embedding of `get_assigned_cost`: sum the cost entries over the pairing returned
by `solve` (accumulating with `f64` addition from `0.0`). -/
def get_assigned_cost (nr nc : Nat) (cost : List (F64 α)) (maximize : Bool) :
    Option (Except LSAPError (F64 α)) :=
  match solve nr nc cost maximize with
  | none => none
  | some (.error e) => some (.error e)
  | some (.ok (rows, cols)) =>
    some (.ok ((rows.zip cols).foldl
      (fun s p => s.add (cost.getD (p.1 * nc + p.2) default)) (.fin 0)))

deriving instance DecidableEq for Except


/-! ### Basic facts about the idealized `f64` operations -/

theorem F64.isFinite_neg (x : F64 α) : x.neg.isFinite = x.isFinite := by
  cases x <;> rfl

theorem F64.neg_neg (x : F64 α) : x.neg.neg = x := by
  cases x <;> simp [F64.neg]

theorem F64.neg_default : F64.neg (default : F64 α) = default := by
  show F64.fin (-0 : α) = F64.fin 0
  rw [neg_zero]

theorem F64.neg_add (x y : F64 α) : (x.add y).neg = x.neg.add y.neg := by
  cases x <;> cases y <;> try rfl
  simp only [F64.add, F64.neg]
  congr 1
  rw [neg_add_rev, add_comm]

theorem getD_map_neg (l : List (F64 α)) (k : Nat) :
    (l.map F64.neg).getD k default = F64.neg (l.getD k default) := by
  induction l generalizing k with
  | nil => simp [List.getD, F64.neg_default]
  | cons a t ih =>
    cases k with
    | zero => rfl
    | succ k => simpa using ih k

theorem getD_range_map {α : Type _} (f : Nat → α) (n k : Nat) (d : α) (h : k < n) :
    (((List.range n).map f).getD k d) = f k := by
  rw [List.getD_eq_getElem?_getD, List.getElem?_map, List.getElem?_range h]
  rfl

/-- Entry `k'` of the transposed matrix, for `k' < nc * nr`. -/
theorem transposeFlat_getD (nr nc : Nat) (cost : List (F64 α)) (k' : Nat)
    (h : k' < nc * nr) :
    (transposeFlat nr nc cost).getD k' default
      = cost.getD ((k' % nr) * nc + k' / nr) default := by
  unfold transposeFlat
  exact getD_range_map _ _ _ _ h

/-! ### C9: trivial dimensions -/

/-- C9.  If `rows == 0` or `cols == 0` then `solve` returns `Ok` with two
empty sequences, for every cost vector and maximize flag (the trivial
case returns before any cost entry is inspected). -/
theorem C9_trivial_dimension (nr nc : Nat) (cost : List (F64 α)) (maximize : Bool)
    (h : nr = 0 ∨ nc = 0) :
    solve nr nc cost maximize = some (.ok ([], [])) := by
  unfold solve
  rw [if_pos h]

/-- Witness for C9 at a concrete input. -/
theorem C9_trivial_dimension_witness :
    (0 = 0 ∨ 3 = 0) ∧ solve 0 3 [(F64.nan : F64 ℤ)] true = some (.ok ([], [])) :=
  ⟨Or.inl rfl, C9_trivial_dimension 0 3 [(F64.nan : F64 ℤ)] true (Or.inl rfl)⟩

/-! ### C3: non-finite entries are rejected -/

/-- Auxiliary: `solveMain` rejects a working matrix with a non-finite
entry inside the scanned range. -/
theorem solveMain_invalid (nr' nc' : Nat) (sc : List (F64 α)) (transpose : Bool)
    (k' : Nat) (hk' : k' < nr' * nc')
    (hbad : (sc.getD k' default).isFinite = false) :
    solveMain nr' nc' sc transpose = some (.error .Invalid) := by
  unfold solveMain
  rw [if_neg]
  intro hall
  rw [List.all_eq_true] at hall
  have := hall k' (List.mem_range.mpr hk')
  simp only [decide_eq_true_eq] at this
  rw [this] at hbad
  exact Bool.noConfusion hbad

/-- Auxiliary: a bad entry of the input matrix stays bad in the
transposed copy. -/
theorem transposeFlat_bad (rows cols : Nat) (cost : List (F64 α)) (k : Nat)
    (hr : 1 ≤ rows) (hc : 1 ≤ cols) (hk : k < rows * cols)
    (hbad : (cost.getD k default).isFinite = false) :
    ∃ k', k' < cols * rows ∧
      ((transposeFlat rows cols cost).getD k' default).isFinite = false := by
  have hilt : k / cols < rows := by
    apply Nat.div_lt_of_lt_mul
    calc k < rows * cols := hk
    _ = cols * rows := Nat.mul_comm _ _
  have hjlt : k % cols < cols := Nat.mod_lt _ (by omega)
  refine ⟨(k / cols) + (k % cols) * rows, by nlinarith, ?_⟩
  rw [transposeFlat_getD rows cols cost _ (by nlinarith)]
  have h1 : ((k / cols) + (k % cols) * rows) % rows = k / cols := by
    rw [Nat.add_mul_mod_self_right, Nat.mod_eq_of_lt hilt]
  have h2 : ((k / cols) + (k % cols) * rows) / rows = k % cols := by
    rw [Nat.add_mul_div_right _ _ (by omega : 0 < rows),
      Nat.div_eq_of_lt hilt, Nat.zero_add]
  rw [h1, h2]
  have : k / cols * cols + k % cols = k := by
    rw [Nat.mul_comm]
    exact Nat.div_add_mod k cols
  rw [this]
  exact hbad

/-- C3.  For positive dimensions, a cost matrix with a NaN or infinite
entry makes `solve` return the `Invalid` error (never any pairing),
regardless of the maximize flag and of transposition. -/
theorem C3_invalid_rejection (rows cols : Nat) (cost : List (F64 α)) (maximize : Bool)
    (k : Nat) (hr : 1 ≤ rows) (hc : 1 ≤ cols) (hk : k < rows * cols)
    (hbad : (cost.getD k default).isFinite = false) :
    solve rows cols cost maximize = some (.error .Invalid) := by
  unfold solve
  rw [if_neg (by omega)]
  by_cases ht : cols < rows
  · simp only [ht, decide_True, eq_self_iff_true, if_true]
    obtain ⟨k', hk', hbad'⟩ := transposeFlat_bad rows cols cost k hr hc hk hbad
    cases maximize with
    | false => exact solveMain_invalid _ _ _ _ k' hk' hbad'
    | true =>
      refine solveMain_invalid _ _ _ _ k' hk' ?_
      rw [if_pos rfl, getD_map_neg, F64.isFinite_neg]
      exact hbad'
  · simp only [ht, decide_False, Bool.false_eq_true, if_false]
    cases maximize with
    | false => exact solveMain_invalid _ _ _ _ k hk hbad
    | true =>
      refine solveMain_invalid _ _ _ _ k hk ?_
      rw [if_pos rfl, getD_map_neg, F64.isFinite_neg]
      exact hbad

/-- Witness for C3 at a concrete input. -/
theorem C3_invalid_rejection_witness :
    1 ≤ 2 ∧ 1 ≤ 3 ∧ 4 < 2 * 3
      ∧ (([F64.fin 1, .fin 2, .fin 3, .fin 4, .inf, .fin 6] : List (F64 ℤ)).getD 4
          default).isFinite = false
      ∧ solve 2 3 [F64.fin (1 : ℤ), .fin 2, .fin 3, .fin 4, .inf, .fin 6] true
          = some (.error .Invalid) :=
  ⟨by decide, by decide, by decide, by decide,
    C3_invalid_rejection 2 3 _ true 4 (by decide) (by decide) (by decide)
      (by decide)⟩


/-! ### C7: maximization is minimization of the negated matrix -/

/-- Auxiliary: negating commutes with transposition of the flattened
matrix. -/
theorem map_neg_transposeFlat (nr nc : Nat) (cost : List (F64 α)) :
    (transposeFlat nr nc cost).map F64.neg
      = transposeFlat nr nc (cost.map F64.neg) := by
  unfold transposeFlat
  rw [List.map_map]
  apply List.map_congr_left
  intro k _
  simp only [Function.comp_apply]
  rw [getD_map_neg]

/-- Auxiliary: the assigned-cost accumulation over the negated matrix is
the negation of the accumulation over the original matrix. -/
theorem fold_score_neg (nc : Nat) (cost : List (F64 α)) (ps : List (Nat × Nat)) (a : F64 α) :
    ps.foldl (fun s p => s.add ((cost.map F64.neg).getD (p.1 * nc + p.2) default)) a.neg
      = (ps.foldl (fun s p => s.add (cost.getD (p.1 * nc + p.2) default)) a).neg := by
  induction ps generalizing a with
  | nil => rfl
  | cons p t ih =>
    simp only [List.foldl_cons]
    rw [getD_map_neg, ← F64.neg_add]
    exact ih _

/-- C7.  Solving the maximization problem on `cost` gives exactly the
same pair of index sequences as solving the minimization problem on the
entrywise-negated matrix, and the corresponding `get_assigned_cost`
values are negatives of each other (errors and abnormal outcomes
coincide). -/
theorem C7_maximize_negation (nr nc : Nat) (cost : List (F64 α)) :
    solve nr nc cost true = solve nr nc (cost.map F64.neg) false
    ∧ get_assigned_cost nr nc cost true
      = Option.map (Except.map F64.neg)
          (get_assigned_cost nr nc (cost.map F64.neg) false) := by
  have hsolve : solve nr nc cost true = solve nr nc (cost.map F64.neg) false := by
    unfold solve
    by_cases h0 : nr = 0 ∨ nc = 0
    · rw [if_pos h0, if_pos h0]
    · rw [if_neg h0, if_neg h0]
      simp only []
      rw [if_true, if_neg (by simp : ¬(false = true))]
      congr 1
      by_cases ht : nc < nr
      · simp only [ht, decide_True, eq_self_iff_true, if_true]
        exact map_neg_transposeFlat nr nc cost
      · simp only [ht, decide_False, Bool.false_eq_true, if_false]
  refine ⟨hsolve, ?_⟩
  unfold get_assigned_cost
  rw [hsolve]
  cases hres : solve nr nc (cost.map F64.neg) false with
  | none => rfl
  | some e =>
    cases e with
    | error err => rfl
    | ok pair =>
      simp only [Option.map_some, Except.map]
      have h0 : (F64.fin (0 : α)) = (F64.fin (0 : α)).neg := by
        show F64.fin (0 : α) = F64.fin (-0)
        rw [neg_zero]
      conv_rhs => rw [h0, fold_score_neg]
      simp [Except.map, F64.neg_neg]

/-! ### Swap-removal of the selected column from `remaining` -/

/-- Auxiliary: removing position `idx` by overwriting it with the last
element and dropping the last position is, up to permutation, `eraseIdx`. -/
theorem swapRemove_perm (l : List Nat) (idx : Nat) (hne : l ≠ [])
    (h : idx < l.length) :
    ((l.set idx (l.getLast hne)).dropLast).Perm (l.eraseIdx idx) := by
  induction l generalizing idx with
  | nil => exact absurd rfl hne
  | cons a t ih =>
    cases t with
    | nil =>
      cases idx with
      | zero => simp
      | succ p => simp at h
    | cons b t' =>
      cases idx with
      | zero =>
        simp only [List.set_cons_zero, List.eraseIdx_cons_zero]
        have h1 : (a :: b :: t').getLast hne = (b :: t').getLast (by simp) :=
          List.getLast_cons (by simp)
        rw [h1, List.dropLast_cons₂]
        have h3 := List.dropLast_append_getLast (l := b :: t') (by simp)
        conv_rhs => rw [← h3]
        exact (List.perm_append_singleton _ _).symm
      | succ p =>
        simp only [List.set_cons_succ, List.eraseIdx_cons_succ]
        have h1 : (a :: b :: t').getLast hne = (b :: t').getLast (by simp) :=
          List.getLast_cons (by simp)
        rw [h1]
        have hset : ((b :: t').set p ((b :: t').getLast (by simp))) ≠ [] := by
          intro hcon
          have := congrArg List.length hcon
          simp at this
        rw [List.dropLast_cons_of_ne_nil hset]
        exact (ih p (by simp) (by simpa using h)).cons a

/-- Auxiliary: the swap-removed list is contained in the original. -/
theorem swapRemove_subset (l : List Nat) (idx : Nat) (hne : l ≠ [])
    (h : idx < l.length) (x : Nat)
    (hx : x ∈ (l.set idx (l.getLast hne)).dropLast) : x ∈ l := by
  have := (swapRemove_perm l idx hne h).mem_iff.mp hx
  rw [List.mem_eraseIdx_iff_getElem] at this
  obtain ⟨p, hp, _, hval⟩ := this
  rw [← hval]
  exact List.getElem_mem hp

/-- Auxiliary: every element other than the removed one survives
swap-removal. -/
theorem swapRemove_mem (l : List Nat) (idx : Nat) (hne : l ≠ [])
    (h : idx < l.length) (k : Nat) (hk : k ∈ l) (hne' : k ≠ l[idx]) :
    k ∈ (l.set idx (l.getLast hne)).dropLast := by
  rw [(swapRemove_perm l idx hne h).mem_iff, List.mem_eraseIdx_iff_getElem]
  obtain ⟨p, hp, hval⟩ := List.getElem_of_mem hk
  refine ⟨p, hp, ?_, hval⟩
  intro hcon
  subst hcon
  exact hne' hval.symm

/-- Auxiliary: swap-removal preserves distinctness. -/
theorem swapRemove_nodup (l : List Nat) (idx : Nat) (hne : l ≠ [])
    (h : idx < l.length) (hnd : l.Nodup) :
    ((l.set idx (l.getLast hne)).dropLast).Nodup :=
  (swapRemove_perm l idx hne h).nodup_iff.mpr (hnd.eraseIdx idx)

/-- Auxiliary: the removed element does not survive swap-removal of a
duplicate-free list. -/
theorem swapRemove_not_mem (l : List Nat) (idx : Nat) (hne : l ≠ [])
    (h : idx < l.length) (hnd : l.Nodup) :
    l[idx] ∉ (l.set idx (l.getLast hne)).dropLast := by
  intro hcon
  rw [(swapRemove_perm l idx hne h).mem_iff, List.mem_eraseIdx_iff_getElem] at hcon
  obtain ⟨p, hp, hpne, hval⟩ := hcon
  exact hpne (List.Nodup.getElem_inj_iff hnd |>.mp hval)

/-! ### Characterization of the inner relaxation scan -/

/-- Auxiliary: a finite value is strictly below `+inf`. -/
theorem QI_lt_some_none (q : α) : QI.lt (some q) none = true := rfl

/-- Auxiliary: after the scan, a column outside `remaining` is untouched,
and a column of a duplicate-free `remaining` holds a finite shortest-path
cost, either its old value or the freshly relaxed one (in which case its
predecessor is the frontier row). -/
theorem updateScan_pointwise (nc : Nat) (cost : Nat → α) (u v : Nat → α)
    (r4c : Nat → Nat) (M i : Nat) (mv : α) :
    ∀ (rem : List Nat) (it : Nat) (path : Nat → Nat) (spc : Nat → QI α) (lowest : QI α)
      (index : Nat) (pathF : Nat → Nat) (spcF : Nat → QI α) (lowF : QI α) (idxF : Nat),
      updateScan nc cost u v r4c M i mv rem it path spc lowest index
        = (pathF, spcF, lowF, idxF) →
      rem.Nodup →
      ∀ k, (k ∉ rem → pathF k = path k ∧ spcF k = spc k)
        ∧ (k ∈ rem → spcF k ≠ none
            ∧ ((pathF k = path k ∧ spcF k = spc k)
              ∨ (pathF k = i
                ∧ spcF k = some (mv + cost (i * nc + k) - u i - v k)))) := by
  intro rem
  induction rem with
  | nil =>
    intro it path spc lowest index pathF spcF lowF idxF heq _ k
    have heq' : ((path, spc, lowest, index) :
        ((Nat → Nat) × (Nat → QI α) × QI α × Nat)) = (pathF, spcF, lowF, idxF) := heq
    simp only [Prod.mk.injEq] at heq'
    obtain ⟨h1, h2, -, -⟩ := heq'
    refine ⟨fun _ => ⟨h1 ▸ rfl, h2 ▸ rfl⟩, fun hk => absurd hk (List.not_mem_nil k)⟩
  | cons j rest ih =>
    intro it path spc lowest index pathF spcF lowF idxF heq hnodup k
    set r : QI α := some (mv + cost (i * nc + j) - u i - v j) with hr
    set path1 : Nat → Nat :=
      if QI.lt r (spc j) then (fun k => if k = j then i else path k) else path with hp1
    set spc1 : Nat → QI α :=
      if QI.lt r (spc j) then (fun k => if k = j then r else spc k) else spc with hs1
    have hstep : updateScan nc cost u v r4c M i mv (j :: rest) it path spc lowest index
        = if QI.lt (spc1 j) lowest || (QI.eq (spc1 j) lowest && r4c j == M) then
            updateScan nc cost u v r4c M i mv rest (it + 1) path1 spc1 (spc1 j) it
          else
            updateScan nc cost u v r4c M i mv rest (it + 1) path1 spc1 lowest index := rfl
    rw [hstep] at heq
    have hjrest : j ∉ rest := (List.nodup_cons.mp hnodup).1
    have hrest : rest.Nodup := (List.nodup_cons.mp hnodup).2
    have hpt1 : ∀ k', k' ≠ j → path1 k' = path k' ∧ spc1 k' = spc k' := by
      intro k' hk'
      rw [hp1, hs1]
      by_cases hlt : QI.lt r (spc j) = true <;> simp [hlt, hk']
    have hpt2 : spc1 j ≠ none ∧ ((path1 j = path j ∧ spc1 j = spc j)
        ∨ (path1 j = i ∧ spc1 j = r)) := by
      rw [hp1, hs1]
      by_cases hlt : QI.lt r (spc j) = true
      · rw [if_pos hlt, if_pos hlt]
        exact ⟨by simp [hr], Or.inr ⟨by simp, by simp⟩⟩
      · rw [if_neg hlt, if_neg hlt]
        refine ⟨?_, Or.inl ⟨rfl, rfl⟩⟩
        intro hcon
        rw [hcon] at hlt
        exact hlt (QI_lt_some_none _)
    have hnext : ∀ lo idx, updateScan nc cost u v r4c M i mv rest (it + 1) path1 spc1 lo idx
        = (pathF, spcF, lowF, idxF) →
        (k ∉ j :: rest → pathF k = path k ∧ spcF k = spc k)
        ∧ (k ∈ j :: rest → spcF k ≠ none
            ∧ ((pathF k = path k ∧ spcF k = spc k)
              ∨ (pathF k = i ∧ spcF k = some (mv + cost (i * nc + k) - u i - v k)))) := by
      intro lo idx heq2
      have IH := ih (it + 1) path1 spc1 lo idx pathF spcF lowF idxF heq2 hrest k
      constructor
      · intro hk
        have hkj : k ≠ j := fun hcon => hk (hcon ▸ List.mem_cons_self j rest)
        have hkr : k ∉ rest := fun hcon => hk (List.mem_cons_of_mem j hcon)
        have h1 := IH.1 hkr
        have h2 := hpt1 k hkj
        exact ⟨h1.1.trans h2.1, h1.2.trans h2.2⟩
      · intro hk
        rcases List.mem_cons.mp hk with hkj | hkr
        · subst hkj
          have h1 := IH.1 hjrest
          refine ⟨h1.2 ▸ hpt2.1, ?_⟩
          rcases hpt2.2 with ⟨ha, hb⟩ | ⟨ha, hb⟩
          · exact Or.inl ⟨h1.1.trans ha, h1.2.trans hb⟩
          · exact Or.inr ⟨h1.1.trans ha, h1.2.trans (hb.trans hr)⟩
        · have hkj : k ≠ j := fun hcon => hjrest (hcon ▸ hkr)
          have h2 := hpt1 k hkj
          have h3 := IH.2 hkr
          refine ⟨h3.1, ?_⟩
          rcases h3.2 with ⟨ha, hb⟩ | ⟨ha, hb⟩
          · exact Or.inl ⟨ha.trans h2.1, hb.trans h2.2⟩
          · exact Or.inr ⟨ha, hb⟩
    by_cases hcond : (QI.lt (spc1 j) lowest || (QI.eq (spc1 j) lowest && r4c j == M)) = true
    · rw [if_pos hcond] at heq
      exact hnext _ _ heq
    · rw [if_neg hcond] at heq
      exact hnext _ _ heq

/-- Auxiliary: the scan returns a finite `lowest` as soon as `remaining`
is nonempty, and then the selected `index` is a valid position of the
scanned list. -/
theorem updateScan_sel (nc : Nat) (cost : Nat → α) (u v : Nat → α)
    (r4c : Nat → Nat) (M i : Nat) (mv : α) :
    ∀ (rem : List Nat) (it : Nat) (path : Nat → Nat) (spc : Nat → QI α) (lowest : QI α)
      (index : Nat) (pathF : Nat → Nat) (spcF : Nat → QI α) (lowF : QI α) (idxF : Nat),
      updateScan nc cost u v r4c M i mv rem it path spc lowest index
        = (pathF, spcF, lowF, idxF) →
      (∀ q, lowest = some q → index < it) →
      (∀ q, lowF = some q → idxF < it + rem.length)
      ∧ (lowF = none → lowest = none ∧ rem = []) := by
  intro rem
  induction rem with
  | nil =>
    intro it path spc lowest index pathF spcF lowF idxF heq hinv
    have heq' : ((path, spc, lowest, index) :
        ((Nat → Nat) × (Nat → QI α) × QI α × Nat)) = (pathF, spcF, lowF, idxF) := heq
    simp only [Prod.mk.injEq] at heq'
    obtain ⟨-, -, h3, h4⟩ := heq'
    constructor
    · intro q hq
      have := hinv q (h3.symm ▸ hq)
      omega
    · intro hq
      exact ⟨h3 ▸ hq, rfl⟩
  | cons j rest ih =>
    intro it path spc lowest index pathF spcF lowF idxF heq hinv
    set r : QI α := some (mv + cost (i * nc + j) - u i - v j) with hr
    set path1 : Nat → Nat :=
      if QI.lt r (spc j) then (fun k => if k = j then i else path k) else path with hp1
    set spc1 : Nat → QI α :=
      if QI.lt r (spc j) then (fun k => if k = j then r else spc k) else spc with hs1
    have hstep : updateScan nc cost u v r4c M i mv (j :: rest) it path spc lowest index
        = if QI.lt (spc1 j) lowest || (QI.eq (spc1 j) lowest && r4c j == M) then
            updateScan nc cost u v r4c M i mv rest (it + 1) path1 spc1 (spc1 j) it
          else
            updateScan nc cost u v r4c M i mv rest (it + 1) path1 spc1 lowest index := rfl
    rw [hstep] at heq
    have hs1j : spc1 j ≠ none := by
      rw [hs1]
      by_cases hlt : QI.lt r (spc j) = true
      · rw [if_pos hlt]
        simp [hr]
      · rw [if_neg hlt]
        intro hcon
        rw [hcon] at hlt
        exact hlt (QI_lt_some_none _)
    by_cases hcond : (QI.lt (spc1 j) lowest || (QI.eq (spc1 j) lowest && r4c j == M)) = true
    · rw [if_pos hcond] at heq
      have IH := ih (it + 1) path1 spc1 (spc1 j) it pathF spcF lowF idxF heq
        (fun _ _ => Nat.lt_succ_self it)
      constructor
      · intro q hq
        have := IH.1 q hq
        simp only [List.length_cons]
        omega
      · intro hq
        exact absurd (IH.2 hq).1 hs1j
    · rw [if_neg hcond] at heq
      have hlsome : lowest ≠ none := by
        intro hl0
        apply hcond
        rw [hl0]
        obtain ⟨q', hq'⟩ := Option.ne_none_iff_exists'.mp hs1j
        rw [hq', QI_lt_some_none]
        rfl
      have IH := ih (it + 1) path1 spc1 lowest index pathF spcF lowF idxF heq
        (by
          intro q hq
          have := hinv q hq
          omega)
      constructor
      · intro q hq
        have := IH.1 q hq
        simp only [List.length_cons]
        omega
      · intro hq
        exact absurd (IH.2 hq).1 hlsome

/-! ### Step equations for the search loop -/

/-- Auxiliary: step equation of `searchLoop` when the scan reports an
infinite minimum. -/
theorem searchLoop_cons_none (nc : Nat) (cost : Nat → α) (u v : Nat → α)
    (r4c : Nat → Nat) (M : Nat) (fuel i : Nat) (mv : α) (path : Nat → Nat) (spc : Nat → QI α)
    (SR SC : Nat → Bool) (jh : Nat) (jt : List Nat) (p' : Nat → Nat) (s' : Nat → QI α)
    (snd : Nat)
    (hscan : updateScan nc cost u v r4c M i mv (jh :: jt) 0 path spc none M
      = (p', s', none, snd)) :
    searchLoop nc cost u v r4c M (fuel + 1) i mv path spc SR SC (jh :: jt)
      = ⟨M, none, p', s', (fun k => if k = i then true else SR k), SC⟩ := by
  rw [searchLoop]
  split
  · rename_i p2 s2 snd2 heq2
    rw [hscan] at heq2
    simp only [Prod.mk.injEq] at heq2
    obtain ⟨h1, h2, -, -⟩ := heq2
    rw [h1, h2]
  · rename_i p2 s2 lq2 idx2 heq2
    rw [hscan] at heq2
    simp only [Prod.mk.injEq] at heq2
    exact absurd heq2.2.2.1 (by simp)

/-- Auxiliary: step equation of `searchLoop` when the selected column is
unmatched (the sink is found). -/
theorem searchLoop_cons_sink (nc : Nat) (cost : Nat → α) (u v : Nat → α)
    (r4c : Nat → Nat) (M : Nat) (fuel i : Nat) (mv : α) (path : Nat → Nat) (spc : Nat → QI α)
    (SR SC : Nat → Bool) (jh : Nat) (jt : List Nat) (p' : Nat → Nat) (s' : Nat → QI α)
    (lq : α) (index : Nat)
    (hscan : updateScan nc cost u v r4c M i mv (jh :: jt) 0 path spc none M
      = (p', s', some lq, index))
    (hr : r4c ((jh :: jt).getD index M) = M) :
    searchLoop nc cost u v r4c M (fuel + 1) i mv path spc SR SC (jh :: jt)
      = ⟨(jh :: jt).getD index M, some lq, p', s',
          (fun k => if k = i then true else SR k),
          (fun k => if k = (jh :: jt).getD index M then true else SC k)⟩ := by
  rw [searchLoop]
  split
  · rename_i p2 s2 snd2 heq2
    rw [hscan] at heq2
    simp only [Prod.mk.injEq] at heq2
    exact absurd heq2.2.2.1 (by simp)
  · rename_i p2 s2 lq2 idx2 heq2
    rw [hscan] at heq2
    simp only [Prod.mk.injEq, Option.some.injEq] at heq2
    obtain ⟨h1, h2, h3, h4⟩ := heq2
    rw [← h1, ← h2, ← h3, ← h4]
    rw [if_pos (h4 ▸ hr)]

/-- Auxiliary: step equation of `searchLoop` when the selected column is
matched (the search advances to its row). -/
theorem searchLoop_cons_rec (nc : Nat) (cost : Nat → α) (u v : Nat → α)
    (r4c : Nat → Nat) (M : Nat) (fuel i : Nat) (mv : α) (path : Nat → Nat) (spc : Nat → QI α)
    (SR SC : Nat → Bool) (jh : Nat) (jt : List Nat) (p' : Nat → Nat) (s' : Nat → QI α)
    (lq : α) (index : Nat)
    (hscan : updateScan nc cost u v r4c M i mv (jh :: jt) 0 path spc none M
      = (p', s', some lq, index))
    (hr : r4c ((jh :: jt).getD index M) ≠ M) :
    searchLoop nc cost u v r4c M (fuel + 1) i mv path spc SR SC (jh :: jt)
      = searchLoop nc cost u v r4c M fuel (r4c ((jh :: jt).getD index M)) lq p' s'
          (fun k => if k = i then true else SR k)
          (fun k => if k = (jh :: jt).getD index M then true else SC k)
          (((jh :: jt).set index ((jh :: jt).getLast (by simp))).dropLast) := by
  rw [searchLoop]
  split
  · rename_i p2 s2 snd2 heq2
    rw [hscan] at heq2
    simp only [Prod.mk.injEq] at heq2
    exact absurd heq2.2.2.1 (by simp)
  · rename_i p2 s2 lq2 idx2 heq2
    rw [hscan] at heq2
    simp only [Prod.mk.injEq, Option.some.injEq] at heq2
    obtain ⟨h1, h2, h3, h4⟩ := heq2
    rw [← h1, ← h2, ← h3, ← h4]
    rw [if_neg (h4 ▸ hr)]

/-! ### Predecessor chains recorded by the search -/

/-- A predecessor chain of columns: each column's recorded predecessor
row is the row matched to the next column of the chain, and the last
column's predecessor is the starting row `cur` of the search.  The
augmentation walk of `solve` follows exactly such a chain. -/
def ChainL (path row4col : Nat → Nat) (cur nr nc : Nat) : List Nat → Prop
  | [] => False
  | [j] => j < nc ∧ path j = cur
  | j :: j' :: t => j < nc ∧ path j = row4col j' ∧ row4col j' < nr ∧ row4col j' ≠ cur
      ∧ ChainL path row4col cur nr nc (j' :: t)

/-- Auxiliary: a chain only depends on `path` at its own columns. -/
theorem ChainL_congr (p1 p2 row4col : Nat → Nat) (cur nr nc : Nat) :
    ∀ l, (∀ x ∈ l, p2 x = p1 x) → ChainL p1 row4col cur nr nc l
      → ChainL p2 row4col cur nr nc l := by
  intro l
  induction l with
  | nil => intro _ h; exact h.elim
  | cons j t ih =>
    cases t with
    | nil =>
      intro hag h
      obtain ⟨h1, h2⟩ := h
      exact ⟨h1, (hag j (by simp)).trans h2⟩
    | cons j' t' =>
      intro hag h
      obtain ⟨h1, h2, h3, h4, h5⟩ := h
      refine ⟨h1, (hag j (by simp)).trans h2, h3, h4, ?_⟩
      exact ih (fun x hx => hag x (List.mem_cons_of_mem j hx)) h5

set_option linter.unusedSectionVars false in
/-- Auxiliary: after the scan, every column with a finite shortest-path
cost heads a predecessor chain through visited columns (chains recorded
earlier run through visited columns, on which the scan does not touch
`path`; freshly relaxed columns chain through the current frontier). -/
theorem scanChainPost (nc : Nat) (nr cur : Nat) (r4c : Nat → Nat) (i : Nat)
    (rem : List Nat) (path p' : Nat → Nat) (spc s' : Nat → QI α) (SC : Nat → Bool)
    (Hpw : ∀ k, (k ∉ rem → p' k = path k ∧ s' k = spc k)
      ∧ (k ∈ rem → s' k ≠ none
          ∧ ((p' k = path k ∧ s' k = spc k) ∨ (p' k = i ∧ True))))
    (HSCrem : ∀ x ∈ rem, SC x = false)
    (Hremlt : ∀ x ∈ rem, x < nc)
    (Hfr : i = cur ∨ (i < nr ∧ ∃ jf, SC jf = true ∧ r4c jf = i))
    (HSCspc : ∀ k, SC k = true → spc k ≠ none ∧ k < nc)
    (Hch : ∀ k, spc k ≠ none →
      ∃ js, ChainL path r4c cur nr nc (k :: js) ∧ (∀ x ∈ js, SC x = true)
        ∧ (k :: js).Nodup) :
    ∀ k, s' k ≠ none →
      ∃ js, ChainL p' r4c cur nr nc (k :: js) ∧ (∀ x ∈ js, SC x = true)
        ∧ (k :: js).Nodup := by
  have htrans : ∀ k js, p' k = path k → (∀ x ∈ js, SC x = true) →
      ChainL path r4c cur nr nc (k :: js) → ChainL p' r4c cur nr nc (k :: js) := by
    intro k js hpk hSC hchain
    refine ChainL_congr path p' r4c cur nr nc (k :: js) ?_ hchain
    intro x hx
    rcases List.mem_cons.mp hx with h | h
    · exact h ▸ hpk
    · have hSCx := hSC x h
      have hxrem : x ∉ rem := by
        intro hcon
        rw [HSCrem x hcon] at hSCx
        exact Bool.noConfusion hSCx
      exact ((Hpw x).1 hxrem).1
  intro k hk'
  by_cases hkrem : k ∈ rem
  · obtain ⟨-, hcase⟩ := (Hpw k).2 hkrem
    rcases hcase with ⟨hpk, hsk⟩ | ⟨hpk, -⟩
    · obtain ⟨js, hchain, hjsSC, hnd⟩ := Hch k (hsk ▸ hk')
      exact ⟨js, htrans k js hpk hjsSC hchain, hjsSC, hnd⟩
    · by_cases hicur : i = cur
      · refine ⟨[], ?_, by simp, by simp⟩
        exact ⟨Hremlt k hkrem, hpk.trans hicur⟩
      · obtain ⟨hinr, jf, hjfSC, hjfr4c⟩ := Hfr.resolve_left hicur
        obtain ⟨hspcjf, -⟩ := HSCspc jf hjfSC
        obtain ⟨js, hchain, hjsSC, hnd⟩ := Hch jf hspcjf
        have hjfSC' : ∀ x ∈ jf :: js, SC x = true := by
          intro x hx
          rcases List.mem_cons.mp hx with h | h
          · exact h ▸ hjfSC
          · exact hjsSC x h
        have hchain' : ChainL p' r4c cur nr nc (jf :: js) := by
          refine ChainL_congr path p' r4c cur nr nc (jf :: js) ?_ hchain
          intro x hx
          have hxrem : x ∉ rem := by
            intro hcon
            have hx2 := hjfSC' x hx
            rw [HSCrem x hcon] at hx2
            exact Bool.noConfusion hx2
          exact ((Hpw x).1 hxrem).1
        refine ⟨jf :: js, ?_, hjfSC', ?_⟩
        · show ChainL p' r4c cur nr nc (k :: jf :: js)
          refine ⟨Hremlt k hkrem, ?_, hjfr4c ▸ hinr, hjfr4c.symm ▸ hicur, hchain'⟩
          rw [hpk, hjfr4c]
        · rw [List.nodup_cons]
          refine ⟨?_, hnd⟩
          intro hcon
          have := hjfSC' k hcon
          rw [HSCrem k hkrem] at this
          exact Bool.noConfusion this
  · obtain ⟨hpk, hsk⟩ := (Hpw k).1 hkrem
    obtain ⟨js, hchain, hjsSC, hnd⟩ := Hch k (hsk ▸ hk')
    exact ⟨js, htrans k js hpk hjsSC hchain, hjsSC, hnd⟩

/-! ### Master invariant of the search loop -/

/-- Auxiliary master lemma for `searchLoop`: under the search invariants
(duplicate-free in-range unvisited working set, frontier reachable from
the start row through visited columns, chains recorded for all finitely
labelled columns), a returned sink is a valid unmatched column heading a
duplicate-free predecessor chain; and if some unmatched column is still
in the working set, the search cannot fail. -/
theorem searchLoop_master (nc : Nat) (cost : Nat → α) (u v : Nat → α)
    (r4c : Nat → Nat) (M : Nat) (nr cur : Nat)
    (HMnc : nc ≤ M)
    (Hr4cB : ∀ j, j < nc → r4c j = M ∨ r4c j < nr) :
    ∀ (fuel : Nat) (i : Nat) (mv : α) (path : Nat → Nat) (spc : Nat → QI α)
      (SR SC : Nat → Bool) (rem : List Nat),
      rem.length ≤ fuel →
      rem.Nodup →
      (∀ x ∈ rem, x < nc) →
      (∀ x ∈ rem, SC x = false) →
      (i = cur ∨ (i < nr ∧ ∃ jf, SC jf = true ∧ r4c jf = i)) →
      (∀ k, SC k = true → spc k ≠ none ∧ k < nc) →
      (∀ k, spc k ≠ none →
        ∃ js, ChainL path r4c cur nr nc (k :: js) ∧ (∀ x ∈ js, SC x = true)
          ∧ (k :: js).Nodup) →
      ∀ res : SearchResult α,
        res = searchLoop nc cost u v r4c M fuel i mv path spc SR SC rem →
        (res.sink ≠ M →
          res.sink < nc ∧ r4c res.sink = M
          ∧ ∃ js, ChainL res.path r4c cur nr nc (res.sink :: js)
              ∧ (res.sink :: js).Nodup)
        ∧ ((∃ jm, jm ∈ rem ∧ r4c jm = M) → res.sink ≠ M) := by
  intro fuel
  induction fuel with
  | zero =>
    intro i mv path spc SR SC rem hlen hnd hremlt hscf hfr hscspc hch res hres
    have hrem : rem = [] := List.length_eq_zero.mp (Nat.le_zero.mp hlen)
    subst hrem
    have : res = ⟨M, none, path, spc, (fun k => if k = i then true else SR k), SC⟩ := hres
    subst this
    constructor
    · intro h
      exact absurd rfl h
    · rintro ⟨jm, hjm, -⟩
      exact absurd hjm (List.not_mem_nil jm)
  | succ fuel ih =>
    intro i mv path spc SR SC rem hlen hnd hremlt hscf hfr hscspc hch res hres
    cases rem with
    | nil =>
      have : res = ⟨M, none, path, spc, (fun k => if k = i then true else SR k), SC⟩ := hres
      subst this
      constructor
      · intro h
        exact absurd rfl h
      · rintro ⟨jm, hjm, -⟩
        exact absurd hjm (List.not_mem_nil jm)
    | cons jh jt =>
      rcases hu : updateScan nc cost u v r4c M i mv (jh :: jt) 0 path spc none M
        with ⟨p', s', lowF, idxF⟩
      have hsel := updateScan_sel nc cost u v r4c M i mv (jh :: jt) 0 path spc none M
        p' s' lowF idxF hu (fun q hq => by simp at hq)
      have hpw := updateScan_pointwise nc cost u v r4c M i mv (jh :: jt) 0 path spc none M
        p' s' lowF idxF hu hnd
      cases lowF with
      | none =>
        obtain ⟨-, hcontra⟩ := hsel.2 rfl
        exact absurd hcontra (by simp)
      | some lq =>
        have hidx : idxF < (jh :: jt).length := by
          have := hsel.1 lq rfl
          omega
        have hjget : (jh :: jt).getD idxF M = (jh :: jt)[idxF] :=
          List.getD_eq_getElem (jh :: jt) M hidx
        have hjmem : (jh :: jt).getD idxF M ∈ jh :: jt := by
          rw [hjget]
          exact List.getElem_mem hidx
        have hjlt : (jh :: jt).getD idxF M < nc := hremlt _ hjmem
        have hjM : (jh :: jt).getD idxF M ≠ M := by omega
        have hchainpost := scanChainPost nc nr cur r4c i (jh :: jt) path p' spc s' SC
          (by
            intro k
            refine ⟨(hpw k).1, ?_⟩
            intro hk
            obtain ⟨h1, h2⟩ := (hpw k).2 hk
            refine ⟨h1, ?_⟩
            rcases h2 with h | h
            · exact Or.inl h
            · exact Or.inr ⟨h.1, trivial⟩)
          hscf hremlt hfr hscspc hch
        by_cases hr : r4c ((jh :: jt).getD idxF M) = M
        · have hres' : res = ⟨(jh :: jt).getD idxF M, some lq, p', s',
              (fun k => if k = i then true else SR k),
              (fun k => if k = (jh :: jt).getD idxF M then true else SC k)⟩ := by
            rw [hres]
            exact searchLoop_cons_sink nc cost u v r4c M fuel i mv path spc SR SC
              jh jt p' s' lq idxF hu hr
          subst hres'
          constructor
          · intro _
            refine ⟨hjlt, hr, ?_⟩
            have hsne : s' ((jh :: jt).getD idxF M) ≠ none :=
              ((hpw _).2 hjmem).1
            obtain ⟨js, hchain, -, hndchain⟩ := hchainpost _ hsne
            exact ⟨js, hchain, hndchain⟩
          · intro _
            exact hjM
        · have hres' : res = searchLoop nc cost u v r4c M fuel
              (r4c ((jh :: jt).getD idxF M)) lq p' s'
              (fun k => if k = i then true else SR k)
              (fun k => if k = (jh :: jt).getD idxF M then true else SC k)
              (((jh :: jt).set idxF ((jh :: jt).getLast (by simp))).dropLast) := by
            rw [hres]
            exact searchLoop_cons_rec nc cost u v r4c M fuel i mv path spc SR SC
              jh jt p' s' lq idxF hu hr
          have hjnr : r4c ((jh :: jt).getD idxF M) < nr :=
            (Hr4cB _ hjlt).resolve_left hr
          have hIH := ih (r4c ((jh :: jt).getD idxF M)) lq p' s'
            (fun k => if k = i then true else SR k)
            (fun k => if k = (jh :: jt).getD idxF M then true else SC k)
            (((jh :: jt).set idxF ((jh :: jt).getLast (by simp))).dropLast)
            (by
              simp only [List.length_dropLast, List.length_set, List.length_cons]
              simp only [List.length_cons] at hlen
              omega)
            (swapRemove_nodup _ idxF (by simp) hidx hnd)
            (fun x hx => hremlt x (swapRemove_subset _ idxF (by simp) hidx x hx))
            (by
              intro x hx
              have hxmem : x ∈ jh :: jt := swapRemove_subset _ idxF (by simp) hidx x hx
              have hxne : x ≠ (jh :: jt).getD idxF M := by
                intro hcon
                rw [hcon, hjget] at hx
                exact swapRemove_not_mem _ idxF (by simp) hidx hnd hx
              simp only [if_neg hxne]
              exact hscf x hxmem)
            (Or.inr ⟨hjnr, (jh :: jt).getD idxF M, by simp, rfl⟩)
            (by
              intro k hk
              by_cases hkj : k = (jh :: jt).getD idxF M
              · subst hkj
                exact ⟨((hpw ((jh :: jt).getD idxF M)).2 hjmem).1, hjlt⟩
              · simp only [if_neg hkj] at hk
                obtain ⟨h1, h2⟩ := hscspc k hk
                have hkrem : k ∉ jh :: jt := by
                  intro hcon
                  rw [hscf k hcon] at hk
                  exact Bool.noConfusion hk
                refine ⟨?_, h2⟩
                rw [((hpw k).1 hkrem).2]
                exact h1)
            (by
              intro k hk
              obtain ⟨js, hchain, hjsSC, hndchain⟩ := hchainpost k hk
              refine ⟨js, hchain, ?_, hndchain⟩
              intro x hx
              by_cases hxj : x = (jh :: jt).getD idxF M
              · simp [hxj]
              · simp only [if_neg hxj]
                exact hjsSC x hx)
            res hres'
          refine ⟨hIH.1, ?_⟩
          rintro ⟨jm, hjm, hjmr4c⟩
          refine hIH.2 ⟨jm, ?_, hjmr4c⟩
          have hjmne : jm ≠ (jh :: jt)[idxF] := by
            intro hcon
            apply hr
            rw [hjget, ← hcon]
            exact hjmr4c
          exact swapRemove_mem _ idxF (by simp) hidx jm hjm hjmne

/-! ### The augmentation walk along a predecessor chain -/

/-- Auxiliary: a chain only depends on `row4col` at its own columns. -/
theorem ChainL_congr_row (path r1 r2 : Nat → Nat) (cur nr nc : Nat) :
    ∀ l, (∀ x ∈ l, r2 x = r1 x) → ChainL path r1 cur nr nc l
      → ChainL path r2 cur nr nc l := by
  intro l
  induction l with
  | nil => intro _ h; exact h.elim
  | cons j t ih =>
    cases t with
    | nil => intro _ h; exact h
    | cons j' t' =>
      intro hag h
      obtain ⟨h1, h2, h3, h4, h5⟩ := h
      have hj' : r2 j' = r1 j' := hag j' (by simp)
      exact ⟨h1, hj' ▸ h2, hj' ▸ h3, hj' ▸ h4,
        ih (fun x hx => hag x (List.mem_cons_of_mem j hx)) h5⟩

/-- Auxiliary: one non-final step of the augmentation walk. -/
theorem augment_step (nr nc : Nat) (path : Nat → Nat) (cur : Nat) (fuel j : Nat)
    (c4r r4c : Nat → Nat) (hj : j < nc) (hi : path j < nr) (hne : path j ≠ cur) :
    augment nr nc path cur (fuel + 1) j c4r r4c
      = augment nr nc path cur fuel (c4r (path j))
          (fun k => if k = path j then j else c4r k)
          (fun k => if k = j then path j else r4c k) := by
  rw [augment]
  rw [if_pos hj]
  simp only []
  rw [if_pos hi, if_neg hne]

/-- Auxiliary: the final step of the augmentation walk. -/
theorem augment_last (nr nc : Nat) (path : Nat → Nat) (cur : Nat) (fuel j : Nat)
    (c4r r4c : Nat → Nat) (hj : j < nc) (hi : path j < nr) (heq : path j = cur) :
    augment nr nc path cur (fuel + 1) j c4r r4c
      = some ((fun k => if k = path j then j else c4r k),
          (fun k => if k = j then path j else r4c k)) := by
  rw [augment]
  rw [if_pos hj]
  simp only []
  rw [if_pos hi, if_pos heq]

/-- Auxiliary: the head of a chain is a valid column index. -/
theorem ChainL_head_lt (path row4col : Nat → Nat) (cur nr nc : Nat) (j : Nat)
    (t : List Nat) (h : ChainL path row4col cur nr nc (j :: t)) : j < nc := by
  cases t with
  | nil => exact h.1
  | cons j' t' => exact h.1

/-- Auxiliary: the augmentation walk along a recorded predecessor chain
succeeds (within fuel covering the chain length) and restores the
partial-bijection invariants, matching exactly the start row `cur` in
addition to the previously matched rows. -/
theorem augment_chain (nr nc M cur : Nat) (path : Nat → Nat)
    (Hcur : cur < nr) (HMnc : nc ≤ M) (HMnr : nr ≤ M) :
    ∀ (js : List Nat) (j0 : Nat) (c4r r4c : Nat → Nat) (fuel : Nat),
      (j0 :: js).length ≤ fuel →
      ChainL path r4c cur nr nc (j0 :: js) →
      (j0 :: js).Nodup →
      (∀ x ∈ js, c4r (r4c x) = x) →
      (∀ i', c4r i' ≠ j0) →
      c4r cur = M →
      (∀ i', c4r i' = M ∨ (c4r i' < nc ∧ r4c (c4r i') = i')) →
      (∀ j, j ≠ j0 → r4c j = M ∨ (r4c j < nr ∧ c4r (r4c j) = j)) →
      (∀ j, ¬ j < nc → r4c j = M) →
      ∃ c4r' r4c', augment nr nc path cur fuel j0 c4r r4c = some (c4r', r4c')
        ∧ (∀ i', (c4r' i' = M ↔ (c4r i' = M ∧ i' ≠ cur)))
        ∧ (∀ i', c4r' i' = M ∨ (c4r' i' < nc ∧ r4c' (c4r' i') = i'))
        ∧ (∀ j, r4c' j = M ∨ (r4c' j < nr ∧ c4r' (r4c' j) = j))
        ∧ (∀ i', ¬ i' < nr → c4r' i' = c4r i')
        ∧ (∀ j, ¬ j < nc → r4c' j = r4c j) := by
  intro js
  induction js with
  | nil =>
    intro j0 c4r r4c fuel hlen hchain hnd hjs hnoclaim hcur hB1 hB2 hB4
    obtain ⟨hj0lt, hpj0⟩ := hchain
    cases fuel with
    | zero => simp at hlen
    | succ f =>
      have hpj0nr : path j0 < nr := hpj0 ▸ Hcur
      have hj0M : j0 ≠ M := by omega
      rw [augment_last nr nc path cur f j0 c4r r4c hj0lt hpj0nr hpj0]
      refine ⟨_, _, rfl, ?_, ?_, ?_, ?_, ?_⟩
      · intro i'
        by_cases hii : i' = path j0
        · simp only [if_pos hii]
          have hicur : i' = cur := hii.trans hpj0
          constructor
          · intro h
            exact absurd h hj0M
          · rintro ⟨-, hcon⟩
            exact absurd hicur hcon
        · simp only [if_neg hii]
          have hicur : i' ≠ cur := fun hcon => hii (hcon.trans hpj0.symm)
          exact ⟨fun h => ⟨h, hicur⟩, fun h => h.1⟩
      · intro i'
        by_cases hii : i' = path j0
        · subst hii
          simp only [if_pos rfl]
          exact Or.inr ⟨hj0lt, by simp⟩
        · simp only [if_neg hii]
          rcases hB1 i' with h | ⟨h1, h2⟩
          · exact Or.inl h
          · refine Or.inr ⟨h1, ?_⟩
            rw [if_neg (hnoclaim i')]
            exact h2
      · intro j
        by_cases hjj0 : j = j0
        · subst hjj0
          simp only [if_pos rfl]
          exact Or.inr ⟨hpj0nr, by simp⟩
        · simp only [if_neg hjj0]
          rcases hB2 j hjj0 with h | ⟨h1, h2⟩
          · exact Or.inl h
          · refine Or.inr ⟨h1, ?_⟩
            have hrne : r4c j ≠ path j0 := by
              intro hcon
              rw [hcon, hpj0] at h2
              rw [hcur] at h2
              by_cases hjnc : j < nc
              · omega
              · rw [hB4 j hjnc] at h1
                omega
            rw [if_neg hrne]
            exact h2
      · intro i' hi'
        have : i' ≠ path j0 := by
          intro hcon
          rw [hcon] at hi'
          exact hi' hpj0nr
        simp only [if_neg this]
      · intro j hj
        have : j ≠ j0 := by
          intro hcon
          rw [hcon] at hj
          exact hj hj0lt
        simp only [if_neg this]
  | cons j1 jt ih =>
    intro j0 c4r r4c fuel hlen hchain hnd hjs hnoclaim hcur hB1 hB2 hB4
    obtain ⟨hj0lt, hpj0, hij1nr, hij1cur, hchain1⟩ := hchain
    have hj1lt : j1 < nc := ChainL_head_lt path r4c cur nr nc j1 jt hchain1
    cases fuel with
    | zero => simp at hlen
    | succ f =>
      have hc4ri : c4r (path j0) = j1 := by
        rw [hpj0]
        exact hjs j1 (by simp)
      have hj0j1 : j0 ≠ j1 := by
        intro hcon
        rw [List.nodup_cons] at hnd
        exact hnd.1 (hcon ▸ List.mem_cons_self j1 jt)
      have hj1jt : j1 ∉ jt := by
        rw [List.nodup_cons, List.nodup_cons] at hnd
        exact hnd.2.1
      have hpj0nr : path j0 < nr := hpj0 ▸ hij1nr
      have hpj0cur : path j0 ≠ cur := hpj0 ▸ hij1cur
      have hj0M : j0 ≠ M := by omega
      have hj1M : j1 ≠ M := by omega
      rw [augment_step nr nc path cur f j0 c4r r4c hj0lt hpj0nr hpj0cur]
      rw [hc4ri]
      set c4r1 : Nat → Nat := fun k => if k = path j0 then j0 else c4r k with hc1
      set r4c1 : Nat → Nat := fun k => if k = j0 then path j0 else r4c k with hr1
      have hr4c1tail : ∀ x ∈ j1 :: jt, r4c1 x = r4c x := by
        intro x hx
        have : x ≠ j0 := by
          intro hcon
          rw [List.nodup_cons] at hnd
          exact hnd.1 (hcon ▸ hx)
        rw [hr1]
        simp only [if_neg this]
      have hIH := ih j1 c4r1 r4c1 f
        (by simp only [List.length_cons] at hlen ⊢; omega)
        (ChainL_congr_row path r4c r4c1 cur nr nc (j1 :: jt) hr4c1tail hchain1)
        ((List.nodup_cons.mp hnd).2)
        (by
          intro x hx
          have hxj0 : x ≠ j0 := by
            intro hcon
            rw [List.nodup_cons] at hnd
            exact hnd.1 (hcon ▸ List.mem_cons_of_mem j1 hx)
          have hr4cx : r4c1 x = r4c x := by
            rw [hr1]; simp only [if_neg hxj0]
          rw [hr4cx]
          have hrxne : r4c x ≠ path j0 := by
            intro hcon
            have h1 := hjs x (List.mem_cons_of_mem j1 hx)
            rw [hcon, hc4ri] at h1
            exact hj1jt (h1 ▸ hx)
          rw [hc1]
          simp only [if_neg hrxne]
          exact hjs x (List.mem_cons_of_mem j1 hx))
        (by
          intro i'
          rw [hc1]
          by_cases hii : i' = path j0
          · simp only [if_pos hii]
            exact hj0j1
          · simp only [if_neg hii]
            intro hcon
            rcases hB1 i' with h | ⟨-, h2⟩
            · rw [hcon] at h
              exact hj1M h
            · rw [hcon] at h2
              exact hii ((hpj0.trans h2).symm))
        (by
          rw [hc1]
          simp only [if_neg (Ne.symm hpj0cur)]
          exact hcur)
        (by
          intro i'
          rw [hc1, hr1]
          by_cases hii : i' = path j0
          · simp only [if_pos hii]
            refine Or.inr ⟨hj0lt, ?_⟩
            rw [if_true]
            exact hii.symm
          · simp only [if_neg hii]
            rcases hB1 i' with h | ⟨h1, h2⟩
            · exact Or.inl h
            · refine Or.inr ⟨h1, ?_⟩
              simp only [if_neg (hnoclaim i')]
              exact h2)
        (by
          intro j hjj1
          rw [hc1, hr1]
          by_cases hjj0 : j = j0
          · subst hjj0
            simp only [if_pos rfl]
            exact Or.inr ⟨hpj0nr, by simp⟩
          · simp only [if_neg hjj0]
            rcases hB2 j hjj0 with h | ⟨h1, h2⟩
            · exact Or.inl h
            · refine Or.inr ⟨h1, ?_⟩
              have hrne : r4c j ≠ path j0 := by
                intro hcon
                rw [hcon, hc4ri] at h2
                exact hjj1 h2.symm
              simp only [if_neg hrne]
              exact h2)
        (by
          intro j hj
          rw [hr1]
          have : j ≠ j0 := by
            intro hcon
            rw [hcon] at hj
            exact hj hj0lt
          simp only [if_neg this]
          exact hB4 j hj)
      obtain ⟨c4r', r4c', heq, hP1, hP2, hP3, hP4, hP5⟩ := hIH
      refine ⟨c4r', r4c', heq, ?_, hP2, hP3, ?_, ?_⟩
      · intro i'
        rw [hP1 i']
        rw [hc1]
        by_cases hii : i' = path j0
        · simp only [if_pos hii]
          constructor
          · rintro ⟨hcon, -⟩
            exact absurd hcon hj0M
          · rintro ⟨hcon, -⟩
            rw [hii, hc4ri] at hcon
            exact absurd hcon hj1M
        · simp only [if_neg hii]
      · intro i' hi'
        rw [hP4 i' hi', hc1]
        have : i' ≠ path j0 := by
          intro hcon
          rw [hcon] at hi'
          exact hi' hpj0nr
        simp only [if_neg this]
      · intro j hj
        rw [hP5 j hj, hr1]
        have : j ≠ j0 := by
          intro hcon
          rw [hcon] at hj
          exact hj hj0lt
        simp only [if_neg this]

/-! ### Driver-level invariants -/

/-- Auxiliary: every column of a chain is a valid column index. -/
theorem ChainL_forall_lt (path row4col : Nat → Nat) (cur nr nc : Nat) :
    ∀ l, ChainL path row4col cur nr nc l → ∀ x ∈ l, x < nc := by
  intro l
  induction l with
  | nil => intro h; exact h.elim
  | cons j t ih =>
    intro h x hx
    rcases List.mem_cons.mp hx with hxj | hxt
    · subst hxj
      exact ChainL_head_lt _ _ _ _ _ _ _ h
    · cases t with
      | nil => exact absurd hxt (List.not_mem_nil x)
      | cons j' t' => exact ih h.2.2.2.2 x hxt

/-- Auxiliary: every tail column of a chain is matched to a valid row. -/
theorem ChainL_tail_r4c_lt (path row4col : Nat → Nat) (cur nr nc : Nat) :
    ∀ t j, ChainL path row4col cur nr nc (j :: t) → ∀ x ∈ t, row4col x < nr := by
  intro t
  induction t with
  | nil =>
    intro j _ x hx
    exact absurd hx (List.not_mem_nil x)
  | cons j' t' ih =>
    intro j h x hx
    obtain ⟨-, -, h3, -, h5⟩ := h
    rcases List.mem_cons.mp hx with hxj | hxt
    · exact hxj ▸ h3
    · exact ih j' h5 x hxt

/-- Auxiliary: a duplicate-free list of naturals below `n` has at most
`n` elements. -/
theorem length_le_of_nodup_lt (l : List Nat) (n : Nat) (hnd : l.Nodup)
    (hlt : ∀ x ∈ l, x < n) : l.length ≤ n := by
  classical
  have hsub : l.toFinset ⊆ Finset.range n := by
    intro x hx
    rw [List.mem_toFinset] at hx
    rw [Finset.mem_range]
    exact hlt x hx
  have hcard := Finset.card_le_card hsub
  rw [List.toFinset_card_of_nodup hnd, Finset.card_range] at hcard
  exact hcard

/-- Auxiliary: while fewer rows are matched than there are columns, some
column is unmatched (the partial assignment is a bijection between
matched rows and matched columns). -/
theorem exists_unmatched_col (nr nc M k : Nat) (c4r r4c : Nat → Nat)
    (hknc : k < nc) (HMnc : nc ≤ M)
    (hD1 : ∀ i, c4r i = M ↔ k ≤ i)
    (hD3 : ∀ j, r4c j = M ∨ (r4c j < nr ∧ c4r (r4c j) = j)) :
    ∃ j, j < nc ∧ r4c j = M := by
  by_contra hcon
  push_neg at hcon
  have hmaps : ∀ j ∈ Finset.range nc, r4c j ∈ Finset.range k := by
    intro j hj
    rw [Finset.mem_range] at hj
    rcases hD3 j with h | ⟨h1, h2⟩
    · exact absurd h (hcon j hj)
    · rw [Finset.mem_range]
      by_contra hk
      push_neg at hk
      have := (hD1 (r4c j)).mpr hk
      rw [this] at h2
      omega
  have hinj : Set.InjOn r4c (Finset.range nc) := by
    intro j1 hj1 j2 hj2 heq
    rw [Finset.coe_range, Set.mem_Iio] at hj1 hj2
    rcases hD3 j1 with h | ⟨-, h2⟩
    · exact absurd h (hcon j1 hj1)
    · rcases hD3 j2 with h' | ⟨-, h2'⟩
      · exact absurd h' (hcon j2 hj2)
      · rw [← h2, ← h2', heq]
  have hcard := Finset.card_le_card_of_injOn r4c hmaps hinj
  rw [Finset.card_range, Finset.card_range] at hcard
  omega

/-- Auxiliary master lemma for the driver loop: starting from a state
that matches exactly the rows below `k` in a partial bijection, the loop
over rows `k, k+1, ..., nr-1` succeeds and ends in a state matching
exactly the rows below `nr`, still a partial bijection. -/
theorem driverLoop_master (nc : Nat) (cost : Nat → α) (nr : Nat) (M : Nat)
    (HM : M = nr * nc) (Hnr : 1 ≤ nr) (Hnrnc : nr ≤ nc) :
    ∀ (m k : Nat) (st : LsapState α),
      k + m = nr →
      (∀ i, st.col4row i = M ↔ k ≤ i) →
      (∀ i, st.col4row i = M ∨ (st.col4row i < nc ∧ st.row4col (st.col4row i) = i)) →
      (∀ j, st.row4col j = M ∨ (st.row4col j < nr ∧ st.col4row (st.row4col j) = j)) →
      (∀ j, ¬ j < nc → st.row4col j = M) →
      ∃ st' : LsapState α,
        driverLoop nr nc cost M (List.range' k m) st = some (.ok st')
        ∧ (∀ i, st'.col4row i = M ↔ nr ≤ i)
        ∧ (∀ i, st'.col4row i = M ∨ (st'.col4row i < nc ∧ st'.row4col (st'.col4row i) = i))
        ∧ (∀ j, st'.row4col j = M ∨ (st'.row4col j < nr ∧ st'.col4row (st'.row4col j) = j)) := by
  have HMnc : nc ≤ M := by
    rw [HM]
    calc nc = 1 * nc := (Nat.one_mul nc).symm
    _ ≤ nr * nc := Nat.mul_le_mul_right nc Hnr
  have HMnr : nr ≤ M := by
    rw [HM]
    calc nr = nr * 1 := (Nat.mul_one nr).symm
    _ ≤ nr * nc := Nat.mul_le_mul_left nr (by omega)
  intro m
  induction m with
  | zero =>
    intro k st hk hD1 hD2 hD3 hD4
    refine ⟨st, ?_, ?_, hD2, hD3⟩
    · rw [List.range'_zero]
      rfl
    · intro i
      rw [hD1 i]
      omega
  | succ m ih =>
    intro k st hk hD1 hD2 hD3 hD4
    have hkr : k < nr := by omega
    have hknc : k < nc := by omega
    -- the search from row k
    set res := augmenting_path nc cost st.u st.v st.path st.row4col k M with hres
    have hmaster := searchLoop_master nc cost st.u st.v st.row4col M nr k HMnc
      (by
        intro j hj
        rcases hD3 j with h | ⟨h1, -⟩
        · exact Or.inl h
        · exact Or.inr h1)
      nc k 0 st.path (fun _ => none) (fun _ => false) (fun _ => false)
      ((List.range nc).reverse)
      (by simp)
      (by rw [List.nodup_reverse]; exact List.nodup_range nc)
      (by intro x hx; rw [List.mem_reverse, List.mem_range] at hx; exact hx)
      (fun x _ => rfl)
      (Or.inl rfl)
      (by intro x hx; exact absurd hx (by simp))
      (by intro x hx; exact absurd rfl hx)
      res hres
    have hunm : ∃ jm, jm ∈ (List.range nc).reverse ∧ st.row4col jm = M := by
      obtain ⟨j, hj1, hj2⟩ := exists_unmatched_col nr nc M k st.col4row st.row4col
        hknc HMnc hD1 hD3
      exact ⟨j, by rw [List.mem_reverse, List.mem_range]; exact hj1, hj2⟩
    have hsink : res.sink ≠ M := hmaster.2 hunm
    obtain ⟨hsinklt, hsinkM, js, hchain, hchnd⟩ := hmaster.1 hsink
    -- the augmentation from the sink
    have hjs : ∀ x ∈ js, st.col4row (st.row4col x) = x := by
      intro x hx
      have hxlt : st.row4col x < nr := ChainL_tail_r4c_lt res.path st.row4col k nr nc
        js res.sink hchain x hx
      rcases hD3 x with h | ⟨-, h2⟩
      · rw [h] at hxlt
        omega
      · exact h2
    have hnoclaim : ∀ i', st.col4row i' ≠ res.sink := by
      intro i' hcon
      rcases hD2 i' with h | ⟨-, h2⟩
      · rw [hcon] at h
        omega
      · rw [hcon, hsinkM] at h2
        have hMM : st.col4row M = M := (hD1 M).mpr (by omega)
        rw [← h2] at hcon
        rw [hMM] at hcon
        omega
    have hcurM : st.col4row k = M := (hD1 k).mpr (by omega)
    have hchlen : (res.sink :: js).length ≤ nc + 1 := by
      have := length_le_of_nodup_lt (res.sink :: js) nc hchnd
        (ChainL_forall_lt res.path st.row4col k nr nc (res.sink :: js) hchain)
      omega
    obtain ⟨c4r', r4c', haug, hP1, hP2, hP3, hP4, hP5⟩ :=
      augment_chain nr nc M k res.path hkr HMnc HMnr js res.sink
        st.col4row st.row4col (nc + 1) hchlen hchain hchnd hjs hnoclaim hcurM
        hD2 (fun j _ => hD3 j) hD4
    -- the updated state after this driver iteration
    set mv := QI.toQ res.minVal with hmv
    set u1 := fun j => if j = k then st.u k + mv else st.u j with hu1
    set u2 := fun j =>
      if j < nr ∧ res.SR j = true ∧ j ≠ k then
        u1 j + (mv - QI.toQ (res.spc (st.col4row j)))
      else u1 j with hu2
    set v2 := fun j =>
      if j < nc ∧ res.SC j = true then st.v j - (mv - QI.toQ (res.spc j))
      else st.v j with hv2
    have hstep : driverStep nr nc cost M k st = some (.ok ⟨u2, v2, res.path, c4r', r4c'⟩) := by
      rw [driverStep]
      rw [← hres]
      rw [if_neg hsink]
      simp only [← hmv, ← hu1, ← hu2, ← hv2]
      rw [haug]
    have hD1' : ∀ i, c4r' i = M ↔ k + 1 ≤ i := by
      intro i
      rw [hP1 i, hD1 i]
      omega
    have hD4' : ∀ j, ¬ j < nc → r4c' j = M := by
      intro j hj
      rw [hP5 j hj]
      exact hD4 j hj
    obtain ⟨st', hloop, hC1, hC2, hC3⟩ :=
      ih (k + 1) ⟨u2, v2, res.path, c4r', r4c'⟩ (by omega) hD1' hP2 hP3 hD4'
    refine ⟨st', ?_, hC1, hC2, hC3⟩
    rw [List.range'_succ]
    rw [driverLoop]
    rw [hstep]
    exact hloop

/-! ### Success and shape of the end-to-end solver -/

/-- Auxiliary: the driver loop started from the initial state matches all
rows of the normalized problem. -/
theorem driver_from_init (nr' nc' : Nat) (costQ : Nat → α)
    (Hnr : 1 ≤ nr') (Hnrnc : nr' ≤ nc') :
    ∃ st : LsapState α,
      driverLoop nr' nc' costQ (nr' * nc') (List.range nr')
        (initState (nr' * nc')) = some (.ok st)
      ∧ (∀ i, st.col4row i = nr' * nc' ↔ nr' ≤ i)
      ∧ (∀ i, st.col4row i = nr' * nc'
          ∨ (st.col4row i < nc' ∧ st.row4col (st.col4row i) = i))
      ∧ (∀ j, st.row4col j = nr' * nc'
          ∨ (st.row4col j < nr' ∧ st.col4row (st.row4col j) = j)) := by
  have h := driverLoop_master nc' costQ nr' (nr' * nc') rfl Hnr Hnrnc nr' 0
    (initState (nr' * nc'))
    (by omega)
    (fun i => ⟨fun _ => Nat.zero_le i, fun _ => rfl⟩)
    (fun i => Or.inl rfl)
    (fun j => Or.inl rfl)
    (fun j _ => rfl)
  rw [← List.range_eq_range'] at h
  exact h

/-- Auxiliary: distinctness and bounds of the matched-column list built
from a fully matched partial bijection. -/
theorem c4rList_facts (nr' nc' M : Nat) (c4r r4c : Nat → Nat)
    (hD1 : ∀ i, c4r i = M ↔ nr' ≤ i)
    (hD2 : ∀ i, c4r i = M ∨ (c4r i < nc' ∧ r4c (c4r i) = i)) :
    ((List.range nr').map c4r).Nodup ∧ (∀ x ∈ (List.range nr').map c4r, x < nc') := by
  constructor
  · refine List.Nodup.map_on ?_ (List.nodup_range nr')
    intro i1 h1 i2 h2 heq
    rw [List.mem_range] at h1 h2
    have hne1 : c4r i1 ≠ M := fun hcon => by have := (hD1 i1).mp hcon; omega
    have hne2 : c4r i2 ≠ M := fun hcon => by have := (hD1 i2).mp hcon; omega
    obtain ⟨-, hr1⟩ := (hD2 i1).resolve_left hne1
    obtain ⟨-, hr2⟩ := (hD2 i2).resolve_left hne2
    rw [← hr1, ← hr2, heq]
  · intro x hx
    rw [List.mem_map] at hx
    obtain ⟨i, hi, hxi⟩ := hx
    rw [List.mem_range] at hi
    have hne : c4r i ≠ M := fun hcon => by have := (hD1 i).mp hcon; omega
    obtain ⟨hlt, -⟩ := (hD2 i).resolve_left hne
    omega

/-- Auxiliary: reading every position of a list back in order gives the
list itself. -/
theorem map_getD_range (l : List Nat) :
    (List.range l.length).map (fun t => l.getD t 0) = l := by
  apply List.ext_getElem
  · simp
  · intro i h1 h2
    simp only [List.getElem_map, List.getElem_range]
    exact List.getD_eq_getElem l 0 h2

/-- Auxiliary: shape of a successful `solveMain` answer, in terms of the
normalized dimensions. -/
theorem solveMain_ok_shape (nr' nc' : Nat) (sc : List (F64 α)) (transpose : Bool)
    (Hnr : 1 ≤ nr') (Hnrnc : nr' ≤ nc') (a b : List Nat)
    (h : solveMain nr' nc' sc transpose = some (.ok (a, b))) :
    a.length = nr' ∧ b.length = nr' ∧ a.Nodup ∧ b.Nodup
    ∧ (∀ x ∈ a, x < (if transpose then nc' else nr'))
    ∧ (∀ x ∈ b, x < (if transpose then nr' else nc')) := by
  rw [solveMain] at h
  by_cases hfin : (List.range (nr' * nc')).all
      (fun k => (sc.getD k default).isFinite) = true
  · rw [if_pos hfin] at h
    simp only [] at h
    obtain ⟨st, hdl, hD1, hD2, hD3⟩ :=
      driver_from_init nr' nc' (fun k => (sc.getD k default).toRat) Hnr Hnrnc
    rw [hdl] at h
    obtain ⟨hnodupList, hltList⟩ := c4rList_facts nr' nc' (nr' * nc')
      st.col4row st.row4col hD1 hD2
    have hlen : ((List.range nr').map st.col4row).length = nr' := by simp
    cases transpose with
    | false =>
      simp only [if_false] at h ⊢
      have h' : (List.range nr', (List.range nr').map st.col4row) = (a, b) := by
        have := Option.some.inj h
        exact (Except.ok.inj this)
      obtain ⟨ha, hb⟩ := Prod.mk.injEq .. ▸ h'
      subst ha
      subst hb
      refine ⟨by simp, by simp, List.nodup_range nr', hnodupList, ?_, hltList⟩
      intro x hx
      rw [List.mem_range] at hx
      exact hx
    | true =>
      simp only [if_true] at h ⊢
      have h' : (((argsort_iter ((List.range nr').map st.col4row)).map
            (fun t => ((List.range nr').map st.col4row).getD t 0)),
          argsort_iter ((List.range nr').map st.col4row)) = (a, b) := by
        have := Option.some.inj h
        exact (Except.ok.inj this)
      obtain ⟨ha, hb⟩ := Prod.mk.injEq .. ▸ h'
      subst ha
      subst hb
      have hperm : (argsort_iter ((List.range nr').map st.col4row)).Perm
          (List.range nr') := by
        unfold argsort_iter
        rw [hlen]
        exact List.perm_insertionSort _ _
      have haperm : ((argsort_iter ((List.range nr').map st.col4row)).map
          (fun t => ((List.range nr').map st.col4row).getD t 0)).Perm
            ((List.range nr').map st.col4row) := by
        set L := (List.range nr').map st.col4row with hL
        have h1 := hperm.map (fun t => L.getD t 0)
        have h2 : (List.range nr').map (fun t => L.getD t 0) = L := by
          conv_lhs => rw [← hlen]
          exact map_getD_range L
        rw [h2] at h1
        exact h1
      refine ⟨?_, ?_, ?_, ?_, ?_, ?_⟩
      · rw [haperm.length_eq, hlen]
      · rw [hperm.length_eq]
        simp
      · exact haperm.nodup_iff.mpr hnodupList
      · exact hperm.nodup_iff.mpr (List.nodup_range nr')
      · intro x hx
        exact hltList x (haperm.mem_iff.mp hx)
      · intro x hx
        have := hperm.mem_iff.mp hx
        rw [List.mem_range] at this
        exact this
  · rw [if_neg hfin] at h
    simp at h

/-! ### C2: shape of successful answers -/

/-- C2.  Whenever `solve` returns `Ok`, it returns two parallel sequences
of length `min(rows, cols)`; the row indices are pairwise distinct and
below `rows`, the column indices pairwise distinct and below `cols`. -/
theorem C2_output_shape (rows cols : Nat) (cost : List (F64 α)) (maximize : Bool)
    (a b : List Nat)
    (h : solve rows cols cost maximize = some (.ok (a, b))) :
    a.length = min rows cols ∧ b.length = min rows cols ∧ a.Nodup ∧ b.Nodup
    ∧ (∀ x ∈ a, x < rows) ∧ (∀ x ∈ b, x < cols) := by
  rw [solve] at h
  by_cases h0 : rows = 0 ∨ cols = 0
  · rw [if_pos h0] at h
    have h' : (([], []) : List Nat × List Nat) = (a, b) :=
      Except.ok.inj (Option.some.inj h)
    obtain ⟨ha, hb⟩ := Prod.mk.injEq .. ▸ h'
    subst ha
    subst hb
    refine ⟨?_, ?_, List.nodup_nil, List.nodup_nil, by simp, by simp⟩
    · simp only [List.length_nil]
      omega
    · simp only [List.length_nil]
      omega
  · rw [if_neg h0] at h
    by_cases ht : cols < rows
    · simp only [ht, decide_True, eq_self_iff_true, if_true] at h
      have hshape := solveMain_ok_shape cols rows _ true (by omega) (by omega) a b h
      simp only [if_true] at hshape
      obtain ⟨h1, h2, h3, h4, h5, h6⟩ := hshape
      refine ⟨by omega, by omega, h3, h4, h5, ?_⟩
      intro x hx
      have := h6 x hx
      omega
    · simp only [ht, decide_False, Bool.false_eq_true, if_false] at h
      have hshape := solveMain_ok_shape rows cols _ false (by omega) (by omega) a b h
      simp only [if_false] at hshape
      obtain ⟨h1, h2, h3, h4, h5, h6⟩ := hshape
      exact ⟨by omega, by omega, h3, h4, h5, h6⟩

/-- Witness for C2 at a concrete input. -/
theorem C2_output_shape_witness :
    solve 2 4 [F64.fin (5 : ℤ), .fin 1, .fin 9, .fin 2, .fin 3, .fin 8, .fin 0, .fin 4]
        false = some (.ok ([0, 1], [1, 2]))
    ∧ ([0, 1] : List Nat).length = min 2 4 ∧ ([1, 2] : List Nat).length = min 2 4
    ∧ ([0, 1] : List Nat).Nodup ∧ ([1, 2] : List Nat).Nodup
    ∧ (∀ x ∈ ([0, 1] : List Nat), x < 2) ∧ (∀ x ∈ ([1, 2] : List Nat), x < 4) :=
  ⟨by decide,
    C2_output_shape 2 4 [F64.fin (5 : ℤ), .fin 1, .fin 9, .fin 2, .fin 3, .fin 8,
      .fin 0, .fin 4] false [0, 1] [1, 2] (by decide)⟩

/-! ### C4 and C10: no infeasibility, termination, iteration bound -/

/-- Auxiliary: `solveMain` either rejects the matrix as invalid or
succeeds; it never fails in any other way. -/
theorem solveMain_cases (nr' nc' : Nat) (sc : List (F64 α)) (transpose : Bool)
    (Hnr : 1 ≤ nr') (Hnrnc : nr' ≤ nc') :
    solveMain nr' nc' sc transpose = some (.error .Invalid)
    ∨ ∃ p, solveMain nr' nc' sc transpose = some (.ok p) := by
  rw [solveMain]
  by_cases hfin : (List.range (nr' * nc')).all
      (fun k => (sc.getD k default).isFinite) = true
  · rw [if_pos hfin]
    simp only []
    obtain ⟨st, hdl, -, -, -⟩ :=
      driver_from_init nr' nc' (fun k => (sc.getD k default).toRat) Hnr Hnrnc
    rw [hdl]
    cases transpose with
    | false => exact Or.inr ⟨_, rfl⟩
    | true => exact Or.inr ⟨_, rfl⟩
  · rw [if_neg hfin]
    exact Or.inl rfl

/-- Auxiliary: `solve` either succeeds or rejects the matrix as invalid,
for every input whatsoever. -/
theorem solve_cases (rows cols : Nat) (cost : List (F64 α)) (maximize : Bool) :
    solve rows cols cost maximize = some (.error .Invalid)
    ∨ ∃ p, solve rows cols cost maximize = some (.ok p) := by
  rw [solve]
  by_cases h0 : rows = 0 ∨ cols = 0
  · rw [if_pos h0]
    exact Or.inr ⟨_, rfl⟩
  · rw [if_neg h0]
    by_cases ht : cols < rows
    · simp only [ht, decide_True, eq_self_iff_true, if_true]
      exact solveMain_cases cols rows _ true (by omega) (by omega)
    · simp only [ht, decide_False, Bool.false_eq_true, if_false]
      exact solveMain_cases rows cols _ false (by omega) (by omega)

set_option linter.unusedVariables false in
/-- C4.  For positive dimensions and an all-finite cost matrix, `solve`
never returns the `Infeasible` error: the driver's transpose guarantees
`nr ≤ nc`, so the augmenting-path search always reaches an unmatched
column and the infinite-minimum branch is unreachable. -/
theorem C4_no_infeasible (rows cols : Nat) (cost : List (F64 α)) (maximize : Bool)
    (h1 : 1 ≤ rows) (h2 : 1 ≤ cols)
    (hfin : ∀ k, k < rows * cols → (cost.getD k default).isFinite = true) :
    solve rows cols cost maximize ≠ some (.error .Infeasible) := by
  rcases solve_cases rows cols cost maximize with h | ⟨p, h⟩
  · rw [h]
    simp
  · rw [h]
    simp

/-- Witness for C4 at a concrete input. -/
theorem C4_no_infeasible_witness :
    1 ≤ 2 ∧ 1 ≤ 2
    ∧ (∀ k, k < 2 * 2
        → (([F64.fin (3 : ℤ), .fin 1, .fin 4, .fin 1] : List (F64 ℤ)).getD k
            default).isFinite = true)
    ∧ solve 2 2 [F64.fin (3 : ℤ), .fin 1, .fin 4, .fin 1] true
        ≠ some (.error .Infeasible) :=
  ⟨by decide, by decide, by decide,
    C4_no_infeasible 2 2 [F64.fin (3 : ℤ), .fin 1, .fin 4, .fin 1] true
      (by decide) (by decide) (by decide)⟩

/-- Auxiliary: the search loop consumes one column of `remaining` per
pass, so any fuel covering `|remaining|` gives the same result as fuel
exactly `|remaining|`. -/
theorem searchLoop_fuel (nc : Nat) (cost : Nat → α) (u v : Nat → α)
    (r4c : Nat → Nat) (M : Nat) :
    ∀ (fuel : Nat) (i : Nat) (mv : α) (path : Nat → Nat) (spc : Nat → QI α)
      (SR SC : Nat → Bool) (rem : List Nat),
      rem.length ≤ fuel →
      searchLoop nc cost u v r4c M fuel i mv path spc SR SC rem
        = searchLoop nc cost u v r4c M rem.length i mv path spc SR SC rem := by
  intro fuel
  induction fuel with
  | zero =>
    intro i mv path spc SR SC rem hlen
    have : rem = [] := List.length_eq_zero.mp (Nat.le_zero.mp hlen)
    subst this
    rfl
  | succ f ih =>
    intro i mv path spc SR SC rem hlen
    cases rem with
    | nil => rfl
    | cons jh jt =>
      rcases hu : updateScan nc cost u v r4c M i mv (jh :: jt) 0 path spc none M
        with ⟨p', s', lowF, idxF⟩
      simp only [List.length_cons]
      cases lowF with
      | none =>
        rw [searchLoop_cons_none nc cost u v r4c M f i mv path spc SR SC jh jt
          p' s' idxF hu]
        rw [searchLoop_cons_none nc cost u v r4c M jt.length i mv path spc SR SC jh jt
          p' s' idxF hu]
      | some lq =>
        by_cases hr : r4c ((jh :: jt).getD idxF M) = M
        · rw [searchLoop_cons_sink nc cost u v r4c M f i mv path spc SR SC jh jt
            p' s' lq idxF hu hr]
          rw [searchLoop_cons_sink nc cost u v r4c M jt.length i mv path spc SR SC jh jt
            p' s' lq idxF hu hr]
        · rw [searchLoop_cons_rec nc cost u v r4c M f i mv path spc SR SC jh jt
            p' s' lq idxF hu hr]
          rw [searchLoop_cons_rec nc cost u v r4c M jt.length i mv path spc SR SC jh jt
            p' s' lq idxF hu hr]
          have hlen' : (((jh :: jt).set idxF ((jh :: jt).getLast (by simp))).dropLast).length
              = jt.length := by
            simp only [List.length_dropLast, List.length_set, List.length_cons]
            omega
          rw [ih _ _ _ _ _ _ _ (by rw [hlen']; simp only [List.length_cons] at hlen; omega)]
          rw [← hlen']

/-- C10.  For every input, `solve` terminates normally (it never
diverges or aborts, the only outcomes being a result pair or an error),
and each `augmenting_path` call performs at most `nc` passes of its
search loop: running the loop with any iteration budget of at least the
size of the `remaining` working set (which starts at `nc`) gives the
same outcome as `augmenting_path` itself. -/
theorem C10_termination :
    (∀ (rows cols : Nat) (cost : List (F64 α)) (maximize : Bool),
      cost.length = rows * cols → solve rows cols cost maximize ≠ none)
    ∧ (∀ (nc : Nat) (cost u v : Nat → α) (r4c path : Nat → Nat) (M i fuel : Nat),
        nc ≤ fuel →
        searchLoop nc cost u v r4c M fuel i 0 path (fun _ => none) (fun _ => false)
          (fun _ => false) ((List.range nc).reverse)
          = augmenting_path nc cost u v path r4c i M) := by
  constructor
  · intro rows cols cost maximize _
    rcases solve_cases rows cols cost maximize with h | ⟨p, h⟩
    · rw [h]
      simp
    · rw [h]
      simp
  · intro nc cost u v r4c path M i fuel hfuel
    have hlen : ((List.range nc).reverse).length = nc := by simp
    rw [augmenting_path]
    rw [searchLoop_fuel nc cost u v r4c M fuel i 0 path (fun _ => none)
      (fun _ => false) (fun _ => false) ((List.range nc).reverse) (by omega)]
    rw [searchLoop_fuel nc cost u v r4c M nc i 0 path (fun _ => none)
      (fun _ => false) (fun _ => false) ((List.range nc).reverse) (by omega)]

/-- Witness for C10 at a concrete input. -/
theorem C10_termination_witness :
    (([F64.fin (1 : ℤ), .fin 2] : List (F64 ℤ)).length = 1 * 2
      ∧ solve 1 2 [F64.fin (1 : ℤ), .fin 2] false ≠ none)
    ∧ ((2 : Nat) ≤ 5
      ∧ searchLoop 2 (fun k => (k : ℤ)) (fun _ => 0) (fun _ => 0) (fun _ => 2) 2 5 0 0
          (fun _ => 2) (fun _ => none) (fun _ => false) (fun _ => false)
          ((List.range 2).reverse)
        = augmenting_path 2 (fun k => (k : ℤ)) (fun _ => 0) (fun _ => 0) (fun _ => 2)
            (fun _ => 2) 0 2) :=
  ⟨⟨by decide, C10_termination.1 1 2 [F64.fin (1 : ℤ), .fin 2] false (by decide)⟩,
    ⟨by decide, C10_termination.2 2 (fun k => (k : ℤ)) (fun _ => 0) (fun _ => 0)
      (fun _ => 2) (fun _ => 2) 2 0 5 (by decide)⟩⟩

/-! ### C8: rectangular mirror through transposition -/

/-- Auxiliary: transposing a flattened matrix twice gives it back. -/
theorem transposeFlat_involution (nr nc : Nat) (cost : List (F64 α))
    (h : cost.length = nr * nc) :
    transposeFlat nc nr (transposeFlat nr nc cost) = cost := by
  apply List.ext_getElem
  · simp only [transposeFlat, List.length_map, List.length_range, h]
  · intro k h1 h2
    have hk : k < nr * nc := by rw [← h]; exact h2
    have hnc : 0 < nc := by
      rcases Nat.eq_zero_or_pos nc with h0 | h0
      · rw [h0, Nat.mul_zero] at hk
        omega
      · exact h0
    have hnr : 0 < nr := by
      rcases Nat.eq_zero_or_pos nr with h0 | h0
      · rw [h0, Nat.zero_mul] at hk
        omega
      · exact h0
    have hdiv : k / nc < nr := by
      apply Nat.div_lt_of_lt_mul
      calc k < nr * nc := hk
      _ = nc * nr := Nat.mul_comm _ _
    have hmod : k % nc < nc := Nat.mod_lt _ hnc
    have hm : (k % nc) * nr + k / nc < nc * nr := by
      have ha : (k % nc + 1) * nr ≤ nc * nr := Nat.mul_le_mul_right nr hmod
      rw [Nat.succ_mul] at ha
      omega
    have hmodr : ((k % nc) * nr + k / nc) % nr = k / nc := by
      rw [Nat.mul_comm (k % nc) nr, Nat.mul_add_mod, Nat.mod_eq_of_lt hdiv]
    have hdivr : ((k % nc) * nr + k / nc) / nr = k % nc := by
      rw [Nat.add_comm, Nat.add_mul_div_right _ _ hnr, Nat.div_eq_of_lt hdiv,
        Nat.zero_add]
    have hidx : (k / nc) * nc + k % nc = k := by
      rw [Nat.mul_comm]
      exact Nat.div_add_mod k nc
    rw [← List.getD_eq_getElem (transposeFlat nc nr (transposeFlat nr nc cost)) default h1,
      ← List.getD_eq_getElem cost default h2,
      transposeFlat_getD nc nr (transposeFlat nr nc cost) k hk,
      transposeFlat_getD nr nc cost _ hm, hmodr, hdivr, hidx]

/-- Auxiliary: argsort of a two-element key list. -/
theorem argsort_pair (x y : Nat) :
    argsort_iter [x, y] = if x ≤ y then [0, 1] else [1, 0] := by
  by_cases h : x ≤ y
  · simp [argsort_iter, List.insertionSort, List.orderedInsert, List.range_succ, h]
  · simp [argsort_iter, List.insertionSort, List.orderedInsert, List.range_succ, h]

/-- C8.  For a 2 by 4 all-finite cost matrix, `solve 2 4` returns row
indices `[0, 1]` matched to two distinct columns below `4`, and `solve
4 2` on the transposed matrix returns the mirror: the same pairs with
row and column roles swapped, listed in ascending order of the 4 by 2
matrix's row indices. -/
theorem C8_rectangular_mirror (cost : List (F64 α)) (maximize : Bool)
    (hlen : cost.length = 2 * 4)
    (hfin : ∀ k, k < 2 * 4 → (cost.getD k default).isFinite = true) :
    ∃ c0 c1,
      solve 2 4 cost maximize = some (.ok ([0, 1], [c0, c1]))
      ∧ c0 < 4 ∧ c1 < 4 ∧ c0 ≠ c1
      ∧ solve 4 2 (transposeFlat 2 4 cost) maximize
          = some (.ok (if c0 ≤ c1 then ([c0, c1], [0, 1])
              else ([c1, c0], [1, 0]))) := by
  have hall : ((List.range (2 * 4)).all
      (fun k => ((if maximize then cost.map F64.neg else cost).getD k default).isFinite))
        = true := by
    rw [List.all_eq_true]
    intro k hk
    rw [List.mem_range] at hk
    cases maximize with
    | false => exact hfin k hk
    | true =>
      show ((cost.map F64.neg).getD k default).isFinite = true
      rw [getD_map_neg, F64.isFinite_neg]
      exact hfin k hk
  obtain ⟨st, hdl, hD1, hD2, hD3⟩ := driver_from_init 2 4
    (fun k => ((if maximize then cost.map F64.neg else cost).getD k default).toRat)
    (by omega) (by omega)
  have hc0M : st.col4row 0 ≠ 2 * 4 := by
    intro hcon
    have := (hD1 0).mp hcon
    omega
  have hc1M : st.col4row 1 ≠ 2 * 4 := by
    intro hcon
    have := (hD1 1).mp hcon
    omega
  obtain ⟨hc0lt, hr0⟩ := (hD2 0).resolve_left hc0M
  obtain ⟨hc1lt, hr1⟩ := (hD2 1).resolve_left hc1M
  have hne : st.col4row 0 ≠ st.col4row 1 := by
    intro hcon
    rw [hcon, hr1] at hr0
    omega
  have hs1 : solve 2 4 cost maximize
      = some (.ok ([0, 1], [st.col4row 0, st.col4row 1])) := by
    have h1 : solve 2 4 cost maximize
        = solveMain 2 4 (if maximize then cost.map F64.neg else cost) false := by rfl
    rw [h1]
    unfold solveMain
    rw [if_pos hall]
    simp only []
    rw [hdl]
    rfl
  have hinv : transposeFlat 4 2 (transposeFlat 2 4 cost) = cost :=
    transposeFlat_involution 2 4 cost hlen
  have hs2pre : solve 4 2 (transposeFlat 2 4 cost) maximize
      = solveMain 2 4
          (if maximize then (transposeFlat 4 2 (transposeFlat 2 4 cost)).map F64.neg
            else transposeFlat 4 2 (transposeFlat 2 4 cost)) true := by rfl
  rw [hinv] at hs2pre
  have hs2 : solve 4 2 (transposeFlat 2 4 cost) maximize
      = some (.ok (if st.col4row 0 ≤ st.col4row 1
          then ([st.col4row 0, st.col4row 1], [0, 1])
          else ([st.col4row 1, st.col4row 0], [1, 0]))) := by
    rw [hs2pre]
    unfold solveMain
    rw [if_pos hall]
    simp only []
    rw [hdl]
    show (some (Except.ok
        (List.map (fun t => (List.map st.col4row (List.range 2)).getD t 0)
          (argsort_iter (List.map st.col4row (List.range 2))),
        argsort_iter (List.map st.col4row (List.range 2))))
      : Option (Except LSAPError (List Nat × List Nat))) = _
    have hl2 : List.map st.col4row (List.range 2) = [st.col4row 0, st.col4row 1] := rfl
    rw [hl2, argsort_pair]
    by_cases hc : st.col4row 0 ≤ st.col4row 1
    · rw [if_pos hc, if_pos hc]
      rfl
    · rw [if_neg hc, if_neg hc]
      rfl
  exact ⟨st.col4row 0, st.col4row 1, hs1, hc0lt, hc1lt, hne, hs2⟩

/-- Witness for C8 at a concrete integer matrix. -/
theorem C8_rectangular_mirror_witness :
    (([3, 1, 4, 1, 5, 9, 2, 6] : List ℤ).map F64.fin).length = 2 * 4
    ∧ (∀ k, k < 2 * 4 →
        (((([3, 1, 4, 1, 5, 9, 2, 6] : List ℤ).map F64.fin).getD k default).isFinite
          = true))
    ∧ (∃ c0 c1,
        solve 2 4 (([3, 1, 4, 1, 5, 9, 2, 6] : List ℤ).map F64.fin) false
          = some (.ok ([0, 1], [c0, c1]))
        ∧ c0 < 4 ∧ c1 < 4 ∧ c0 ≠ c1
        ∧ solve 4 2 (transposeFlat 2 4 (([3, 1, 4, 1, 5, 9, 2, 6] : List ℤ).map F64.fin)) false
            = some (.ok (if c0 ≤ c1 then ([c0, c1], [0, 1])
                else ([c1, c0], [1, 0])))) :=
  ⟨by decide, by decide,
    C8_rectangular_mirror (([3, 1, 4, 1, 5, 9, 2, 6] : List ℤ).map F64.fin) false
      (by decide) (by decide)⟩

/-! ### C6: constant matrices give the identity pairing -/

/-- Auxiliary: `QI.toQ` on a finite value. -/
theorem QI_toQ_some (a : α) : QI.toQ (some a) = a := rfl

/-- Auxiliary: the scan processes an appended column list in two phases,
the second starting from the accumulators left by the first. -/
theorem updateScan_append (nc : Nat) (cost : Nat → α) (u v : Nat → α)
    (r4c : Nat → Nat) (M i : Nat) (mv : α) :
    ∀ (l1 l2 : List Nat) (it : Nat) (path : Nat → Nat) (spc : Nat → QI α)
      (lowest : QI α) (index : Nat) (p1 : Nat → Nat) (s1 : Nat → QI α)
      (lo1 : QI α) (ix1 : Nat),
      updateScan nc cost u v r4c M i mv l1 it path spc lowest index
        = (p1, s1, lo1, ix1) →
      updateScan nc cost u v r4c M i mv (l1 ++ l2) it path spc lowest index
        = updateScan nc cost u v r4c M i mv l2 (it + l1.length) p1 s1 lo1 ix1 := by
  intro l1
  induction l1 with
  | nil =>
    intro l2 it path spc lowest index p1 s1 lo1 ix1 heq
    have heq' : ((path, spc, lowest, index) :
        ((Nat → Nat) × (Nat → QI α) × QI α × Nat)) = (p1, s1, lo1, ix1) := heq
    simp only [Prod.mk.injEq] at heq'
    obtain ⟨h1, h2, h3, h4⟩ := heq'
    rw [List.nil_append, List.length_nil, Nat.add_zero, h1, h2, h3, h4]
  | cons j rest ih =>
    intro l2 it path spc lowest index p1 s1 lo1 ix1 heq
    set r : QI α := some (mv + cost (i * nc + j) - u i - v j) with hr
    set path1 : Nat → Nat :=
      if QI.lt r (spc j) then (fun k => if k = j then i else path k) else path with hp1
    set spc1 : Nat → QI α :=
      if QI.lt r (spc j) then (fun k => if k = j then r else spc k) else spc with hs1
    have hstep : updateScan nc cost u v r4c M i mv (j :: rest) it path spc lowest index
        = if QI.lt (spc1 j) lowest || (QI.eq (spc1 j) lowest && r4c j == M) then
            updateScan nc cost u v r4c M i mv rest (it + 1) path1 spc1 (spc1 j) it
          else
            updateScan nc cost u v r4c M i mv rest (it + 1) path1 spc1 lowest index := rfl
    have hstep2 : updateScan nc cost u v r4c M i mv ((j :: rest) ++ l2) it path spc
          lowest index
        = if QI.lt (spc1 j) lowest || (QI.eq (spc1 j) lowest && r4c j == M) then
            updateScan nc cost u v r4c M i mv (rest ++ l2) (it + 1) path1 spc1 (spc1 j) it
          else
            updateScan nc cost u v r4c M i mv (rest ++ l2) (it + 1) path1 spc1 lowest
              index := rfl
    rw [hstep] at heq
    rw [hstep2]
    have harith : it + (j :: rest).length = (it + 1) + rest.length := by
      simp only [List.length_cons]
      omega
    by_cases hcond : (QI.lt (spc1 j) lowest
        || (QI.eq (spc1 j) lowest && r4c j == M)) = true
    · rw [if_pos hcond] at heq
      rw [if_pos hcond, harith]
      exact ih l2 (it + 1) path1 spc1 (spc1 j) it p1 s1 lo1 ix1 heq
    · rw [if_neg hcond] at heq
      rw [if_neg hcond, harith]
      exact ih l2 (it + 1) path1 spc1 lowest index p1 s1 lo1 ix1 heq

/-- Auxiliary: scanning a block of columns that all have reduced cost
`c` from the frontier row, no previous label, and are all unmatched:
every column is relaxed to `c` and re-selected in turn (the deliberate
tie-break), so the final index points at the last column of the block. -/
theorem constScan_matched (nc : Nat) (cost : Nat → α) (u v : Nat → α)
    (r4c : Nat → Nat) (M i : Nat) (mv c : α) :
    ∀ (rem : List Nat) (it : Nat) (path : Nat → Nat) (spc : Nat → QI α)
      (lo : QI α) (idx : Nat),
      rem ≠ [] →
      (lo = none ∨ lo = some c) →
      (∀ j ∈ rem, mv + cost (i * nc + j) - u i - v j = c) →
      (∀ j ∈ rem, spc j = none) →
      rem.Nodup →
      (∀ j ∈ rem, r4c j = M) →
      ∃ p' s',
        updateScan nc cost u v r4c M i mv rem it path spc lo idx
          = (p', s', some c, it + rem.length - 1)
        ∧ (∀ j, j ∉ rem → p' j = path j ∧ s' j = spc j)
        ∧ (∀ j ∈ rem, p' j = i ∧ s' j = some c) := by
  intro rem
  induction rem with
  | nil =>
    intro it path spc lo idx hne
    exact absurd rfl hne
  | cons j rest ih =>
    intro it path spc lo idx hne hlo hv hspc hnd hM
    set r : QI α := some (mv + cost (i * nc + j) - u i - v j) with hr
    set path1 : Nat → Nat :=
      if QI.lt r (spc j) then (fun k => if k = j then i else path k) else path with hp1
    set spc1 : Nat → QI α :=
      if QI.lt r (spc j) then (fun k => if k = j then r else spc k) else spc with hs1
    have hstep : updateScan nc cost u v r4c M i mv (j :: rest) it path spc lo idx
        = if QI.lt (spc1 j) lo || (QI.eq (spc1 j) lo && r4c j == M) then
            updateScan nc cost u v r4c M i mv rest (it + 1) path1 spc1 (spc1 j) it
          else
            updateScan nc cost u v r4c M i mv rest (it + 1) path1 spc1 lo idx := rfl
    have hjrest : j ∉ rest := (List.nodup_cons.mp hnd).1
    have hrest : rest.Nodup := (List.nodup_cons.mp hnd).2
    have hjmem : j ∈ j :: rest := List.mem_cons_self j rest
    have hlt : QI.lt r (spc j) = true := by
      rw [hspc j hjmem, hr]
      exact QI_lt_some_none _
    have hpath1 : path1 = fun k => if k = j then i else path k := by
      rw [hp1, if_pos hlt]
    have hspc1 : spc1 = fun k => if k = j then r else spc k := by
      rw [hs1, if_pos hlt]
    have hspc1j : spc1 j = some c := by
      rw [hspc1]
      show (if j = j then r else spc j) = some c
      rw [if_pos rfl, hr, hv j hjmem]
    have hspc1other : ∀ j', j' ≠ j → spc1 j' = spc j' := by
      intro j' hj'
      rw [hspc1]
      show (if j' = j then r else spc j') = spc j'
      rw [if_neg hj']
    have hpath1other : ∀ j', j' ≠ j → path1 j' = path j' := by
      intro j' hj'
      rw [hpath1]
      show (if j' = j then i else path j') = path j'
      rw [if_neg hj']
    have hpath1j : path1 j = i := by
      rw [hpath1]
      show (if j = j then i else path j) = i
      rw [if_pos rfl]
    have hcond : (QI.lt (spc1 j) lo || (QI.eq (spc1 j) lo && r4c j == M)) = true := by
      rw [hspc1j, hM j hjmem]
      rcases hlo with h | h
      · rw [h]
        rw [QI_lt_some_none]
        rfl
      · rw [h]
        simp [QI.lt, QI.eq]
    rw [hstep, if_pos hcond, hspc1j]
    cases rest with
    | nil =>
      refine ⟨path1, spc1, ?_, ?_, ?_⟩
      · show ((path1, spc1, some c, it) :
            ((Nat → Nat) × (Nat → QI α) × QI α × Nat))
          = (path1, spc1, some c, it + (j :: ([] : List Nat)).length - 1)
        rw [show it + (j :: ([] : List Nat)).length - 1 = it from by simp]
      · intro j' hj'
        have hj'j : j' ≠ j := fun hcon => hj' (hcon ▸ hjmem)
        exact ⟨hpath1other j' hj'j, hspc1other j' hj'j⟩
      · intro j' hj'
        rcases List.mem_cons.mp hj' with h | h
        · subst h
          exact ⟨hpath1j, hspc1j⟩
        · exact absurd h (List.not_mem_nil j')
    | cons j2 rest2 =>
      obtain ⟨p', s', heq2, hout, hin⟩ := ih (it + 1) path1 spc1 (some c) it
        (List.cons_ne_nil j2 rest2) (Or.inr rfl)
        (fun x hx => hv x (List.mem_cons_of_mem j hx))
        (by
          intro x hx
          have hxj : x ≠ j := fun hcon => hjrest (hcon ▸ hx)
          rw [hspc1other x hxj]
          exact hspc x (List.mem_cons_of_mem j hx))
        hrest
        (fun x hx => hM x (List.mem_cons_of_mem j hx))
      refine ⟨p', s', ?_, ?_, ?_⟩
      · rw [heq2]
        rw [show (it + 1) + (j2 :: rest2).length - 1
            = it + (j :: j2 :: rest2).length - 1 from by
          simp only [List.length_cons]
          omega]
      · intro j' hj'
        have hj'j : j' ≠ j := fun hcon => hj' (hcon ▸ hjmem)
        have hj'rest : j' ∉ j2 :: rest2 := fun hcon =>
          hj' (List.mem_cons_of_mem j hcon)
        obtain ⟨ho1, ho2⟩ := hout j' hj'rest
        exact ⟨ho1.trans (hpath1other j' hj'j), ho2.trans (hspc1other j' hj'j)⟩
      · intro j' hj'
        rcases List.mem_cons.mp hj' with h | h
        · subst h
          obtain ⟨ho1, ho2⟩ := hout j' hjrest
          exact ⟨ho1.trans hpath1j, ho2.trans hspc1j⟩
        · exact hin j' h

/-- Auxiliary: scanning a block of columns that all have reduced cost
`c`, no previous label, and are all matched, with the running minimum
already at `c`: every column is relaxed to `c` but none is selected, so
the index is unchanged. -/
theorem constScan_unmatched (nc : Nat) (cost : Nat → α) (u v : Nat → α)
    (r4c : Nat → Nat) (M i : Nat) (mv c : α) :
    ∀ (rem : List Nat) (it : Nat) (path : Nat → Nat) (spc : Nat → QI α) (idx : Nat),
      (∀ j ∈ rem, mv + cost (i * nc + j) - u i - v j = c) →
      (∀ j ∈ rem, spc j = none) →
      rem.Nodup →
      (∀ j ∈ rem, r4c j ≠ M) →
      ∃ p' s',
        updateScan nc cost u v r4c M i mv rem it path spc (some c) idx
          = (p', s', some c, idx)
        ∧ (∀ j, j ∉ rem → p' j = path j ∧ s' j = spc j)
        ∧ (∀ j ∈ rem, p' j = i ∧ s' j = some c) := by
  intro rem
  induction rem with
  | nil =>
    intro it path spc idx _ _ _ _
    exact ⟨path, spc, rfl, fun j _ => ⟨rfl, rfl⟩,
      fun j hj => absurd hj (List.not_mem_nil j)⟩
  | cons j rest ih =>
    intro it path spc idx hv hspc hnd hM
    set r : QI α := some (mv + cost (i * nc + j) - u i - v j) with hr
    set path1 : Nat → Nat :=
      if QI.lt r (spc j) then (fun k => if k = j then i else path k) else path with hp1
    set spc1 : Nat → QI α :=
      if QI.lt r (spc j) then (fun k => if k = j then r else spc k) else spc with hs1
    have hstep : updateScan nc cost u v r4c M i mv (j :: rest) it path spc (some c) idx
        = if QI.lt (spc1 j) (some c) || (QI.eq (spc1 j) (some c) && r4c j == M) then
            updateScan nc cost u v r4c M i mv rest (it + 1) path1 spc1 (spc1 j) it
          else
            updateScan nc cost u v r4c M i mv rest (it + 1) path1 spc1 (some c)
              idx := rfl
    have hjrest : j ∉ rest := (List.nodup_cons.mp hnd).1
    have hrest : rest.Nodup := (List.nodup_cons.mp hnd).2
    have hjmem : j ∈ j :: rest := List.mem_cons_self j rest
    have hlt : QI.lt r (spc j) = true := by
      rw [hspc j hjmem, hr]
      exact QI_lt_some_none _
    have hpath1 : path1 = fun k => if k = j then i else path k := by
      rw [hp1, if_pos hlt]
    have hspc1 : spc1 = fun k => if k = j then r else spc k := by
      rw [hs1, if_pos hlt]
    have hspc1j : spc1 j = some c := by
      rw [hspc1]
      show (if j = j then r else spc j) = some c
      rw [if_pos rfl, hr, hv j hjmem]
    have hspc1other : ∀ j', j' ≠ j → spc1 j' = spc j' := by
      intro j' hj'
      rw [hspc1]
      show (if j' = j then r else spc j') = spc j'
      rw [if_neg hj']
    have hpath1other : ∀ j', j' ≠ j → path1 j' = path j' := by
      intro j' hj'
      rw [hpath1]
      show (if j' = j then i else path j') = path j'
      rw [if_neg hj']
    have hpath1j : path1 j = i := by
      rw [hpath1]
      show (if j = j then i else path j) = i
      rw [if_pos rfl]
    have hbeq : (r4c j == M) = false := by
      rw [beq_eq_false_iff_ne]
      exact hM j hjmem
    have hcond : (QI.lt (spc1 j) (some c)
        || (QI.eq (spc1 j) (some c) && r4c j == M)) = false := by
      rw [hspc1j, hbeq]
      simp [QI.lt]
    rw [hstep, if_neg (by rw [hcond]; exact Bool.noConfusion)]
    obtain ⟨p', s', heq2, hout, hin⟩ := ih (it + 1) path1 spc1 idx
      (fun x hx => hv x (List.mem_cons_of_mem j hx))
      (by
        intro x hx
        have hxj : x ≠ j := fun hcon => hjrest (hcon ▸ hx)
        rw [hspc1other x hxj]
        exact hspc x (List.mem_cons_of_mem j hx))
      hrest
      (fun x hx => hM x (List.mem_cons_of_mem j hx))
    refine ⟨p', s', heq2, ?_, ?_⟩
    · intro j' hj'
      have hj'j : j' ≠ j := fun hcon => hj' (hcon ▸ hjmem)
      have hj'rest : j' ∉ rest := fun hcon => hj' (List.mem_cons_of_mem j hcon)
      obtain ⟨ho1, ho2⟩ := hout j' hj'rest
      exact ⟨ho1.trans (hpath1other j' hj'j), ho2.trans (hspc1other j' hj'j)⟩
    · intro j' hj'
      rcases List.mem_cons.mp hj' with h | h
      · subst h
        obtain ⟨ho1, ho2⟩ := hout j' hjrest
        exact ⟨ho1.trans hpath1j, ho2.trans hspc1j⟩
      · exact hin j' h

/-- Auxiliary: entry `p` of the reversed range counts down from `m - 1`. -/
theorem getD_reverse_range (m p : Nat) (hp : p < m) (d : Nat) :
    ((List.range m).reverse).getD p d = m - 1 - p := by
  rw [List.getD_eq_getElem _ d (by
    rw [List.length_reverse, List.length_range]
    exact hp)]
  rw [List.getElem_reverse]
  simp [List.getElem_range]

/-- Auxiliary: the full first scan from row `k` of a constant matrix, in
the state where rows below `k` are matched to their own column: the
minimum is `c` and the selected position holds column `k`. -/
theorem constScan_full (n k : Nat) (c : α) (cost : Nat → α) (u v : Nat → α)
    (r4c : Nat → Nat) (path : Nat → Nat) (spc : Nat → QI α)
    (hk : k < n)
    (hcost : ∀ j, j < n → cost (k * n + j) = c)
    (hu : u k = 0) (hv : ∀ j, v j = 0)
    (hr4c : ∀ j, j < n → r4c j = if j < k then j else n * n)
    (hspc : ∀ j, j < n → spc j = none) :
    ∃ p' s',
      updateScan n cost u v r4c (n * n) k 0 ((List.range n).reverse) 0 path spc
          none (n * n)
        = (p', s', some c, n - k - 1)
      ∧ p' k = k ∧ s' k = some c := by
  have hnn : n ≤ n * n := by
    calc n = 1 * n := (Nat.one_mul n).symm
    _ ≤ n * n := Nat.mul_le_mul_right n (by omega)
  have hval : ∀ j, j < n → (0 : α) + cost (k * n + j) - u k - v j = c := by
    intro j hj
    rw [hcost j hj, hu, hv j]
    simp
  have hsplitr : List.range k ++ List.range' k (n - k) = List.range n := by
    rw [List.range_eq_range', List.range_eq_range']
    have h := List.range'_append 0 k (n - k) 1
    simp only [Nat.zero_add, Nat.one_mul] at h
    rw [show n - k + k = n from by omega] at h
    exact h
  have hsplit : (List.range n).reverse
      = (List.range' k (n - k)).reverse ++ (List.range k).reverse := by
    rw [← List.reverse_append, hsplitr]
  have hmem1 : ∀ j, j ∈ (List.range' k (n - k)).reverse → k ≤ j ∧ j < n := by
    intro j hj
    rw [List.mem_reverse, List.mem_range'_1] at hj
    omega
  have hmem2 : ∀ j, j ∈ (List.range k).reverse → j < k := by
    intro j hj
    rw [List.mem_reverse, List.mem_range] at hj
    exact hj
  have hseg1ne : (List.range' k (n - k)).reverse ≠ [] := by
    apply List.ne_nil_of_length_pos
    rw [List.length_reverse, List.length_range']
    omega
  obtain ⟨p1, s1, heq1, hout1, hin1⟩ := constScan_matched n cost u v r4c (n * n) k 0 c
    ((List.range' k (n - k)).reverse) 0 path spc none (n * n)
    hseg1ne (Or.inl rfl)
    (by
      intro j hj
      obtain ⟨-, hj2⟩ := hmem1 j hj
      exact hval j hj2)
    (by
      intro j hj
      obtain ⟨-, hj2⟩ := hmem1 j hj
      exact hspc j hj2)
    (by
      rw [List.nodup_reverse]
      exact List.nodup_range' _ _)
    (by
      intro j hj
      obtain ⟨hj1, hj2⟩ := hmem1 j hj
      rw [hr4c j hj2, if_neg (by omega)])
  have happ := updateScan_append n cost u v r4c (n * n) k 0
    ((List.range' k (n - k)).reverse) ((List.range k).reverse) 0 path spc none (n * n)
    p1 s1 (some c) (0 + (List.range' k (n - k)).reverse.length - 1) heq1
  have hlen1 : (List.range' k (n - k)).reverse.length = n - k := by
    rw [List.length_reverse, List.length_range']
  obtain ⟨p2, s2, heq2, hout2, hin2⟩ := constScan_unmatched n cost u v r4c (n * n) k 0 c
    ((List.range k).reverse) (0 + (List.range' k (n - k)).reverse.length)
    p1 s1 (0 + (List.range' k (n - k)).reverse.length - 1)
    (fun j hj => hval j (by have := hmem2 j hj; omega))
    (by
      intro j hj
      have hjk := hmem2 j hj
      have hjnot : j ∉ (List.range' k (n - k)).reverse := by
        intro hcon
        have := hmem1 j hcon
        omega
      rw [(hout1 j hjnot).2]
      exact hspc j (by omega))
    (by
      rw [List.nodup_reverse]
      exact List.nodup_range k)
    (by
      intro j hj
      have hjk := hmem2 j hj
      rw [hr4c j (by omega), if_pos hjk]
      omega)
  have hkin1 : k ∈ (List.range' k (n - k)).reverse := by
    rw [List.mem_reverse, List.mem_range'_1]
    omega
  have hknot2 : k ∉ (List.range k).reverse := by
    intro hcon
    have := hmem2 k hcon
    omega
  refine ⟨p2, s2, ?_, ?_, ?_⟩
  · rw [hsplit, happ, heq2, hlen1]
    rw [show 0 + (n - k) - 1 = n - k - 1 from by omega]
  · rw [(hout2 k hknot2).1]
    exact (hin1 k hkin1).1
  · rw [(hout2 k hknot2).2]
    exact (hin1 k hkin1).2

/-- Auxiliary: the whole augmenting-path search from row `k` of a
constant matrix finds sink `k` in a single pass at minimum `c`. -/
theorem constSearch (n k : Nat) (c : α) (cost : Nat → α) (u v : Nat → α)
    (path : Nat → Nat) (r4c : Nat → Nat)
    (hk : k < n)
    (hcost : ∀ j, j < n → cost (k * n + j) = c)
    (hu : u k = 0) (hv : ∀ j, v j = 0)
    (hr4c : ∀ j, j < n → r4c j = if j < k then j else n * n) :
    ∃ p' s',
      augmenting_path n cost u v path r4c k (n * n)
        = ⟨k, some c, p', s',
            (fun i' => if i' = k then true else (fun _ => false) i'),
            (fun j => if j = k then true else (fun _ => false) j)⟩
      ∧ p' k = k ∧ s' k = some c := by
  obtain ⟨n', rfl⟩ : ∃ n', n = n' + 1 := ⟨n - 1, by omega⟩
  obtain ⟨p', s', hscan, hp'k, hs'k⟩ := constScan_full (n' + 1) k c cost u v r4c path
    (fun _ => none) hk hcost hu hv hr4c (fun j _ => rfl)
  have hcons : (List.range (n' + 1)).reverse = n' :: (List.range n').reverse := by
    rw [List.range_succ, List.reverse_append]
    rfl
  rw [hcons] at hscan
  have hgetD : (n' :: (List.range n').reverse).getD (n' + 1 - k - 1) ((n' + 1) * (n' + 1))
      = k := by
    rw [← hcons, getD_reverse_range (n' + 1) (n' + 1 - k - 1) (by omega)]
    omega
  have hrM : r4c ((n' :: (List.range n').reverse).getD (n' + 1 - k - 1)
      ((n' + 1) * (n' + 1))) = (n' + 1) * (n' + 1) := by
    rw [hgetD, hr4c k hk, if_neg (Nat.lt_irrefl k)]
  unfold augmenting_path
  rw [hcons]
  rw [searchLoop_cons_sink (n' + 1) cost u v r4c ((n' + 1) * (n' + 1)) n' k 0 path
    (fun _ => none) (fun _ => false) (fun _ => false) n' ((List.range n').reverse)
    p' s' c (n' + 1 - k - 1) hscan hrM]
  rw [hgetD]
  exact ⟨p', s', rfl, hp'k, hs'k⟩

/-- Auxiliary: one driver iteration on a constant matrix extends the
identity matching by one row and keeps the constant-dual state. -/
theorem constDriverStep (n k : Nat) (c : α) (cost : Nat → α) (st : LsapState α)
    (hk : k < n)
    (hcost : ∀ t, t < n * n → cost t = c)
    (hua : ∀ i, i < k → st.u i = c) (hub : ∀ i, k ≤ i → st.u i = 0)
    (hv : ∀ j, st.v j = 0)
    (hc4r : ∀ i, st.col4row i = if i < k then i else n * n)
    (hr4c : ∀ j, st.row4col j = if j < k then j else n * n) :
    ∃ st' : LsapState α,
      driverStep n n cost (n * n) k st = some (.ok st')
      ∧ (∀ i, i < k + 1 → st'.u i = c) ∧ (∀ i, k + 1 ≤ i → st'.u i = 0)
      ∧ (∀ j, st'.v j = 0)
      ∧ (∀ i, st'.col4row i = if i < k + 1 then i else n * n)
      ∧ (∀ j, st'.row4col j = if j < k + 1 then j else n * n) := by
  have hnn : n ≤ n * n := by
    calc n = 1 * n := (Nat.one_mul n).symm
    _ ≤ n * n := Nat.mul_le_mul_right n (by omega)
  have hcostrow : ∀ j, j < n → cost (k * n + j) = c := by
    intro j hj
    apply hcost
    have h1 : (k + 1) * n ≤ n * n := Nat.mul_le_mul_right n hk
    rw [Nat.succ_mul] at h1
    omega
  obtain ⟨p', s', haug, hp'k, hs'k⟩ := constSearch n k c cost st.u st.v st.path
    st.row4col hk hcostrow (hub k le_rfl) hv (fun j _ => hr4c j)
  set res := augmenting_path n cost st.u st.v st.path st.row4col k (n * n) with hres
  have hsinkeq : res.sink = k := by rw [haug]
  have hsinkne : res.sink ≠ n * n := by
    rw [hsinkeq]
    omega
  have hmvq : QI.toQ res.minVal = c := by
    rw [haug]
    rfl
  have hSR : ∀ t, t ≠ k → res.SR t = false := by
    intro t ht
    rw [haug]
    show (if t = k then true else (fun _ => false) t) = false
    rw [if_neg ht]
  have hSCk : res.SC k = true := by
    rw [haug]
    show (if k = k then true else (fun _ => false) k) = true
    rw [if_pos rfl]
  have hSCother : ∀ t, t ≠ k → res.SC t = false := by
    intro t ht
    rw [haug]
    show (if t = k then true else (fun _ => false) t) = false
    rw [if_neg ht]
  have hspck : res.spc k = some c := by
    rw [haug]
    exact hs'k
  have hpathk : res.path k = k := by
    rw [haug]
    exact hp'k
  have haugment : augment n n res.path k (n + 1) res.sink st.col4row st.row4col
      = some ((fun t => if t = k then k else st.col4row t),
          (fun t => if t = k then k else st.row4col t)) := by
    rw [hsinkeq]
    rw [augment_last n n res.path k n k st.col4row st.row4col hk
      (by rw [hpathk]; exact hk) hpathk]
    rw [hpathk]
  set mv := QI.toQ res.minVal with hmvd
  set u1 := fun t => if t = k then st.u k + mv else st.u t with hu1d
  set u2 := fun t =>
    if t < n ∧ res.SR t = true ∧ t ≠ k then
      u1 t + (mv - QI.toQ (res.spc (st.col4row t)))
    else u1 t with hu2d
  set v2 := fun t =>
    if t < n ∧ res.SC t = true then st.v t - (mv - QI.toQ (res.spc t))
    else st.v t with hv2d
  have hmvc : mv = c := hmvq
  have hstep : driverStep n n cost (n * n) k st
      = some (.ok ⟨u2, v2, res.path,
          (fun t => if t = k then k else st.col4row t),
          (fun t => if t = k then k else st.row4col t)⟩) := by
    rw [driverStep]
    rw [← hres]
    rw [if_neg hsinkne]
    simp only [← hmvd, ← hu1d, ← hu2d, ← hv2d]
    rw [haugment]
  have hu2all : ∀ t, u2 t = u1 t := by
    intro t
    rw [hu2d]
    show (if t < n ∧ res.SR t = true ∧ t ≠ k then
        u1 t + (mv - QI.toQ (res.spc (st.col4row t))) else u1 t) = u1 t
    by_cases ht : t = k
    · rw [if_neg]
      intro hcon
      exact hcon.2.2 ht
    · rw [if_neg]
      intro hcon
      rw [hSR t ht] at hcon
      exact Bool.noConfusion hcon.2.1
  have hu1k : u1 k = c := by
    rw [hu1d]
    show (if k = k then st.u k + mv else st.u k) = c
    rw [if_pos rfl, hub k le_rfl, hmvc, zero_add]
  have hu1other : ∀ t, t ≠ k → u1 t = st.u t := by
    intro t ht
    rw [hu1d]
    show (if t = k then st.u k + mv else st.u t) = st.u t
    rw [if_neg ht]
  refine ⟨⟨u2, v2, res.path,
      (fun t => if t = k then k else st.col4row t),
      (fun t => if t = k then k else st.row4col t)⟩, hstep, ?_, ?_, ?_, ?_, ?_⟩
  · intro i hi
    show u2 i = c
    rw [hu2all i]
    by_cases ht : i = k
    · rw [ht, hu1k]
    · rw [hu1other i ht]
      exact hua i (by omega)
  · intro i hi
    show u2 i = 0
    rw [hu2all i, hu1other i (by omega)]
    exact hub i (by omega)
  · intro j
    show v2 j = 0
    rw [hv2d]
    show (if j < n ∧ res.SC j = true then st.v j - (mv - QI.toQ (res.spc j))
        else st.v j) = 0
    by_cases ht : j = k
    · subst ht
      rw [if_pos ⟨hk, hSCk⟩, hv j, hspck, QI_toQ_some, hmvc, sub_self, sub_zero]
    · rw [if_neg, hv j]
      intro hcon
      rw [hSCother j ht] at hcon
      exact Bool.noConfusion hcon.2
  · intro i
    show (if i = k then k else st.col4row i) = if i < k + 1 then i else n * n
    by_cases ht : i = k
    · subst ht
      rw [if_pos rfl, if_pos (by omega)]
    · rw [if_neg ht, hc4r i]
      by_cases h2 : i < k
      · rw [if_pos h2, if_pos (by omega)]
      · rw [if_neg h2, if_neg (by omega)]
  · intro j
    show (if j = k then k else st.row4col j) = if j < k + 1 then j else n * n
    by_cases ht : j = k
    · subst ht
      rw [if_pos rfl, if_pos (by omega)]
    · rw [if_neg ht, hr4c j]
      by_cases h2 : j < k
      · rw [if_pos h2, if_pos (by omega)]
      · rw [if_neg h2, if_neg (by omega)]

/-- Auxiliary: the driver loop on a constant matrix builds the identity
matching row by row. -/
theorem constDriverLoop (n : Nat) (c : α) (cost : Nat → α)
    (hcost : ∀ t, t < n * n → cost t = c) :
    ∀ (m k : Nat) (st : LsapState α),
      k + m = n →
      (∀ i, i < k → st.u i = c) → (∀ i, k ≤ i → st.u i = 0) →
      (∀ j, st.v j = 0) →
      (∀ i, st.col4row i = if i < k then i else n * n) →
      (∀ j, st.row4col j = if j < k then j else n * n) →
      ∃ st' : LsapState α,
        driverLoop n n cost (n * n) (List.range' k m) st = some (.ok st')
        ∧ (∀ i, st'.col4row i = if i < n then i else n * n) := by
  intro m
  induction m with
  | zero =>
    intro k st hkm hua hub hv hc4r hr4c
    refine ⟨st, ?_, ?_⟩
    · rw [List.range'_zero]
      rfl
    · intro i
      rw [hc4r i]
      rw [show k = n from by omega]
  | succ m ih =>
    intro k st hkm hua hub hv hc4r hr4c
    have hk : k < n := by omega
    obtain ⟨st1, hstep, h1, h2, h3, h4, h5⟩ :=
      constDriverStep n k c cost st hk hcost hua hub hv hc4r hr4c
    obtain ⟨st', hloop, hfin⟩ := ih (k + 1) st1 (by omega) h1 h2 h3 h4 h5
    refine ⟨st', ?_, hfin⟩
    rw [List.range'_succ, driverLoop, hstep]
    exact hloop

/-- C6.  For every `n ≥ 1` and every finite constant `c`, `solve` on the
`n` by `n` matrix with all entries `c` (minimizing) returns the identity
pairing: rows `0, 1, ..., n-1` in ascending order, each matched to the
equal column index. -/
theorem C6_constant_identity (n : Nat) (c : α) (hn : 1 ≤ n) :
    solve n n (List.replicate (n * n) (F64.fin c)) false
      = some (.ok (List.range n, List.range n)) := by
  have hgetD : ∀ t, t < n * n →
      (List.replicate (n * n) (F64.fin c)).getD t default = F64.fin c := by
    intro t ht
    rw [List.getD_eq_getElem _ default (by
      rw [List.length_replicate]
      exact ht)]
    rw [List.getElem_replicate]
  have h1 : solve n n (List.replicate (n * n) (F64.fin c)) false
      = solveMain n n (List.replicate (n * n) (F64.fin c)) false := by
    unfold solve
    rw [if_neg (by omega)]
    simp only []
    rw [show decide (n < n) = false from decide_eq_false (Nat.lt_irrefl n)]
    simp only [Bool.false_eq_true, if_false]
  rw [h1]
  unfold solveMain
  rw [if_pos (by
    rw [List.all_eq_true]
    intro t ht
    rw [List.mem_range] at ht
    rw [hgetD t ht]
    rfl)]
  simp only []
  obtain ⟨st', hloop, hfin⟩ := constDriverLoop n c
    (fun t => ((List.replicate (n * n) (F64.fin c)).getD t default).toRat)
    (by
      intro t ht
      show ((List.replicate (n * n) (F64.fin c)).getD t default).toRat = c
      rw [hgetD t ht]
      rfl)
    n 0 (initState (n * n)) (by omega)
    (fun i hi => absurd hi (Nat.not_lt_zero i))
    (fun i _ => rfl)
    (fun j => rfl)
    (fun i => by rw [if_neg (Nat.not_lt_zero i)]; rfl)
    (fun j => by rw [if_neg (Nat.not_lt_zero j)]; rfl)
  rw [← List.range_eq_range'] at hloop
  rw [hloop]
  have hmap : (List.range n).map st'.col4row = List.range n := by
    conv_rhs => rw [show List.range n = (List.range n).map id from
      (List.map_id (List.range n)).symm]
    apply List.map_congr_left
    intro i hi
    rw [List.mem_range] at hi
    rw [hfin i, if_pos hi]
    rfl
  show (some (Except.ok (List.range n, (List.range n).map st'.col4row))
    : Option (Except LSAPError (List Nat × List Nat))) = _
  rw [hmap]

/-- Witness for C6 at a concrete size and constant. -/
theorem C6_constant_identity_witness :
    1 ≤ 3 ∧ solve 3 3 (List.replicate (3 * 3) (F64.fin (5 : ℤ))) false
      = some (.ok (List.range 3, List.range 3)) :=
  ⟨by decide, C6_constant_identity 3 (5 : ℤ) (by decide)⟩

/-! ### C5: dual feasibility and complementary slackness -/

/-- Auxiliary: the strict comparison is irreflexive. -/
theorem QI_lt_irrefl (x : QI α) : QI.lt x x = false := by
  cases x with
  | none => rfl
  | some a => simp [QI.lt]

/-- Auxiliary: `¬ <` is transitive. -/
theorem QI_lt_ff_trans (a b c : QI α) (h1 : QI.lt a b = false)
    (h2 : QI.lt b c = false) : QI.lt a c = false := by
  cases a with
  | none => rfl
  | some x =>
    cases c with
    | none =>
      cases b with
      | none => exact absurd h1 (by simp [QI.lt])
      | some y => exact absurd h2 (by simp [QI.lt])
    | some z =>
      cases b with
      | none => exact absurd h1 (by simp [QI.lt])
      | some y =>
        simp only [QI.lt, decide_eq_false_iff_not, not_lt] at h1 h2 ⊢
        exact h2.trans h1

/-- Auxiliary: strict comparison of finite values. -/
theorem QI_lt_some_tt (a b : α) : QI.lt (some a) (some b) = true ↔ a < b := by
  simp [QI.lt]

/-- Auxiliary: failed strict comparison of finite values. -/
theorem QI_lt_some_ff (a b : α) : QI.lt (some a) (some b) = false ↔ b ≤ a := by
  simp [QI.lt]

/-- Auxiliary: the `==` test implies equality. -/
theorem QI_eq_tt (x y : QI α) (h : QI.eq x y = true) : x = y := by
  cases x with
  | none =>
    cases y with
    | none => rfl
    | some b => exact absurd h (by simp [QI.eq])
  | some a =>
    cases y with
    | none => exact absurd h (by simp [QI.eq])
    | some b =>
      simp only [QI.eq, decide_eq_true_eq] at h
      rw [h]

/-- Auxiliary: a finite value is below `+inf`. -/
theorem QI_lt_none_tt (a : α) : QI.lt (some a) none = true := rfl

/-- Auxiliary: the scanned labels never rise, and end below the
relaxation value offered by the frontier row. -/
theorem updateScan_relaxle (nc : Nat) (cost : Nat → α) (u v : Nat → α)
    (r4c : Nat → Nat) (M i : Nat) (mv : α) :
    ∀ (rem : List Nat) (it : Nat) (path : Nat → Nat) (spc : Nat → QI α) (lowest : QI α)
      (index : Nat) (pathF : Nat → Nat) (spcF : Nat → QI α) (lowF : QI α) (idxF : Nat),
      updateScan nc cost u v r4c M i mv rem it path spc lowest index
        = (pathF, spcF, lowF, idxF) →
      rem.Nodup →
      ∀ k, k ∈ rem →
        QI.lt (some (mv + cost (i * nc + k) - u i - v k)) (spcF k) = false
        ∧ QI.lt (spc k) (spcF k) = false := by
  intro rem
  induction rem with
  | nil =>
    intro it path spc lowest index pathF spcF lowF idxF heq _ k hk
    exact absurd hk (List.not_mem_nil k)
  | cons j rest ih =>
    intro it path spc lowest index pathF spcF lowF idxF heq hnodup k hk
    set r : QI α := some (mv + cost (i * nc + j) - u i - v j) with hr
    set path1 : Nat → Nat :=
      if QI.lt r (spc j) then (fun k => if k = j then i else path k) else path with hp1
    set spc1 : Nat → QI α :=
      if QI.lt r (spc j) then (fun k => if k = j then r else spc k) else spc with hs1
    have hstep : updateScan nc cost u v r4c M i mv (j :: rest) it path spc lowest index
        = if QI.lt (spc1 j) lowest || (QI.eq (spc1 j) lowest && r4c j == M) then
            updateScan nc cost u v r4c M i mv rest (it + 1) path1 spc1 (spc1 j) it
          else
            updateScan nc cost u v r4c M i mv rest (it + 1) path1 spc1 lowest index := rfl
    rw [hstep] at heq
    have hjrest : j ∉ rest := (List.nodup_cons.mp hnodup).1
    have hrest : rest.Nodup := (List.nodup_cons.mp hnodup).2
    have hs1j : QI.lt r (spc1 j) = false ∧ QI.lt (spc j) (spc1 j) = false := by
      rw [hs1]
      by_cases hlt : QI.lt r (spc j) = true
      · rw [if_pos hlt]
        show QI.lt r (if j = j then r else spc j) = false
          ∧ QI.lt (spc j) (if j = j then r else spc j) = false
        rw [if_pos rfl]
        refine ⟨QI_lt_irrefl r, ?_⟩
        cases hspcj : spc j with
        | none => rfl
        | some s =>
          rw [hr]
          rw [hspcj, hr] at hlt
          rw [QI_lt_some_tt] at hlt
          rw [QI_lt_some_ff]
          exact le_of_lt hlt
      · rw [if_neg hlt]
        exact ⟨Bool.eq_false_iff.mpr hlt, QI_lt_irrefl (spc j)⟩
    have hs1other : ∀ k', k' ≠ j → spc1 k' = spc k' := by
      intro k' hk'
      rw [hs1]
      by_cases hlt : QI.lt r (spc j) = true
      · rw [if_pos hlt]
        show (if k' = j then r else spc k') = spc k'
        rw [if_neg hk']
      · rw [if_neg hlt]
    have hnext : ∀ lo idx,
        updateScan nc cost u v r4c M i mv rest (it + 1) path1 spc1 lo idx
          = (pathF, spcF, lowF, idxF) →
        QI.lt (some (mv + cost (i * nc + k) - u i - v k)) (spcF k) = false
          ∧ QI.lt (spc k) (spcF k) = false := by
      intro lo idx heq2
      rcases List.mem_cons.mp hk with hkj | hkr
      · subst hkj
        have huntouched := (updateScan_pointwise nc cost u v r4c M i mv rest (it + 1)
          path1 spc1 lo idx pathF spcF lowF idxF heq2 hrest k).1 hjrest
        rw [huntouched.2]
        rw [← hr]
        exact hs1j
      · have hkj : k ≠ j := fun hcon => hjrest (hcon ▸ hkr)
        have hIH := ih (it + 1) path1 spc1 lo idx pathF spcF lowF idxF heq2 hrest k hkr
        rw [hs1other k hkj] at hIH
        exact hIH
    by_cases hcond : (QI.lt (spc1 j) lowest || (QI.eq (spc1 j) lowest && r4c j == M)) = true
    · rw [if_pos hcond] at heq
      exact hnext _ _ heq
    · rw [if_neg hcond] at heq
      exact hnext _ _ heq

/-- Auxiliary: the scan's running minimum only falls, ends below every
scanned label, and the recorded index points at a column whose final
label equals the final minimum. -/
theorem updateScan_minsel (nc : Nat) (cost : Nat → α) (u v : Nat → α)
    (r4c : Nat → Nat) (M i : Nat) (mv : α) :
    ∀ (rem : List Nat) (it : Nat) (path : Nat → Nat) (spc : Nat → QI α) (lowest : QI α)
      (index : Nat) (pathF : Nat → Nat) (spcF : Nat → QI α) (lowF : QI α) (idxF : Nat),
      updateScan nc cost u v r4c M i mv rem it path spc lowest index
        = (pathF, spcF, lowF, idxF) →
      rem.Nodup →
      (∀ j ∈ rem, QI.lt (spcF j) lowF = false)
      ∧ QI.lt lowest lowF = false
      ∧ (∀ x, lowF = some x → (lowest = some x ∧ idxF = index)
          ∨ (∃ p, p < rem.length ∧ idxF = it + p ∧ spcF (rem.getD p 0) = some x)) := by
  intro rem
  induction rem with
  | nil =>
    intro it path spc lowest index pathF spcF lowF idxF heq _
    have heq' : ((path, spc, lowest, index) :
        ((Nat → Nat) × (Nat → QI α) × QI α × Nat)) = (pathF, spcF, lowF, idxF) := heq
    simp only [Prod.mk.injEq] at heq'
    obtain ⟨-, -, h3, h4⟩ := heq'
    refine ⟨fun j hj => absurd hj (List.not_mem_nil j), ?_, ?_⟩
    · rw [← h3]
      exact QI_lt_irrefl lowest
    · intro x hx
      exact Or.inl ⟨h3 ▸ hx, h4.symm⟩
  | cons j rest ih =>
    intro it path spc lowest index pathF spcF lowF idxF heq hnodup
    set r : QI α := some (mv + cost (i * nc + j) - u i - v j) with hr
    set path1 : Nat → Nat :=
      if QI.lt r (spc j) then (fun k => if k = j then i else path k) else path with hp1
    set spc1 : Nat → QI α :=
      if QI.lt r (spc j) then (fun k => if k = j then r else spc k) else spc with hs1
    have hstep : updateScan nc cost u v r4c M i mv (j :: rest) it path spc lowest index
        = if QI.lt (spc1 j) lowest || (QI.eq (spc1 j) lowest && r4c j == M) then
            updateScan nc cost u v r4c M i mv rest (it + 1) path1 spc1 (spc1 j) it
          else
            updateScan nc cost u v r4c M i mv rest (it + 1) path1 spc1 lowest index := rfl
    rw [hstep] at heq
    have hjrest : j ∉ rest := (List.nodup_cons.mp hnodup).1
    have hrest : rest.Nodup := (List.nodup_cons.mp hnodup).2
    by_cases hcond : (QI.lt (spc1 j) lowest || (QI.eq (spc1 j) lowest && r4c j == M)) = true
    · rw [if_pos hcond] at heq
      obtain ⟨hA, hD, hB⟩ := ih (it + 1) path1 spc1 (spc1 j) it pathF spcF lowF idxF
        heq hrest
      have hjuntouched := (updateScan_pointwise nc cost u v r4c M i mv rest (it + 1)
        path1 spc1 (spc1 j) it pathF spcF lowF idxF heq hrest j).1 hjrest
      have hle1 : QI.lt (spc1 j) lowest = true
          ∨ QI.eq (spc1 j) lowest = true := by
        rcases Bool.or_eq_true_iff.mp hcond with h | h
        · exact Or.inl h
        · exact Or.inr (Bool.and_eq_true_iff.mp h).1
      refine ⟨?_, ?_, ?_⟩
      · intro j' hj'
        rcases List.mem_cons.mp hj' with hjj | hjr
        · subst hjj
          rw [hjuntouched.2]
          exact hD
        · exact hA j' hjr
      · rcases hle1 with h | h
        · apply QI_lt_ff_trans lowest (spc1 j) lowF ?_ hD
          cases lowest with
          | none => rfl
          | some lx =>
            cases hs : spc1 j with
            | none =>
              rw [hs] at h
              exact absurd h (by simp [QI.lt])
            | some sx =>
              rw [hs] at h
              rw [QI_lt_some_tt] at h
              rw [QI_lt_some_ff]
              exact le_of_lt h
        · have := QI_eq_tt _ _ h
          rw [← this]
          exact hD
      · intro x hx
        rcases hB x hx with ⟨h1, h2⟩ | ⟨p, hp1, hp2, hp3⟩
        · refine Or.inr ⟨0, by simp, by omega, ?_⟩
          show spcF j = some x
          rw [hjuntouched.2, h1]
        · refine Or.inr ⟨p + 1, ?_, by omega, ?_⟩
          · simp only [List.length_cons]
            omega
          · show spcF ((j :: rest).getD (p + 1) 0) = some x
            exact hp3
    · rw [if_neg hcond] at heq
      obtain ⟨hA, hD, hB⟩ := ih (it + 1) path1 spc1 lowest index pathF spcF lowF idxF
        heq hrest
      have hjuntouched := (updateScan_pointwise nc cost u v r4c M i mv rest (it + 1)
        path1 spc1 lowest index pathF spcF lowF idxF heq hrest j).1 hjrest
      have hle1 : QI.lt (spc1 j) lowest = false := by
        rcases Bool.or_eq_false_iff.mp (Bool.eq_false_iff.mpr hcond) with ⟨h, -⟩
        exact h
      refine ⟨?_, hD, ?_⟩
      · intro j' hj'
        rcases List.mem_cons.mp hj' with hjj | hjr
        · subst hjj
          rw [hjuntouched.2]
          exact QI_lt_ff_trans (spc1 j') lowest lowF hle1 hD
        · exact hA j' hjr
      · intro x hx
        rcases hB x hx with ⟨h1, h2⟩ | ⟨p, hp1, hp2, hp3⟩
        · exact Or.inl ⟨h1, h2⟩
        · refine Or.inr ⟨p + 1, ?_, by omega, ?_⟩
          · simp only [List.length_cons]
            omega
          · show spcF ((j :: rest).getD (p + 1) 0) = some x
            exact hp3

/-- Ghost distance of a visited row during one search: `0` for the start
row, otherwise the label of its matched column (frozen once that column
is removed from `remaining`). -/
def DF (cur : Nat) (c4r : Nat → Nat) (spc : Nat → QI α) (i' : Nat) : α :=
  if i' = cur then 0 else QI.toQ (spc (c4r i'))

/-- Auxiliary: `DF` at the start row. -/
theorem DF_cur (cur : Nat) (c4r : Nat → Nat) (spc : Nat → QI α) :
    DF cur c4r spc cur = 0 := if_pos rfl

/-- Auxiliary: `DF` away from the start row. -/
theorem DF_ne (cur : Nat) (c4r : Nat → Nat) (spc : Nat → QI α) (i' : Nat)
    (h : i' ≠ cur) : DF cur c4r spc i' = QI.toQ (spc (c4r i')) := if_neg h

/-- Auxiliary: master invariant of the search loop for the dual update:
at exit with a sink, removed columns have labels at most the returned
minimum, surviving columns at least it, every visited row has relaxed
every column against its ghost distance, every label records an exact
relaxation from a visited row, and visited rows other than the start
are matched to removed columns. -/
theorem searchDual_master (nc : Nat) (cost : Nat → α) (u v : Nat → α)
    (c4r r4c : Nat → Nat) (M : Nat) (nr cur : Nat)
    (HMnc : nc ≤ M) (HcurM : c4r cur = M)
    (Hbij : ∀ j, r4c j = M ∨ (r4c j < nr ∧ c4r (r4c j) = j))
    (Hfeas : ∀ i', i' < nr → c4r i' ≠ M → ∀ j, j < nc →
      0 ≤ cost (i' * nc + j) - u i' - v j) :
    ∀ (fuel : Nat) (i : Nat) (mv : α) (path : Nat → Nat) (spc : Nat → QI α)
      (SR SC : Nat → Bool) (rem : List Nat),
      rem.length ≤ fuel →
      rem.Nodup →
      (∀ x ∈ rem, x < nc) →
      (∀ x ∈ rem, SC x = false) →
      (∀ j, j < nc → j ∈ rem ∨ SC j = true) →
      (∀ j, SC j = true → j < nc ∧ ∃ x, spc j = some x ∧ x ≤ mv) →
      (∀ j, j ∈ rem → ∀ x, spc j = some x → mv ≤ x) →
      (∀ i', SR i' = true → i' < nr ∧ (i' ≠ cur → c4r i' ≠ M ∧ c4r i' < nc
        ∧ SC (c4r i') = true)) →
      (∀ i', SR i' = true → ∀ j, j < nc →
        ∃ x, spc j = some x
          ∧ x ≤ DF cur c4r spc i' + (cost (i' * nc + j) - u i' - v j)) →
      (∀ j, j < nc → ∀ x, spc j = some x →
        SR (path j) = true ∧ path j < nr
        ∧ x = DF cur c4r spc (path j) + (cost (path j * nc + j) - u (path j) - v j)) →
      (∀ j, SC j = true → r4c j = M ∨ SR (r4c j) = true ∨ r4c j = i) →
      (∀ j, SC j = true → r4c j ≠ M) →
      (SR cur = true ∨ i = cur) →
      (i < nr) →
      (i = cur → mv = 0 ∧ (∀ i', SR i' = false) ∧ (∀ j, SC j = false)) →
      (i ≠ cur → c4r i ≠ M ∧ c4r i < nc ∧ SC (c4r i) = true
        ∧ spc (c4r i) = some mv) →
      ∀ res : SearchResult α,
        res = searchLoop nc cost u v r4c M fuel i mv path spc SR SC rem →
        res.sink ≠ M →
        (∀ j, res.SC j = true →
          j < nc ∧ ∃ x, res.spc j = some x ∧ x ≤ QI.toQ res.minVal)
        ∧ (∀ j, j < nc → res.SC j = false →
            ∃ x, res.spc j = some x ∧ QI.toQ res.minVal ≤ x)
        ∧ (∀ i', res.SR i' = true → ∀ j, j < nc →
            ∃ x, res.spc j = some x
              ∧ x ≤ DF cur c4r res.spc i' + (cost (i' * nc + j) - u i' - v j))
        ∧ (∀ j, j < nc → ∀ x, res.spc j = some x →
            res.SR (res.path j) = true ∧ res.path j < nr
            ∧ x = DF cur c4r res.spc (res.path j)
                + (cost (res.path j * nc + j) - u (res.path j) - v j))
        ∧ (∀ i', res.SR i' = true → i' < nr ∧ (i' ≠ cur → c4r i' ≠ M
            ∧ c4r i' < nc ∧ res.SC (c4r i') = true))
        ∧ res.SR cur = true
        ∧ res.SC res.sink = true
        ∧ (∀ j, res.SC j = true → r4c j = M ∨ res.SR (r4c j) = true)
        ∧ (∀ j, res.SC j = true → j = res.sink ∨ r4c j ≠ M) := by
  intro fuel
  induction fuel with
  | zero =>
    intro i mv path spc SR SC rem hlen hnd hremlt hscf hcov hL3 hL4 hL7 hL5 hL6 hL9
      hL10 hLcur hL8a hL8c hL8b res hres hsink
    have hrem : rem = [] := List.length_eq_zero.mp (Nat.le_zero.mp hlen)
    subst hrem
    have : res = ⟨M, none, path, spc, (fun k => if k = i then true else SR k), SC⟩ := hres
    subst this
    exact absurd rfl hsink
  | succ fuel ih =>
    intro i mv path spc SR SC rem hlen hnd hremlt hscf hcov hL3 hL4 hL7 hL5 hL6 hL9
      hL10 hLcur hL8a hL8c hL8b res hres hsink
    cases rem with
    | nil =>
      have : res = ⟨M, none, path, spc, (fun k => if k = i then true else SR k), SC⟩ := hres
      subst this
      exact absurd rfl hsink
    | cons jh jt =>
      rcases hu : updateScan nc cost u v r4c M i mv (jh :: jt) 0 path spc none M
        with ⟨p', s', lowF, idxF⟩
      have hsel := updateScan_sel nc cost u v r4c M i mv (jh :: jt) 0 path spc none M
        p' s' lowF idxF hu (fun q hq => by simp at hq)
      have hpw := updateScan_pointwise nc cost u v r4c M i mv (jh :: jt) 0 path spc none M
        p' s' lowF idxF hu hnd
      have hrelax := updateScan_relaxle nc cost u v r4c M i mv (jh :: jt) 0 path spc none M
        p' s' lowF idxF hu hnd
      obtain ⟨hminA, hminD, hminB⟩ := updateScan_minsel nc cost u v r4c M i mv (jh :: jt)
        0 path spc none M p' s' lowF idxF hu hnd
      cases lowF with
      | none =>
        obtain ⟨-, hcontra⟩ := hsel.2 rfl
        exact absurd hcontra (by simp)
      | some lq =>
        have hidx : idxF < (jh :: jt).length := by
          have := hsel.1 lq rfl
          omega
        have hjget : (jh :: jt).getD idxF M = (jh :: jt)[idxF] :=
          List.getD_eq_getElem (jh :: jt) M hidx
        have hjmem : (jh :: jt).getD idxF M ∈ jh :: jt := by
          rw [hjget]
          exact List.getElem_mem hidx
        have hjlt : (jh :: jt).getD idxF M < nc := hremlt _ hjmem
        have hjM : (jh :: jt).getD idxF M ≠ M := by omega
        have hsellab : s' ((jh :: jt).getD idxF M) = some lq := by
          rcases hminB lq rfl with ⟨hcon, -⟩ | ⟨p, hp1, hp2, hp3⟩
          · exact absurd hcon (by simp)
          · have hpidx : p = idxF := by omega
            subst hpidx
            have hdd : (jh :: jt).getD p 0 = (jh :: jt).getD p M := by
              rw [List.getD_eq_getElem (jh :: jt) 0 hidx,
                List.getD_eq_getElem (jh :: jt) M hidx]
            rw [hdd] at hp3
            exact hp3
        -- shared facts about the post-scan state
        have hSCfrozen : ∀ j, SC j = true → s' j = spc j := by
          intro j hj
          have hnin : j ∉ jh :: jt := by
            intro hcon
            rw [hscf j hcon] at hj
            exact Bool.noConfusion hj
          exact ((hpw j).1 hnin).2
        have hPfrozen : ∀ j, j ∉ jh :: jt → p' j = path j ∧ s' j = spc j :=
          fun j hj => (hpw j).1 hj
        have hs'lab : ∀ j, j < nc → ∃ x, s' j = some x := by
          intro j hj
          rcases hcov j hj with hin | hsc
          · exact Option.ne_none_iff_exists'.mp ((hpw j).2 hin).1
          · obtain ⟨-, x, hx, -⟩ := hL3 j hsc
            exact ⟨x, (hSCfrozen j hsc).trans hx⟩
        have hnoinc : ∀ j, QI.lt (spc j) (s' j) = false := by
          intro j
          by_cases hjin : j ∈ jh :: jt
          · exact (hrelax j hjin).2
          · rw [(hPfrozen j hjin).2]
            exact QI_lt_irrefl (spc j)
        have hDfrozen : ∀ i', (SR i' = true ∨ i' = i) →
            DF cur c4r s' i' = DF cur c4r spc i' := by
          intro i' hi'
          by_cases hic : i' = cur
          · rw [hic, DF_cur, DF_cur]
          · rw [DF_ne cur c4r s' i' hic, DF_ne cur c4r spc i' hic]
            rcases hi' with h | h
            · rw [hSCfrozen _ ((hL7 i' h).2 hic).2.2]
            · subst h
              have hicur : i' ≠ cur := hic
              rw [hSCfrozen _ (hL8b hicur).2.2.1]
        have hDi : DF cur c4r s' i = mv := by
          by_cases hic : i = cur
          · rw [hic, DF_cur]
            exact ((hL8c hic).1).symm
          · rw [DF_ne cur c4r s' i hic, hSCfrozen _ (hL8b hic).2.2.1,
              (hL8b hic).2.2.2]
            rfl
        have hrelaxi : ∀ j, j < nc →
            ∃ x, s' j = some x ∧ x ≤ mv + (cost (i * nc + j) - u i - v j) := by
          intro j hj
          obtain ⟨x, hx⟩ := hs'lab j hj
          refine ⟨x, hx, ?_⟩
          rcases hcov j hj with hin | hsc
          · have h1 := (hrelax j hin).1
            rw [hx, QI_lt_some_ff] at h1
            exact le_of_le_of_eq h1 (by abel)
          · have hic : i ≠ cur := by
              intro hcon
              rw [(hL8c hcon).2.2 j] at hsc
              exact Bool.noConfusion hsc
            obtain ⟨-, x0, hx0, hx0le⟩ := hL3 j hsc
            rw [(hSCfrozen j hsc), hx0] at hx
            have hxx0 : x = x0 := (Option.some.inj hx).symm
            subst hxx0
            have hcb : 0 ≤ cost (i * nc + j) - u i - v j :=
              Hfeas i hL8a (hL8b hic).1 j hj
            calc x ≤ mv := hx0le
            _ = mv + 0 := (add_zero mv).symm
            _ ≤ mv + (cost (i * nc + j) - u i - v j) := add_le_add_left hcb mv
        have hmvle : i ≠ cur → ∀ j ∈ jh :: jt, ∀ x, s' j = some x → mv ≤ x := by
          intro hic j hjin x hx
          rcases ((hpw j).2 hjin).2 with ⟨-, h2⟩ | ⟨-, h2⟩
          · rw [h2] at hx
            exact hL4 j hjin x hx
          · rw [h2] at hx
            have hxv : x = mv + cost (i * nc + j) - u i - v j :=
              (Option.some.inj hx).symm
            have hcb : 0 ≤ cost (i * nc + j) - u i - v j :=
              Hfeas i hL8a (hL8b hic).1 j (hremlt j hjin)
            rw [hxv]
            calc mv = mv + 0 := (add_zero mv).symm
            _ ≤ mv + (cost (i * nc + j) - u i - v j) := add_le_add_left hcb mv
            _ = mv + cost (i * nc + j) - u i - v j := by abel
        have hmvlq : i ≠ cur → mv ≤ lq := fun hic =>
          hmvle hic _ hjmem lq hsellab
        -- the post-scan C-facts shared by both exits
        have hCc : ∀ i', (if i' = i then true else SR i') = true → ∀ j, j < nc →
            ∃ x, s' j = some x
              ∧ x ≤ DF cur c4r s' i' + (cost (i' * nc + j) - u i' - v j) := by
          intro i' hi' j hj
          by_cases hii : i' = i
          · subst hii
            obtain ⟨x, hx, hxle⟩ := hrelaxi j hj
            refine ⟨x, hx, ?_⟩
            rw [hDi]
            exact hxle
          · rw [if_neg hii] at hi'
            obtain ⟨x0, hx0, hx0le⟩ := hL5 i' hi' j hj
            obtain ⟨x, hx⟩ := hs'lab j hj
            refine ⟨x, hx, ?_⟩
            have hni := hnoinc j
            rw [hx0, hx, QI_lt_some_ff] at hni
            rw [hDfrozen i' (Or.inl hi')]
            exact hni.trans hx0le
        have hCd : ∀ j, j < nc → ∀ x, s' j = some x →
            (if p' j = i then true else SR (p' j)) = true ∧ p' j < nr
            ∧ x = DF cur c4r s' (p' j)
                + (cost (p' j * nc + j) - u (p' j) - v j) := by
          intro j hj x hx
          have hold : p' j = path j ∧ s' j = spc j →
              (if p' j = i then true else SR (p' j)) = true ∧ p' j < nr
              ∧ x = DF cur c4r s' (p' j)
                  + (cost (p' j * nc + j) - u (p' j) - v j) := by
            rintro ⟨hp, hs⟩
            rw [hs] at hx
            obtain ⟨h1, h2, h3⟩ := hL6 j hj x hx
            rw [hp]
            refine ⟨?_, h2, ?_⟩
            · by_cases hpi : path j = i
              · rw [if_pos hpi]
              · rw [if_neg hpi]
                exact h1
            · rw [hDfrozen (path j) (Or.inl h1)]
              exact h3
          by_cases hjin : j ∈ jh :: jt
          · rcases ((hpw j).2 hjin).2 with h | ⟨hp, hs⟩
            · exact hold h
            · rw [hs] at hx
              have hxv : x = mv + cost (i * nc + j) - u i - v j :=
                (Option.some.inj hx).symm
              rw [hp]
              refine ⟨by rw [if_pos rfl], hL8a, ?_⟩
              rw [hDi, hxv]
              abel
          · exact hold (hPfrozen j hjin)
        have hCe : ∀ i', (if i' = i then true else SR i') = true →
            i' < nr ∧ (i' ≠ cur → c4r i' ≠ M ∧ c4r i' < nc
              ∧ (if c4r i' = (jh :: jt).getD idxF M then true
                  else SC (c4r i')) = true) := by
          intro i' hi'
          by_cases hii : i' = i
          · subst hii
            refine ⟨hL8a, ?_⟩
            intro hic
            obtain ⟨h1, h2, h3, -⟩ := hL8b hic
            refine ⟨h1, h2, ?_⟩
            by_cases hcj : c4r i' = (jh :: jt).getD idxF M
            · rw [if_pos hcj]
            · rw [if_neg hcj]
              exact h3
          · rw [if_neg hii] at hi'
            obtain ⟨h1, h2⟩ := hL7 i' hi'
            refine ⟨h1, ?_⟩
            intro hic
            obtain ⟨h3, h4, h5⟩ := h2 hic
            refine ⟨h3, h4, ?_⟩
            by_cases hcj : c4r i' = (jh :: jt).getD idxF M
            · rw [if_pos hcj]
            · rw [if_neg hcj]
              exact h5
        have hCf : (if cur = i then true else SR cur) = true := by
          rcases hLcur with h | h
          · by_cases hci : cur = i
            · rw [if_pos hci]
            · rw [if_neg hci]
              exact h
          · rw [if_pos h.symm]
        have hCa : ∀ j, (if j = (jh :: jt).getD idxF M then true else SC j) = true →
            j < nc ∧ ∃ x, s' j = some x ∧ x ≤ lq := by
          intro j hj
          by_cases hjj : j = (jh :: jt).getD idxF M
          · subst hjj
            exact ⟨hjlt, lq, hsellab, le_refl lq⟩
          · rw [if_neg hjj] at hj
            have hic : i ≠ cur := by
              intro hcon
              rw [(hL8c hcon).2.2 j] at hj
              exact Bool.noConfusion hj
            obtain ⟨hjnc, x, hx, hxle⟩ := hL3 j hj
            exact ⟨hjnc, x, (hSCfrozen j hj).trans hx, hxle.trans (hmvlq hic)⟩
        have hCb : ∀ j, j < nc →
            (if j = (jh :: jt).getD idxF M then true else SC j) = false →
            ∃ x, s' j = some x ∧ lq ≤ x := by
          intro j hj hjf
          by_cases hjj : j = (jh :: jt).getD idxF M
          · rw [if_pos hjj] at hjf
            exact Bool.noConfusion hjf
          · rw [if_neg hjj] at hjf
            have hjin : j ∈ jh :: jt := by
              rcases hcov j hj with h | h
              · exact h
              · rw [h] at hjf
                exact Bool.noConfusion hjf
            obtain ⟨x, hx⟩ := hs'lab j hj
            have h1 := hminA j hjin
            rw [hx, QI_lt_some_ff] at h1
            exact ⟨x, hx, h1⟩
        by_cases hr : r4c ((jh :: jt).getD idxF M) = M
        · have hres' : res = ⟨(jh :: jt).getD idxF M, some lq, p', s',
              (fun k => if k = i then true else SR k),
              (fun k => if k = (jh :: jt).getD idxF M then true else SC k)⟩ := by
            rw [hres]
            exact searchLoop_cons_sink nc cost u v r4c M fuel i mv path spc SR SC
              jh jt p' s' lq idxF hu hr
          subst hres'
          refine ⟨hCa, hCb, hCc, hCd, hCe, hCf, by simp, ?_, ?_⟩
          · intro j hj
            have hj' : (if j = (jh :: jt).getD idxF M then true else SC j) = true := hj
            by_cases hjj : j = (jh :: jt).getD idxF M
            · subst hjj
              exact Or.inl hr
            · rw [if_neg hjj] at hj'
              rcases hL9 j hj' with h | h | h
              · exact Or.inl h
              · refine Or.inr ?_
                show (if r4c j = i then true else SR (r4c j)) = true
                by_cases hri : r4c j = i
                · rw [if_pos hri]
                · rw [if_neg hri]
                  exact h
              · refine Or.inr ?_
                show (if r4c j = i then true else SR (r4c j)) = true
                rw [if_pos h]
          · intro j hj
            have hj' : (if j = (jh :: jt).getD idxF M then true else SC j) = true := hj
            by_cases hjj : j = (jh :: jt).getD idxF M
            · exact Or.inl hjj
            · rw [if_neg hjj] at hj'
              exact Or.inr (hL10 j hj')
        · have hres' : res = searchLoop nc cost u v r4c M fuel
              (r4c ((jh :: jt).getD idxF M)) lq p' s'
              (fun k => if k = i then true else SR k)
              (fun k => if k = (jh :: jt).getD idxF M then true else SC k)
              (((jh :: jt).set idxF ((jh :: jt).getLast (by simp))).dropLast) := by
            rw [hres]
            exact searchLoop_cons_rec nc cost u v r4c M fuel i mv path spc SR SC
              jh jt p' s' lq idxF hu hr
          obtain ⟨hinr, hc4rnew⟩ := (Hbij ((jh :: jt).getD idxF M)).resolve_left hr
          have hinewcur : r4c ((jh :: jt).getD idxF M) ≠ cur := by
            intro hcon
            rw [hcon, HcurM] at hc4rnew
            exact hjM hc4rnew.symm
          have hscjsel : SC ((jh :: jt).getD idxF M) = false := hscf _ hjmem
          refine ih (r4c ((jh :: jt).getD idxF M)) lq p' s'
            (fun k => if k = i then true else SR k)
            (fun k => if k = (jh :: jt).getD idxF M then true else SC k)
            (((jh :: jt).set idxF ((jh :: jt).getLast (by simp))).dropLast)
            ?_ (swapRemove_nodup _ idxF (by simp) hidx hnd)
            (fun x hx => hremlt x (swapRemove_subset _ idxF (by simp) hidx x hx))
            ?_ ?_ ?_ ?_ hCe hCc hCd ?_ ?_ ?_ hinr ?_ ?_ res hres' hsink
          · simp only [List.length_dropLast, List.length_set, List.length_cons]
            simp only [List.length_cons] at hlen
            omega
          · intro x hx
            have hxmem : x ∈ jh :: jt := swapRemove_subset _ idxF (by simp) hidx x hx
            have hxne : x ≠ (jh :: jt).getD idxF M := by
              intro hcon
              rw [hcon, hjget] at hx
              exact swapRemove_not_mem _ idxF (by simp) hidx hnd hx
            show (if x = (jh :: jt).getD idxF M then true else SC x) = false
            rw [if_neg hxne]
            exact hscf x hxmem
          · intro j hj
            rcases hcov j hj with h | h
            · by_cases hjj : j = (jh :: jt).getD idxF M
              · refine Or.inr ?_
                show (if j = (jh :: jt).getD idxF M then true else SC j) = true
                rw [if_pos hjj]
              · refine Or.inl ?_
                rw [hjget] at hjj
                exact swapRemove_mem _ idxF (by simp) hidx j h hjj
            · refine Or.inr ?_
              show (if j = (jh :: jt).getD idxF M then true else SC j) = true
              by_cases hjj : j = (jh :: jt).getD idxF M
              · rw [if_pos hjj]
              · rw [if_neg hjj]
                exact h
          · intro j hj
            have hj' : (if j = (jh :: jt).getD idxF M then true else SC j) = true := hj
            by_cases hjj : j = (jh :: jt).getD idxF M
            · subst hjj
              exact ⟨hjlt, lq, hsellab, le_refl lq⟩
            · rw [if_neg hjj] at hj'
              have hic : i ≠ cur := by
                intro hcon
                rw [(hL8c hcon).2.2 j] at hj'
                exact Bool.noConfusion hj'
              obtain ⟨hjnc, x, hx, hxle⟩ := hL3 j hj'
              exact ⟨hjnc, x, (hSCfrozen j hj').trans hx, hxle.trans (hmvlq hic)⟩
          · intro j hjin x hx
            have hjmem2 : j ∈ jh :: jt := swapRemove_subset _ idxF (by simp) hidx j hjin
            have h1 := hminA j hjmem2
            rw [hx, QI_lt_some_ff] at h1
            exact h1
          · intro j hj
            have hj' : (if j = (jh :: jt).getD idxF M then true else SC j) = true := hj
            by_cases hjj : j = (jh :: jt).getD idxF M
            · subst hjj
              exact Or.inr (Or.inr rfl)
            · rw [if_neg hjj] at hj'
              rcases hL9 j hj' with h | h | h
              · exact Or.inl h
              · refine Or.inr (Or.inl ?_)
                show (if r4c j = i then true else SR (r4c j)) = true
                by_cases hri : r4c j = i
                · rw [if_pos hri]
                · rw [if_neg hri]
                  exact h
              · refine Or.inr (Or.inl ?_)
                show (if r4c j = i then true else SR (r4c j)) = true
                rw [if_pos h]
          · intro j hj
            have hj' : (if j = (jh :: jt).getD idxF M then true else SC j) = true := hj
            by_cases hjj : j = (jh :: jt).getD idxF M
            · subst hjj
              exact hr
            · rw [if_neg hjj] at hj'
              exact hL10 j hj'
          · exact Or.inl hCf
          · intro hcon
            exact absurd hcon hinewcur
          · intro _
            rw [hc4rnew]
            refine ⟨hjM, hjlt, ?_, ?_⟩
            · show (if (jh :: jt).getD idxF M = (jh :: jt).getD idxF M then true
                else SC ((jh :: jt).getD idxF M)) = true
              rw [if_pos rfl]
            · exact hsellab

/-- Auxiliary: pointwise effect of the augmentation walk on `row4col`:
every chain column is re-matched to its recorded predecessor row, all
other columns keep their row. -/
theorem augment_pointwise (nr nc M cur : Nat) (path : Nat → Nat)
    (Hcur : cur < nr) (HMnc : nc ≤ M) (_HMnr : nr ≤ M) :
    ∀ (js : List Nat) (j0 : Nat) (c4r r4c : Nat → Nat) (fuel : Nat),
      (j0 :: js).length ≤ fuel →
      ChainL path r4c cur nr nc (j0 :: js) →
      (j0 :: js).Nodup →
      (∀ x ∈ js, c4r (r4c x) = x) →
      (∀ i', c4r i' ≠ j0) →
      c4r cur = M →
      (∀ i', c4r i' = M ∨ (c4r i' < nc ∧ r4c (c4r i') = i')) →
      (∀ j, j ≠ j0 → r4c j = M ∨ (r4c j < nr ∧ c4r (r4c j) = j)) →
      (∀ j, ¬ j < nc → r4c j = M) →
      ∃ c4r' r4c', augment nr nc path cur fuel j0 c4r r4c = some (c4r', r4c')
        ∧ (∀ x ∈ j0 :: js, r4c' x = path x)
        ∧ (∀ j, j ∉ j0 :: js → r4c' j = r4c j) := by
  intro js
  induction js with
  | nil =>
    intro j0 c4r r4c fuel hlen hchain hnd hjs hnoclaim hcur hB1 hB2 hB4
    obtain ⟨hj0lt, hpj0⟩ := hchain
    cases fuel with
    | zero => simp at hlen
    | succ f =>
      have hpj0nr : path j0 < nr := hpj0 ▸ Hcur
      rw [augment_last nr nc path cur f j0 c4r r4c hj0lt hpj0nr hpj0]
      refine ⟨_, _, rfl, ?_, ?_⟩
      · intro x hx
        rcases List.mem_cons.mp hx with h | h
        · subst h
          show (if x = x then path x else r4c x) = path x
          rw [if_pos rfl]
        · exact absurd h (List.not_mem_nil x)
      · intro j hj
        have hjne : j ≠ j0 := fun hcon => hj (hcon ▸ List.mem_cons_self j0 [])
        show (if j = j0 then path j0 else r4c j) = r4c j
        rw [if_neg hjne]
  | cons j1 jt ih =>
    intro j0 c4r r4c fuel hlen hchain hnd hjs hnoclaim hcur hB1 hB2 hB4
    obtain ⟨hj0lt, hpj0, hij1nr, hij1cur, hchain1⟩ := hchain
    have hj1lt : j1 < nc := ChainL_head_lt path r4c cur nr nc j1 jt hchain1
    cases fuel with
    | zero => simp at hlen
    | succ f =>
      have hc4ri : c4r (path j0) = j1 := by
        rw [hpj0]
        exact hjs j1 (by simp)
      have hj0j1 : j0 ≠ j1 := by
        intro hcon
        rw [List.nodup_cons] at hnd
        exact hnd.1 (hcon ▸ List.mem_cons_self j1 jt)
      have hj1jt : j1 ∉ jt := by
        rw [List.nodup_cons, List.nodup_cons] at hnd
        exact hnd.2.1
      have hpj0nr : path j0 < nr := hpj0 ▸ hij1nr
      have hpj0cur : path j0 ≠ cur := hpj0 ▸ hij1cur
      have hj0M : j0 ≠ M := by omega
      have hj1M : j1 ≠ M := by omega
      rw [augment_step nr nc path cur f j0 c4r r4c hj0lt hpj0nr hpj0cur]
      rw [hc4ri]
      set c4r1 : Nat → Nat := fun k => if k = path j0 then j0 else c4r k with hc1
      set r4c1 : Nat → Nat := fun k => if k = j0 then path j0 else r4c k with hr1
      have hr4c1tail : ∀ x ∈ j1 :: jt, r4c1 x = r4c x := by
        intro x hx
        have : x ≠ j0 := by
          intro hcon
          rw [List.nodup_cons] at hnd
          exact hnd.1 (hcon ▸ hx)
        rw [hr1]
        simp only [if_neg this]
      have hIH := ih j1 c4r1 r4c1 f
        (by simp only [List.length_cons] at hlen ⊢; omega)
        (ChainL_congr_row path r4c r4c1 cur nr nc (j1 :: jt) hr4c1tail hchain1)
        ((List.nodup_cons.mp hnd).2)
        (by
          intro x hx
          have hxj0 : x ≠ j0 := by
            intro hcon
            rw [List.nodup_cons] at hnd
            exact hnd.1 (hcon ▸ List.mem_cons_of_mem j1 hx)
          have hr4cx : r4c1 x = r4c x := by
            rw [hr1]; simp only [if_neg hxj0]
          rw [hr4cx]
          have hrxne : r4c x ≠ path j0 := by
            intro hcon
            have h1 := hjs x (List.mem_cons_of_mem j1 hx)
            rw [hcon, hc4ri] at h1
            exact hj1jt (h1 ▸ hx)
          rw [hc1]
          simp only [if_neg hrxne]
          exact hjs x (List.mem_cons_of_mem j1 hx))
        (by
          intro i'
          rw [hc1]
          by_cases hii : i' = path j0
          · simp only [if_pos hii]
            exact hj0j1
          · simp only [if_neg hii]
            intro hcon
            rcases hB1 i' with h | ⟨-, h2⟩
            · rw [hcon] at h
              exact hj1M h
            · rw [hcon] at h2
              exact hii ((hpj0.trans h2).symm))
        (by
          rw [hc1]
          simp only [if_neg (Ne.symm hpj0cur)]
          exact hcur)
        (by
          intro i'
          rw [hc1, hr1]
          by_cases hii : i' = path j0
          · simp only [if_pos hii]
            refine Or.inr ⟨hj0lt, ?_⟩
            rw [if_true]
            exact hii.symm
          · simp only [if_neg hii]
            rcases hB1 i' with h | ⟨h1, h2⟩
            · exact Or.inl h
            · refine Or.inr ⟨h1, ?_⟩
              simp only [if_neg (hnoclaim i')]
              exact h2)
        (by
          intro j hjj1
          rw [hc1, hr1]
          by_cases hjj0 : j = j0
          · subst hjj0
            simp only [if_pos rfl]
            exact Or.inr ⟨hpj0nr, by simp⟩
          · simp only [if_neg hjj0]
            rcases hB2 j hjj0 with h | ⟨h1, h2⟩
            · exact Or.inl h
            · refine Or.inr ⟨h1, ?_⟩
              have hrne : r4c j ≠ path j0 := by
                intro hcon
                rw [hcon, hc4ri] at h2
                exact hjj1 h2.symm
              simp only [if_neg hrne]
              exact h2)
        (by
          intro j hj
          rw [hr1]
          have : j ≠ j0 := by
            intro hcon
            rw [hcon] at hj
            exact hj hj0lt
          simp only [if_neg this]
          exact hB4 j hj)
      obtain ⟨c4r', r4c', heq, hP1, hP2⟩ := hIH
      refine ⟨c4r', r4c', heq, ?_, ?_⟩
      · intro x hx
        rcases List.mem_cons.mp hx with h | h
        · subst h
          have hxnot : x ∉ j1 :: jt := by
            rw [List.nodup_cons] at hnd
            exact hnd.1
          rw [hP2 x hxnot, hr1]
          show (if x = x then path x else r4c x) = path x
          rw [if_pos rfl]
        · exact hP1 x h
      · intro j hj
        have hj1jt' : j ∉ j1 :: jt := fun hcon => hj (List.mem_cons_of_mem j0 hcon)
        have hjne : j ≠ j0 := fun hcon => hj (hcon ▸ List.mem_cons_self j0 (j1 :: jt))
        rw [hP2 j hj1jt', hr1]
        show (if j = j0 then path j0 else r4c j) = r4c j
        rw [if_neg hjne]

/-- Auxiliary: the driver loop preserves dual feasibility on processed
rows and complementary slackness on matched pairs, together with the
partial-bijection invariants. -/
theorem driverC5_master (nc : Nat) (cost : Nat → α) (nr : Nat) (M : Nat)
    (HM : M = nr * nc) (Hnr : 1 ≤ nr) (Hnrnc : nr ≤ nc) :
    ∀ (m k : Nat) (st : LsapState α),
      k + m ≤ nr →
      (∀ i, st.col4row i = M ↔ k ≤ i) →
      (∀ i, st.col4row i = M ∨ (st.col4row i < nc ∧ st.row4col (st.col4row i) = i)) →
      (∀ j, st.row4col j = M ∨ (st.row4col j < nr ∧ st.col4row (st.row4col j) = j)) →
      (∀ j, ¬ j < nc → st.row4col j = M) →
      (∀ i', i' < nr → st.col4row i' ≠ M → ∀ j, j < nc →
        0 ≤ cost (i' * nc + j) - st.u i' - st.v j) →
      (∀ i', i' < nr → st.col4row i' ≠ M →
        cost (i' * nc + st.col4row i') - st.u i' - st.v (st.col4row i') = 0) →
      (∀ j, st.row4col j = M → st.v j = 0) →
      (∀ j, st.v j ≤ 0) →
      ∃ st' : LsapState α,
        driverLoop nr nc cost M (List.range' k m) st = some (.ok st')
        ∧ (∀ i, st'.col4row i = M ↔ k + m ≤ i)
        ∧ (∀ i, st'.col4row i = M ∨ (st'.col4row i < nc ∧ st'.row4col (st'.col4row i) = i))
        ∧ (∀ j, st'.row4col j = M ∨ (st'.row4col j < nr ∧ st'.col4row (st'.row4col j) = j))
        ∧ (∀ j, ¬ j < nc → st'.row4col j = M)
        ∧ (∀ i', i' < nr → st'.col4row i' ≠ M → ∀ j, j < nc →
            0 ≤ cost (i' * nc + j) - st'.u i' - st'.v j)
        ∧ (∀ i', i' < nr → st'.col4row i' ≠ M →
            cost (i' * nc + st'.col4row i') - st'.u i' - st'.v (st'.col4row i') = 0)
        ∧ (∀ j, st'.row4col j = M → st'.v j = 0)
        ∧ (∀ j, st'.v j ≤ 0) := by
  have HMnc : nc ≤ M := by
    rw [HM]
    calc nc = 1 * nc := (Nat.one_mul nc).symm
    _ ≤ nr * nc := Nat.mul_le_mul_right nc Hnr
  have HMnr : nr ≤ M := by
    rw [HM]
    calc nr = nr * 1 := (Nat.mul_one nr).symm
    _ ≤ nr * nc := Nat.mul_le_mul_left nr (by omega)
  intro m
  induction m with
  | zero =>
    intro k st hk hD1 hD2 hD3 hD4 hK1 hK2 hK3 hK4
    refine ⟨st, ?_, ?_, hD2, hD3, hD4, hK1, hK2, hK3, hK4⟩
    · rw [List.range'_zero]
      rfl
    · intro i
      rw [hD1 i]
      omega
  | succ m ih =>
    intro k st hk hD1 hD2 hD3 hD4 hK1 hK2 hK3 hK4
    have hkr : k < nr := by omega
    have hknc : k < nc := by omega
    set res := augmenting_path nc cost st.u st.v st.path st.row4col k M with hres
    have hmaster := searchLoop_master nc cost st.u st.v st.row4col M nr k HMnc
      (by
        intro j hj
        rcases hD3 j with h | ⟨h1, -⟩
        · exact Or.inl h
        · exact Or.inr h1)
      nc k 0 st.path (fun _ => none) (fun _ => false) (fun _ => false)
      ((List.range nc).reverse)
      (by simp)
      (by rw [List.nodup_reverse]; exact List.nodup_range nc)
      (by intro x hx; rw [List.mem_reverse, List.mem_range] at hx; exact hx)
      (fun x _ => rfl)
      (Or.inl rfl)
      (by intro x hx; exact absurd hx (by simp))
      (by intro x hx; exact absurd rfl hx)
      res hres
    have hunm : ∃ jm, jm ∈ (List.range nc).reverse ∧ st.row4col jm = M := by
      obtain ⟨j, hj1, hj2⟩ := exists_unmatched_col nr nc M k st.col4row st.row4col
        hknc HMnc hD1 hD3
      exact ⟨j, by rw [List.mem_reverse, List.mem_range]; exact hj1, hj2⟩
    have hsink : res.sink ≠ M := hmaster.2 hunm
    obtain ⟨hsinklt, hsinkM, js, hchain, hchnd⟩ := hmaster.1 hsink
    have hcurM : st.col4row k = M := (hD1 k).mpr (by omega)
    obtain ⟨hCa, hCb, hCc, hCd, hCe, hCf, hCg, hCh, hCj⟩ :=
      searchDual_master nc cost st.u st.v st.col4row st.row4col M nr k HMnc hcurM
        hD3 hK1 nc k 0 st.path (fun _ => none) (fun _ => false) (fun _ => false)
        ((List.range nc).reverse)
        (by simp)
        (by rw [List.nodup_reverse]; exact List.nodup_range nc)
        (by intro x hx; rw [List.mem_reverse, List.mem_range] at hx; exact hx)
        (fun x _ => rfl)
        (by intro j hj; exact Or.inl (by rw [List.mem_reverse, List.mem_range]; exact hj))
        (fun j hj => absurd hj (Bool.noConfusion))
        (fun j _ x hx => absurd hx (Option.noConfusion))
        (fun i' hi' => absurd hi' (Bool.noConfusion))
        (fun i' hi' => absurd hi' (Bool.noConfusion))
        (fun j _ x hx => absurd hx (Option.noConfusion))
        (fun j hj => absurd hj (Bool.noConfusion))
        (fun j hj => absurd hj (Bool.noConfusion))
        (Or.inr rfl)
        hkr
        (fun _ => ⟨rfl, fun _ => rfl, fun _ => rfl⟩)
        (fun h => absurd rfl h)
        res hres hsink
    have hlab : ∀ j, j < nc → ∃ x, res.spc j = some x := by
      intro j hj
      cases hscj : res.SC j with
      | true =>
        obtain ⟨-, x, hx, -⟩ := hCa j hscj
        exact ⟨x, hx⟩
      | false =>
        obtain ⟨x, hx, -⟩ := hCb j hj hscj
        exact ⟨x, hx⟩
    -- augmentation facts
    have hjs : ∀ x ∈ js, st.col4row (st.row4col x) = x := by
      intro x hx
      have hxlt : st.row4col x < nr := ChainL_tail_r4c_lt res.path st.row4col k nr nc
        js res.sink hchain x hx
      rcases hD3 x with h | ⟨-, h2⟩
      · rw [h] at hxlt
        omega
      · exact h2
    have hnoclaim : ∀ i', st.col4row i' ≠ res.sink := by
      intro i' hcon
      rcases hD2 i' with h | ⟨-, h2⟩
      · rw [hcon] at h
        omega
      · rw [hcon, hsinkM] at h2
        have hMM : st.col4row M = M := (hD1 M).mpr (by omega)
        rw [← h2] at hcon
        rw [hMM] at hcon
        omega
    have hchlen : (res.sink :: js).length ≤ nc + 1 := by
      have := length_le_of_nodup_lt (res.sink :: js) nc hchnd
        (ChainL_forall_lt res.path st.row4col k nr nc (res.sink :: js) hchain)
      omega
    obtain ⟨c4r', r4c', haug, hP1, hP2, hP3, hP4, hP5⟩ :=
      augment_chain nr nc M k res.path hkr HMnc HMnr js res.sink
        st.col4row st.row4col (nc + 1) hchlen hchain hchnd hjs hnoclaim hcurM
        hD2 (fun j _ => hD3 j) hD4
    obtain ⟨c4r2, r4c2, haug2, hQ1, hQ2⟩ :=
      augment_pointwise nr nc M k res.path hkr HMnc HMnr js res.sink
        st.col4row st.row4col (nc + 1) hchlen hchain hchnd hjs hnoclaim hcurM
        hD2 (fun j _ => hD3 j) hD4
    have hpair : (c4r', r4c') = (c4r2, r4c2) := Option.some.inj (haug.symm.trans haug2)
    have hr42 : r4c2 = r4c' := (congrArg Prod.snd hpair).symm
    rw [hr42] at hQ1 hQ2
    -- the chain columns are all removed columns
    have hchainSC : ∀ x ∈ js, res.SC x = true := by
      have hwalk : ∀ (t : List Nat) (y : Nat), y < nc →
          ChainL res.path st.row4col k nr nc (y :: t) →
          (∀ x ∈ t, st.col4row (st.row4col x) = x) →
          ∀ x ∈ t, res.SC x = true := by
        intro t
        induction t with
        | nil =>
          intro y hy hch hc4 x hx
          exact absurd hx (List.not_mem_nil x)
        | cons x2 rest ih2 =>
          intro y hy hch hc4 x hx
          obtain ⟨-, hpy, hrnr, hrk, hch2⟩ := hch
          have hx2lt : x2 < nc := ChainL_head_lt res.path st.row4col k nr nc x2 rest hch2
          have hSCx2 : res.SC x2 = true := by
            obtain ⟨xy, hxy⟩ := hlab y hy
            obtain ⟨hSRp, -, -⟩ := hCd y hy xy hxy
            rw [hpy] at hSRp
            obtain ⟨-, h2⟩ := hCe (st.row4col x2) hSRp
            obtain ⟨-, -, h5⟩ := h2 hrk
            rw [hc4 x2 (List.mem_cons_self x2 rest)] at h5
            exact h5
          rcases List.mem_cons.mp hx with h | h
          · rw [h]
            exact hSCx2
          · exact ih2 x2 hx2lt hch2
              (fun z hz => hc4 z (List.mem_cons_of_mem x2 hz)) x h
      exact hwalk js res.sink hsinklt hchain hjs
    have hchainSCall : ∀ x ∈ res.sink :: js, res.SC x = true := by
      intro x hx
      rcases List.mem_cons.mp hx with h | h
      · rw [h]
        exact hCg
      · exact hchainSC x h
    -- the updated duals
    set mv := QI.toQ res.minVal with hmv
    set u1 := fun j => if j = k then st.u k + mv else st.u j with hu1
    set u2 := fun j =>
      if j < nr ∧ res.SR j = true ∧ j ≠ k then
        u1 j + (mv - QI.toQ (res.spc (st.col4row j)))
      else u1 j with hu2
    set v2 := fun j =>
      if j < nc ∧ res.SC j = true then st.v j - (mv - QI.toQ (res.spc j))
      else st.v j with hv2
    have hstep : driverStep nr nc cost M k st = some (.ok ⟨u2, v2, res.path, c4r', r4c'⟩) := by
      rw [driverStep]
      rw [← hres]
      rw [if_neg hsink]
      simp only [← hmv, ← hu1, ← hu2, ← hv2]
      rw [haug]
    -- pointwise description of the updated duals
    have hu2SRall : ∀ i', res.SR i' = true →
        u2 i' = st.u i' + (mv - DF k st.col4row res.spc i') := by
      intro i' hi'
      by_cases hik : i' = k
      · subst hik
        have : u2 i' = u1 i' := by
          rw [hu2]
          show (if i' < nr ∧ res.SR i' = true ∧ i' ≠ i' then
              u1 i' + (mv - QI.toQ (res.spc (st.col4row i'))) else u1 i') = u1 i'
          rw [if_neg]
          intro hcon
          exact hcon.2.2 rfl
        rw [this, hu1]
        show (if i' = i' then st.u i' + mv else st.u i') = _
        rw [if_pos rfl, DF_cur, sub_zero]
      · have h1 : u2 i' = u1 i' + (mv - QI.toQ (res.spc (st.col4row i'))) := by
          rw [hu2]
          show (if i' < nr ∧ res.SR i' = true ∧ i' ≠ k then
              u1 i' + (mv - QI.toQ (res.spc (st.col4row i'))) else u1 i') = _
          rw [if_pos ⟨(hCe i' hi').1, hi', hik⟩]
        have h2 : u1 i' = st.u i' := by
          rw [hu1]
          show (if i' = k then st.u k + mv else st.u i') = _
          rw [if_neg hik]
        rw [h1, h2, DF_ne k st.col4row res.spc i' hik]
    have hu2not : ∀ i', res.SR i' = false → u2 i' = st.u i' := by
      intro i' hi'
      have hik : i' ≠ k := by
        intro hcon
        rw [hcon] at hi'
        rw [hCf] at hi'
        exact Bool.noConfusion hi'
      have h1 : u2 i' = u1 i' := by
        rw [hu2]
        show (if i' < nr ∧ res.SR i' = true ∧ i' ≠ k then
            u1 i' + (mv - QI.toQ (res.spc (st.col4row i'))) else u1 i') = u1 i'
        rw [if_neg]
        intro hcon
        rw [hi'] at hcon
        exact Bool.noConfusion hcon.2.1
      rw [h1, hu1]
      show (if i' = k then st.u k + mv else st.u i') = _
      rw [if_neg hik]
    have hv2SC : ∀ j, res.SC j = true →
        v2 j = st.v j - (mv - QI.toQ (res.spc j)) := by
      intro j hj
      rw [hv2]
      show (if j < nc ∧ res.SC j = true then st.v j - (mv - QI.toQ (res.spc j))
          else st.v j) = _
      rw [if_pos ⟨(hCa j hj).1, hj⟩]
    have hv2not : ∀ j, res.SC j = false → v2 j = st.v j := by
      intro j hj
      rw [hv2]
      show (if j < nc ∧ res.SC j = true then st.v j - (mv - QI.toQ (res.spc j))
          else st.v j) = _
      rw [if_neg]
      intro hcon
      rw [hj] at hcon
      exact Bool.noConfusion hcon.2
    -- feasibility for the updated state
    have hK1' : ∀ i', i' < nr → c4r' i' ≠ M → ∀ j, j < nc →
        0 ≤ cost (i' * nc + j) - u2 i' - v2 j := by
      intro i' hinr hiM j hj
      cases hSRi : res.SR i' with
      | true =>
        rw [hu2SRall i' hSRi]
        cases hSCj : res.SC j with
        | true =>
          rw [hv2SC j hSCj]
          obtain ⟨x, hx, hxle⟩ := hCc i' hSRi j hj
          have hts : QI.toQ (res.spc j) = x := by rw [hx]; rfl
          rw [hts]
          have hgoal : cost (i' * nc + j) - (st.u i' + (mv - DF k st.col4row res.spc i'))
              - (st.v j - (mv - x))
              = DF k st.col4row res.spc i'
                + (cost (i' * nc + j) - st.u i' - st.v j) - x := by abel
          rw [hgoal]
          exact sub_nonneg.mpr hxle
        | false =>
          rw [hv2not j hSCj]
          obtain ⟨x, hx, hmvx⟩ := hCb j hj hSCj
          obtain ⟨x2, hx2, hxle⟩ := hCc i' hSRi j hj
          rw [hx] at hx2
          have hxx : x2 = x := (Option.some.inj hx2).symm
          subst hxx
          have hgoal : cost (i' * nc + j) - (st.u i' + (mv - DF k st.col4row res.spc i'))
              - st.v j
              = DF k st.col4row res.spc i'
                + (cost (i' * nc + j) - st.u i' - st.v j) - mv := by abel
          rw [hgoal]
          exact sub_nonneg.mpr (hmvx.trans hxle)
      | false =>
        rw [hu2not i' hSRi]
        have hik : i' ≠ k := by
          intro hcon
          rw [hcon, hCf] at hSRi
          exact Bool.noConfusion hSRi
        have hiMold : st.col4row i' ≠ M := by
          intro hcon
          exact hiM ((hP1 i').mpr ⟨hcon, hik⟩)
        have hfeasold := hK1 i' hinr hiMold j hj
        cases hSCj : res.SC j with
        | false =>
          rw [hv2not j hSCj]
          exact hfeasold
        | true =>
          rw [hv2SC j hSCj]
          obtain ⟨-, x, hx, hxle⟩ := hCa j hSCj
          have hts : QI.toQ (res.spc j) = x := by rw [hx]; rfl
          rw [hts]
          have hgoal : cost (i' * nc + j) - st.u i' - (st.v j - (mv - x))
              = (cost (i' * nc + j) - st.u i' - st.v j) + (mv - x) := by abel
          rw [hgoal]
          exact add_nonneg hfeasold (sub_nonneg.mpr hxle)
      -- complementary slackness per column for the updated state
    have hK2col : ∀ j, j < nc → r4c' j ≠ M →
        cost (r4c' j * nc + j) - u2 (r4c' j) - v2 j = 0 := by
      intro j hj hjM
      by_cases hjch : j ∈ res.sink :: js
      · have hrj : r4c' j = res.path j := hQ1 j hjch
        obtain ⟨x, hx⟩ := hlab j hj
        obtain ⟨hSRp, hplt, hexact⟩ := hCd j hj x hx
        have hSCj : res.SC j = true := hchainSCall j hjch
        rw [hrj, hu2SRall (res.path j) hSRp, hv2SC j hSCj]
        have hts : QI.toQ (res.spc j) = x := by rw [hx]; rfl
        rw [hts, hexact]
        abel
      · have hrj : r4c' j = st.row4col j := hQ2 j hjch
        rw [hrj] at hjM ⊢
        obtain ⟨hrlt, hc4rj⟩ := (hD3 j).resolve_left hjM
        have hcsold := hK2 (st.row4col j) hrlt (by rw [hc4rj]; omega)
        rw [hc4rj] at hcsold
        cases hSRr : res.SR (st.row4col j) with
        | true =>
          have hrk : st.row4col j ≠ k := by
            intro hcon
            rw [hcon, hcurM] at hc4rj
            omega
          rw [hu2SRall (st.row4col j) hSRr]
          have hSCj : res.SC j = true := by
            obtain ⟨-, h2⟩ := hCe (st.row4col j) hSRr
            obtain ⟨-, -, h5⟩ := h2 hrk
            rw [hc4rj] at h5
            exact h5
          rw [hv2SC j hSCj, DF_ne k st.col4row res.spc (st.row4col j) hrk, hc4rj]
          have hgoal : cost (st.row4col j * nc + j)
              - (st.u (st.row4col j) + (mv - QI.toQ (res.spc j)))
              - (st.v j - (mv - QI.toQ (res.spc j)))
              = cost (st.row4col j * nc + j) - st.u (st.row4col j) - st.v j := by abel
          rw [hgoal]
          exact hcsold
        | false =>
          have hSCj : res.SC j = false := by
            cases hscj2 : res.SC j with
            | false => rfl
            | true =>
              rcases hCh j hscj2 with h | h
              · exact absurd h hjM
              · rw [hSRr] at h
                exact absurd h (Bool.noConfusion)
          rw [hu2not (st.row4col j) hSRr, hv2not j hSCj]
          exact hcsold
    -- per-row complementary slackness
    have hK2' : ∀ i', i' < nr → c4r' i' ≠ M →
        cost (i' * nc + c4r' i') - u2 i' - v2 (c4r' i') = 0 := by
      intro i' hinr hiM
      obtain ⟨hlt, hrc⟩ := (hP2 i').resolve_left hiM
      have h := hK2col (c4r' i') hlt (by rw [hrc]; omega)
      rw [hrc] at h
      exact h
    have hchainlow : ∀ x ∈ res.sink :: js, res.path x < nr :=
      fun x hx => (hCd x (ChainL_forall_lt res.path st.row4col k nr nc
        (res.sink :: js) hchain x hx)
        (hlab x (ChainL_forall_lt res.path st.row4col k nr nc
          (res.sink :: js) hchain x hx)).choose
        (hlab x (ChainL_forall_lt res.path st.row4col k nr nc
          (res.sink :: js) hchain x hx)).choose_spec).2.1
    have hK4' : ∀ j, v2 j ≤ 0 := by
      intro j
      cases hscj : res.SC j with
      | true =>
        rw [hv2SC j hscj]
        obtain ⟨-, x, hx, hxle⟩ := hCa j hscj
        have hts : QI.toQ (res.spc j) = x := by rw [hx]; rfl
        rw [hts]
        calc st.v j - (mv - x) ≤ st.v j := sub_le_self _ (sub_nonneg.mpr hxle)
        _ ≤ 0 := hK4 j
      | false =>
        rw [hv2not j hscj]
        exact hK4 j
    have hK3' : ∀ j, r4c' j = M → v2 j = 0 := by
      intro j hj
      have hjch : j ∉ res.sink :: js := by
        intro hcon
        have h1 := hQ1 j hcon
        have h2 := hchainlow j hcon
        rw [h1] at hj
        omega
      have hrold : st.row4col j = M := by
        rw [← hQ2 j hjch]
        exact hj
      have hscj : res.SC j = false := by
        cases hscj2 : res.SC j with
        | false => rfl
        | true =>
          rcases hCj j hscj2 with h | h
          · exact absurd (h ▸ hjch) (fun hcon => hcon (List.mem_cons_self _ _))
          · exact absurd hrold h
      rw [hv2not j hscj]
      exact hK3 j hrold
    have hD1' : ∀ i, c4r' i = M ↔ k + 1 ≤ i := by
      intro i
      rw [hP1 i, hD1 i]
      omega
    have hD4' : ∀ j, ¬ j < nc → r4c' j = M := by
      intro j hj
      rw [hP5 j hj]
      exact hD4 j hj
    obtain ⟨st', hloop, hC1, hC2, hC3, hC4, hC5, hC6, hC7, hC8⟩ :=
      ih (k + 1) ⟨u2, v2, res.path, c4r', r4c'⟩ (by omega) hD1' hP2 hP3 hD4' hK1' hK2'
        hK3' hK4'
    refine ⟨st', ?_, by intro i; rw [hC1 i]; omega, hC2, hC3, hC4, hC5, hC6, hC7, hC8⟩
    rw [List.range'_succ]
    rw [driverLoop]
    rw [hstep]
    exact hloop

/-- C5 (corrected: restricted to already-processed rows).  After each
per-row iteration of the driver loop of `solve` (a prefix of `k ≤ nr`
rows of the normalized problem run from the initial state), the dual
variables satisfy `cost[i*nc+j] - u[i] - v[j] ≥ 0` for every
already-processed row `i < k` and every column `j < nc`, with equality
(reduced cost exactly zero) on every currently matched pair.  For rows
not yet processed the inequality can fail, see the counterexample. -/
theorem C5_complementary_slackness (nr nc : Nat) (costQ : Nat → α) (k : Nat)
    (h1 : 1 ≤ nr) (h2 : nr ≤ nc) (hk : k ≤ nr) :
    ∃ st : LsapState α,
      driverLoop nr nc costQ (nr * nc) (List.range' 0 k) (initState (nr * nc))
        = some (.ok st)
      ∧ (∀ i j, i < k → j < nc → 0 ≤ costQ (i * nc + j) - st.u i - st.v j)
      ∧ (∀ i, i < k → st.col4row i < nc
          ∧ costQ (i * nc + st.col4row i) - st.u i - st.v (st.col4row i) = 0) := by
  obtain ⟨st, hloop, hD1, hD2, hD3, hD4, hK1, hK2, hK3, hK4⟩ :=
    driverC5_master nc costQ nr (nr * nc) rfl h1 h2 k 0 (initState (nr * nc))
      (by omega)
      (fun i => ⟨fun _ => Nat.zero_le i, fun _ => rfl⟩)
      (fun i => Or.inl rfl)
      (fun j => Or.inl rfl)
      (fun j _ => rfl)
      (fun i' _ hiM => absurd rfl hiM)
      (fun i' _ hiM => absurd rfl hiM)
      (fun j _ => rfl)
      (fun j => le_refl 0)
  refine ⟨st, hloop, ?_, ?_⟩
  · intro i j hi hj
    refine hK1 i (by omega) ?_ j hj
    intro hcon
    rw [hD1 i] at hcon
    omega
  · intro i hi
    have hiM : st.col4row i ≠ nr * nc := by
      intro hcon
      rw [hD1 i] at hcon
      omega
    obtain ⟨hlt, -⟩ := (hD2 i).resolve_left hiM
    exact ⟨hlt, hK2 i (by omega) hiM⟩

/-- Witness for the corrected C5 at a concrete instance. -/
theorem C5_complementary_slackness_witness :
    (1 ≤ 2 ∧ 2 ≤ 2 ∧ 1 ≤ 2)
    ∧ (∃ st : LsapState ℤ,
        driverLoop 2 2 (fun t => (([0, 0, -1, 0] : List ℤ).getD t 0)) (2 * 2)
          (List.range' 0 1) (initState (2 * 2)) = some (.ok st)
        ∧ (∀ i j, i < 1 → j < 2 →
            0 ≤ (fun t => (([0, 0, -1, 0] : List ℤ).getD t 0)) (i * 2 + j)
              - st.u i - st.v j)
        ∧ (∀ i, i < 1 → st.col4row i < 2
            ∧ (fun t => (([0, 0, -1, 0] : List ℤ).getD t 0)) (i * 2 + st.col4row i)
              - st.u i - st.v (st.col4row i) = 0)) :=
  ⟨⟨by decide, by decide, by decide⟩,
    C5_complementary_slackness 2 2 (fun t => (([0, 0, -1, 0] : List ℤ).getD t 0)) 1
      (by decide) (by decide) (by decide)⟩

/-- Counterexample to C5 as stated: on the 2 by 2 integer matrix
`[[0, 0], [-1, 0]]` (minimizing, no transpose), after the first driver
iteration the reduced cost of the not-yet-processed row `1` at column
`0` is negative, so the claimed inequality fails for a row of the
normalized matrix that the loop has not reached yet. -/
theorem C5_counterexample :
    (match driverLoop 2 2 (fun t => (([0, 0, -1, 0] : List ℤ).getD t 0)) (2 * 2)
        (List.range' 0 1) (initState (2 * 2)) with
      | some (.ok st) =>
        decide ((([0, 0, -1, 0] : List ℤ).getD (1 * 2 + 0) 0)
          - st.u 1 - st.v 0 < 0)
      | _ => false) = true := by decide

/-! ### C1: optimality of the returned assignment -/

/-- Auxiliary: the driver loop's final matching on the normalized
problem minimizes the total cost among all pairings given by injections
of the rows into the columns (in any order). -/
theorem driver_optimal (nr nc : Nat) (costQ : Nat → α) (h1 : 1 ≤ nr) (h2 : nr ≤ nc) :
    ∃ st : LsapState α,
      driverLoop nr nc costQ (nr * nc) (List.range nr) (initState (nr * nc))
        = some (.ok st)
      ∧ (∀ i, i < nr → st.col4row i < nc)
      ∧ (∀ f g : Nat → Nat,
          (∀ t, t < nr → f t < nr) → (∀ t, t < nr → g t < nc) →
          (∀ t1 t2, t1 < nr → t2 < nr → f t1 = f t2 → t1 = t2) →
          (∀ t1 t2, t1 < nr → t2 < nr → g t1 = g t2 → t1 = t2) →
          (∑ i in Finset.range nr, costQ (i * nc + st.col4row i))
            ≤ ∑ t in Finset.range nr, costQ (f t * nc + g t)) := by
  obtain ⟨st, hloop, hD1, hD2, hD3, hD4, hK1, hK2, hK3, hK4⟩ :=
    driverC5_master nc costQ nr (nr * nc) rfl h1 h2 nr 0 (initState (nr * nc))
      (by omega)
      (fun i => ⟨fun _ => Nat.zero_le i, fun _ => rfl⟩)
      (fun i => Or.inl rfl)
      (fun j => Or.inl rfl)
      (fun j _ => rfl)
      (fun i' _ hiM => absurd rfl hiM)
      (fun i' _ hiM => absurd rfl hiM)
      (fun j _ => rfl)
      (fun j => le_refl 0)
  rw [← List.range_eq_range'] at hloop
  have hM : ∀ i, i < nr → st.col4row i ≠ nr * nc := by
    intro i hi hcon
    rw [hD1 i] at hcon
    omega
  have hblt : ∀ i, i < nr → st.col4row i < nc :=
    fun i hi => ((hD2 i).resolve_left (hM i hi)).1
  refine ⟨st, hloop, hblt, ?_⟩
  intro f g hfb hgb hfi hgi
  have hcs : ∀ i ∈ Finset.range nr, costQ (i * nc + st.col4row i)
      = st.u i + st.v (st.col4row i) := by
    intro i hi
    rw [Finset.mem_range] at hi
    have h := hK2 i hi (hM i hi)
    have h2 : costQ (i * nc + st.col4row i) - (st.u i + st.v (st.col4row i)) = 0 := by
      calc costQ (i * nc + st.col4row i) - (st.u i + st.v (st.col4row i))
          = costQ (i * nc + st.col4row i) - st.u i - st.v (st.col4row i) := by abel
      _ = 0 := h
    exact sub_eq_zero.mp h2
  have hfe : ∀ t ∈ Finset.range nr, st.u (f t) + st.v (g t) ≤ costQ (f t * nc + g t) := by
    intro t ht
    rw [Finset.mem_range] at ht
    have h := hK1 (f t) (hfb t ht) (hM (f t) (hfb t ht)) (g t) (hgb t ht)
    have h2 : 0 ≤ costQ (f t * nc + g t) - (st.u (f t) + st.v (g t)) := by
      calc (0 : α) ≤ costQ (f t * nc + g t) - st.u (f t) - st.v (g t) := h
      _ = costQ (f t * nc + g t) - (st.u (f t) + st.v (g t)) := by abel
    exact sub_nonneg.mp h2
  have hsum1 : ∑ i in Finset.range nr, costQ (i * nc + st.col4row i)
      = (∑ i in Finset.range nr, st.u i)
        + ∑ i in Finset.range nr, st.v (st.col4row i) := by
    rw [← Finset.sum_add_distrib]
    exact Finset.sum_congr rfl hcs
  have hsum2 : (∑ t in Finset.range nr, st.u (f t))
      + (∑ t in Finset.range nr, st.v (g t))
      ≤ ∑ t in Finset.range nr, costQ (f t * nc + g t) := by
    rw [← Finset.sum_add_distrib]
    exact Finset.sum_le_sum hfe
  have hfinj : ∀ x ∈ Finset.range nr, ∀ y ∈ Finset.range nr, f x = f y → x = y := by
    intro x hx y hy hxy
    rw [Finset.mem_range] at hx hy
    exact hfi x y hx hy hxy
  have hginj : ∀ x ∈ Finset.range nr, ∀ y ∈ Finset.range nr, g x = g y → x = y := by
    intro x hx y hy hxy
    rw [Finset.mem_range] at hx hy
    exact hgi x y hx hy hxy
  have hfimg : (Finset.range nr).image f = Finset.range nr := by
    apply Finset.eq_of_subset_of_card_le
    · intro x hx
      rw [Finset.mem_image] at hx
      obtain ⟨t, ht, hxt⟩ := hx
      rw [Finset.mem_range] at ht ⊢
      rw [← hxt]
      exact hfb t ht
    · rw [Finset.card_image_of_injOn, Finset.card_range]
      intro x hx y hy hxy
      rw [Finset.mem_coe, Finset.mem_range] at hx hy
      exact hfi x y hx hy hxy
  have husum : ∑ t in Finset.range nr, st.u (f t) = ∑ i in Finset.range nr, st.u i := by
    calc ∑ t in Finset.range nr, st.u (f t)
        = ∑ i in (Finset.range nr).image f, st.u i := (Finset.sum_image hfinj).symm
    _ = ∑ i in Finset.range nr, st.u i := by rw [hfimg]
  have hsinj : ∀ x ∈ Finset.range nr, ∀ y ∈ Finset.range nr,
      st.col4row x = st.col4row y → x = y := by
    intro x hx y hy hxy
    rw [Finset.mem_range] at hx hy
    have ha := ((hD2 x).resolve_left (hM x hx)).2
    have hb := ((hD2 y).resolve_left (hM y hy)).2
    rw [← ha, ← hb, hxy]
  have hvsum_sigma : ∑ i in Finset.range nr, st.v (st.col4row i)
      = ∑ j in Finset.range nc, st.v j := by
    calc ∑ i in Finset.range nr, st.v (st.col4row i)
        = ∑ j in (Finset.range nr).image st.col4row, st.v j :=
          (Finset.sum_image hsinj).symm
    _ = ∑ j in Finset.range nc, st.v j := by
        apply Finset.sum_subset
        · intro j hj
          rw [Finset.mem_image] at hj
          obtain ⟨i, hi, hij⟩ := hj
          rw [Finset.mem_range] at hi ⊢
          rw [← hij]
          exact hblt i hi
        · intro j hj hnj
          have hrj : st.row4col j = nr * nc := by
            by_contra hrcon
            obtain ⟨hlt2, hc2⟩ := (hD3 j).resolve_left hrcon
            apply hnj
            rw [Finset.mem_image]
            exact ⟨st.row4col j, Finset.mem_range.mpr hlt2, hc2⟩
          exact hK3 j hrj
  have hgsub : (Finset.range nr).image g ⊆ Finset.range nc := by
    intro x hx
    rw [Finset.mem_image] at hx
    obtain ⟨t, ht, hxt⟩ := hx
    rw [Finset.mem_range] at ht ⊢
    rw [← hxt]
    exact hgb t ht
  have hvsum_tau : ∑ j in Finset.range nc, st.v j
      ≤ ∑ t in Finset.range nr, st.v (g t) := by
    calc ∑ j in Finset.range nc, st.v j
        = (∑ j in Finset.range nc \ (Finset.range nr).image g, st.v j)
          + ∑ j in (Finset.range nr).image g, st.v j := (Finset.sum_sdiff hgsub).symm
    _ ≤ 0 + ∑ j in (Finset.range nr).image g, st.v j := by
        apply add_le_add_right
        apply Finset.sum_nonpos
        intro j hj
        exact hK4 j
    _ = ∑ j in (Finset.range nr).image g, st.v j := zero_add _
    _ = ∑ t in Finset.range nr, st.v (g t) := Finset.sum_image hginj
  calc ∑ i in Finset.range nr, costQ (i * nc + st.col4row i)
      = (∑ i in Finset.range nr, st.u i)
        + ∑ i in Finset.range nr, st.v (st.col4row i) := hsum1
  _ = (∑ i in Finset.range nr, st.u i) + ∑ j in Finset.range nc, st.v j := by
      rw [hvsum_sigma]
  _ ≤ (∑ i in Finset.range nr, st.u i) + ∑ t in Finset.range nr, st.v (g t) :=
      add_le_add_left hvsum_tau _
  _ = (∑ t in Finset.range nr, st.u (f t)) + ∑ t in Finset.range nr, st.v (g t) := by
      rw [husum]
  _ ≤ ∑ t in Finset.range nr, costQ (f t * nc + g t) := hsum2

/-- Auxiliary: a list sum over positions as a `Finset.range` sum. -/
theorem list_map_sum_eq (F : Nat → α) :
    ∀ l : List Nat, (l.map F).sum = ∑ t in Finset.range l.length, F (l.getD t 0) := by
  intro l
  induction l with
  | nil => simp
  | cons a t ih =>
    rw [List.map_cons, List.sum_cons, List.length_cons, Finset.sum_range_succ']
    simp only [List.getD_cons_succ, List.getD_cons_zero]
    rw [ih, add_comm]

/-- Auxiliary: summing a function over the positions of a permutation of
`range n` is summing it over `range n`. -/
theorem sum_getD_perm (l : List Nat) (n : Nat) (F : Nat → α)
    (hl : l.Perm (List.range n)) :
    ∑ t in Finset.range n, F (l.getD t 0) = ∑ j in Finset.range n, F j := by
  have hlen : l.length = n := by rw [hl.length_eq, List.length_range]
  have h1 : (l.map F).sum = ((List.range n).map F).sum := (hl.map F).sum_eq
  rw [list_map_sum_eq, list_map_sum_eq, hlen, List.length_range] at h1
  rw [h1]
  apply Finset.sum_congr rfl
  intro t ht
  rw [Finset.mem_range] at ht
  rw [List.getD_eq_getElem _ _ (by rw [List.length_range]; exact ht)]
  rw [List.getElem_range]

/-- Auxiliary: an entry of the transposed copy in terms of the original
matrix. -/
theorem transposeFlat_entry (rows cols : Nat) (cost : List (F64 α)) (i j : Nat)
    (hi : i < rows) (hj : j < cols) :
    (transposeFlat rows cols cost).getD (j * rows + i) default
      = cost.getD (i * cols + j) default := by
  have hk : j * rows + i < cols * rows := by
    calc j * rows + i < j * rows + rows := by omega
    _ = (j + 1) * rows := by rw [Nat.succ_mul]
    _ ≤ cols * rows := Nat.mul_le_mul_right rows hj
  rw [transposeFlat_getD rows cols cost _ hk]
  have hmod : (j * rows + i) % rows = i := by
    rw [Nat.mul_comm j rows, Nat.mul_add_mod, Nat.mod_eq_of_lt hi]
  have hdiv : (j * rows + i) / rows = j := by
    rw [Nat.add_comm, Nat.add_mul_div_right _ _ (by omega : 0 < rows),
      Nat.div_eq_of_lt hi, Nat.zero_add]
  rw [hmod, hdiv]

set_option maxHeartbeats 1000000 in
/-- C1.  For every all-finite cost matrix with `rows ≥ 1` and `cols ≥ 1`,
`solve` with `maximize = false` succeeds, and the total cost of the
returned pairing is at most the total cost of every other one-to-one
pairing given by `min rows cols` pairs with pairwise-distinct row
indices and pairwise-distinct column indices (in any order). -/
theorem C1_optimality (rows cols : Nat) (cost : List (F64 α))
    (h1 : 1 ≤ rows) (h2 : 1 ≤ cols)
    (hfin : ∀ t, t < rows * cols → (cost.getD t default).isFinite = true) :
    ∃ a b, solve rows cols cost false = some (.ok (a, b))
      ∧ ∀ f g : Nat → Nat,
          (∀ t, t < min rows cols → f t < rows) →
          (∀ t, t < min rows cols → g t < cols) →
          (∀ t1 t2, t1 < min rows cols → t2 < min rows cols → f t1 = f t2 → t1 = t2) →
          (∀ t1 t2, t1 < min rows cols → t2 < min rows cols → g t1 = g t2 → t1 = t2) →
          (∑ t in Finset.range (min rows cols),
              (cost.getD (a.getD t 0 * cols + b.getD t 0) default).toRat)
            ≤ ∑ t in Finset.range (min rows cols),
                (cost.getD (f t * cols + g t) default).toRat := by
  by_cases htr : cols < rows
  · -- the matrix is transposed before solving
    have hmin : min rows cols = cols := by omega
    have hsolve_eq : solve rows cols cost false
        = solveMain cols rows (transposeFlat rows cols cost) true := by
      unfold solve
      rw [if_neg (by omega : ¬(rows = 0 ∨ cols = 0))]
      simp only [show decide (cols < rows) = true from decide_eq_true htr,
        Bool.false_eq_true, if_false, eq_self_iff_true, if_true]
    obtain ⟨st, hdl, hblt, hopt⟩ := driver_optimal cols rows
      (fun k => ((transposeFlat rows cols cost).getD k default).toRat) h2 (by omega)
    have hall : (List.range (cols * rows)).all
        (fun k => ((transposeFlat rows cols cost).getD k default).isFinite) = true := by
      rw [List.all_eq_true]
      intro t ht
      rw [List.mem_range] at ht
      have hmlt : t % rows < rows := Nat.mod_lt _ (by omega)
      have hdlt : t / rows < cols := by
        apply Nat.div_lt_of_lt_mul
        calc t < cols * rows := ht
        _ = rows * cols := Nat.mul_comm _ _
      rw [transposeFlat_getD rows cols cost t ht]
      exact hfin _ (by
        calc (t % rows) * cols + t / rows < (t % rows) * cols + cols := by omega
        _ = (t % rows + 1) * cols := by rw [Nat.succ_mul]
        _ ≤ rows * cols := Nat.mul_le_mul_right cols hmlt)
    have hs : solve rows cols cost false
        = some (.ok ((argsort_iter ((List.range cols).map st.col4row)).map
            (fun t => ((List.range cols).map st.col4row).getD t 0),
          argsort_iter ((List.range cols).map st.col4row))) := by
      rw [hsolve_eq]
      unfold solveMain
      rw [if_pos hall]
      simp only []
      rw [hdl]
      rfl
    refine ⟨_, _, hs, ?_⟩
    rw [hmin]
    intro f g hfb hgb hfinj hginj
    have hlenc : ((List.range cols).map st.col4row).length = cols := by simp
    have hperm : (argsort_iter ((List.range cols).map st.col4row)).Perm
        (List.range cols) := by
      unfold argsort_iter
      rw [hlenc]
      exact List.perm_insertionSort _ _
    have hidxlen : (argsort_iter ((List.range cols).map st.col4row)).length = cols := by
      rw [hperm.length_eq, List.length_range]
    have hidxlt : ∀ t, t < cols →
        (argsort_iter ((List.range cols).map st.col4row)).getD t 0 < cols := by
      intro t ht
      have hmem : (argsort_iter ((List.range cols).map st.col4row)).getD t 0
          ∈ argsort_iter ((List.range cols).map st.col4row) := by
        rw [List.getD_eq_getElem _ _ (by rw [hidxlen]; exact ht)]
        exact List.getElem_mem _
      have := hperm.mem_iff.mp hmem
      rw [List.mem_range] at this
      exact this
    have hpt : ∀ t ∈ Finset.range cols,
        (cost.getD (((argsort_iter ((List.range cols).map st.col4row)).map
            (fun t => ((List.range cols).map st.col4row).getD t 0)).getD t 0 * cols
          + (argsort_iter ((List.range cols).map st.col4row)).getD t 0)
            default).toRat
        = (fun j => ((transposeFlat rows cols cost).getD (j * rows + st.col4row j)
            default).toRat)
          ((argsort_iter ((List.range cols).map st.col4row)).getD t 0) := by
      intro t ht
      rw [Finset.mem_range] at ht
      have hjt := hidxlt t ht
      have ha : ((argsort_iter ((List.range cols).map st.col4row)).map
          (fun t => ((List.range cols).map st.col4row).getD t 0)).getD t 0
          = st.col4row ((argsort_iter ((List.range cols).map st.col4row)).getD t 0) := by
        rw [List.getD_eq_getElem _ _ (by
          rw [List.length_map, hidxlen]
          exact ht)]
        rw [List.getElem_map]
        rw [← List.getD_eq_getElem _ 0 (by rw [hidxlen]; exact ht)]
        exact getD_range_map st.col4row cols _ 0 hjt
      rw [ha]
      exact congrArg F64.toRat (transposeFlat_entry rows cols cost _ _
        (hblt _ hjt) hjt).symm
    calc ∑ t in Finset.range cols,
        (cost.getD (((argsort_iter ((List.range cols).map st.col4row)).map
            (fun t => ((List.range cols).map st.col4row).getD t 0)).getD t 0 * cols
          + (argsort_iter ((List.range cols).map st.col4row)).getD t 0)
            default).toRat
        = ∑ t in Finset.range cols,
          (fun j => ((transposeFlat rows cols cost).getD (j * rows + st.col4row j)
              default).toRat)
            ((argsort_iter ((List.range cols).map st.col4row)).getD t 0) :=
        Finset.sum_congr rfl hpt
    _ = ∑ j in Finset.range cols,
          ((transposeFlat rows cols cost).getD (j * rows + st.col4row j)
            default).toRat :=
        sum_getD_perm (argsort_iter ((List.range cols).map st.col4row)) cols
          (fun j => ((transposeFlat rows cols cost).getD (j * rows + st.col4row j)
            default).toRat) hperm
    _ ≤ ∑ t in Finset.range cols,
          ((transposeFlat rows cols cost).getD (g t * rows + f t) default).toRat :=
        hopt g f hgb hfb hginj hfinj
    _ = ∑ t in Finset.range cols, (cost.getD (f t * cols + g t) default).toRat := by
        apply Finset.sum_congr rfl
        intro t ht
        rw [Finset.mem_range] at ht
        rw [transposeFlat_entry rows cols cost (f t) (g t) (hfb t ht) (hgb t ht)]
  · -- no transposition
    have hmin : min rows cols = rows := by omega
    have hsolve_eq : solve rows cols cost false = solveMain rows cols cost false := by
      unfold solve
      rw [if_neg (by omega : ¬(rows = 0 ∨ cols = 0))]
      simp only [show decide (cols < rows) = false from decide_eq_false htr,
        Bool.false_eq_true, if_false]
    obtain ⟨st, hdl, hblt, hopt⟩ := driver_optimal rows cols
      (fun k => ((cost.getD k default).toRat : α)) h1 (by omega)
    have hall : (List.range (rows * cols)).all
        (fun k => ((cost.getD k default).isFinite)) = true := by
      rw [List.all_eq_true]
      intro t ht
      rw [List.mem_range] at ht
      exact hfin t ht
    have hs : solve rows cols cost false
        = some (.ok (List.range rows, (List.range rows).map st.col4row)) := by
      rw [hsolve_eq]
      unfold solveMain
      rw [if_pos hall]
      simp only []
      rw [hdl]
      rfl
    refine ⟨_, _, hs, ?_⟩
    rw [hmin]
    intro f g hfb hgb hfinj hginj
    have hpt : ∀ t ∈ Finset.range rows,
        (cost.getD ((List.range rows).getD t 0 * cols
          + ((List.range rows).map st.col4row).getD t 0) default).toRat
        = (fun k => ((cost.getD k default).toRat : α)) (t * cols + st.col4row t) := by
      intro t ht
      rw [Finset.mem_range] at ht
      have hrg : (List.range rows).getD t 0 = t := by
        rw [List.getD_eq_getElem _ _ (by rw [List.length_range]; exact ht)]
        rw [List.getElem_range]
      rw [hrg, getD_range_map st.col4row rows t 0 ht]
    calc ∑ t in Finset.range rows,
        (cost.getD ((List.range rows).getD t 0 * cols
          + ((List.range rows).map st.col4row).getD t 0) default).toRat
        = ∑ t in Finset.range rows,
          (fun k => ((cost.getD k default).toRat : α)) (t * cols + st.col4row t) :=
        Finset.sum_congr rfl hpt
    _ ≤ ∑ t in Finset.range rows,
          (fun k => ((cost.getD k default).toRat : α)) (f t * cols + g t) :=
        hopt f g hfb hgb hfinj hginj
    _ = ∑ t in Finset.range rows, (cost.getD (f t * cols + g t) default).toRat := rfl

/-- Witness for C1 at a concrete integer matrix. -/
theorem C1_optimality_witness :
    (1 ≤ 2 ∧ 1 ≤ 3
      ∧ (∀ t, t < 2 * 3 →
        (((([4, 1, 3, 2, 0, 5] : List ℤ).map F64.fin).getD t default).isFinite = true)))
    ∧ (∃ a b, solve 2 3 (([4, 1, 3, 2, 0, 5] : List ℤ).map F64.fin) false
        = some (.ok (a, b))
      ∧ ∀ f g : Nat → Nat,
          (∀ t, t < min 2 3 → f t < 2) →
          (∀ t, t < min 2 3 → g t < 3) →
          (∀ t1 t2, t1 < min 2 3 → t2 < min 2 3 → f t1 = f t2 → t1 = t2) →
          (∀ t1 t2, t1 < min 2 3 → t2 < min 2 3 → g t1 = g t2 → t1 = t2) →
          (∑ t in Finset.range (min 2 3),
              ((([4, 1, 3, 2, 0, 5] : List ℤ).map F64.fin).getD
                (a.getD t 0 * 3 + b.getD t 0) default).toRat)
            ≤ ∑ t in Finset.range (min 2 3),
                ((([4, 1, 3, 2, 0, 5] : List ℤ).map F64.fin).getD
                  (f t * 3 + g t) default).toRat) :=
  ⟨⟨by decide, by decide, by decide⟩,
    C1_optimality 2 3 (([4, 1, 3, 2, 0, 5] : List ℤ).map F64.fin)
      (by decide) (by decide) (by decide)⟩
